import Mathlib

/-!
# Visibility graph analysis: the global visual measures (`VGAVisualGlobal`)

A shallow embedding of `salalib/vgamodules/vgavisualglobal.cpp`:

* `extractUnseen` : the frontier expander walking the run-length encoded
  adjacency of one cell, with the extent early exit;
* `visit`, `levelStep`, `search`, `episode` : one breadth-first traversal
  episode rooted at a cell (lines 79-128 of the source);
* `writeMetrics` : the attribute values written for the root (lines 129-191);
* `runCell`, `run` : the loop over every cell of the grid (lines 69-204).

Modelling conventions.

* A C++ vector that is only ever extended with `push_back` and consumed from
  its tail is a `List` holding the newest element first: `push_back` is
  `List.cons`, `tail()` is the head of the list, and the source's loop
  `for (n = size - 1; n != npos; n--) { ...; pop_back(); }` visits the list
  head first.  The depth distribution is turned into depth order by
  `SearchState.depthDistribution`.
* The `int` visited marker is the natural number with the same 32-bit
  two's-complement pattern (`~0` is `0xFFFFFFFF`).  Coordinates (`short`) are
  integers, counters (`int`) are natural numbers; overflow is out of reach
  for grids below 32767 x 32767 and is not modelled.
* The matrices `miscs` and `extents` are functions on all positions; the source
  only ever resets and owns the positions inside the grid, so statements
  that depend on the workspace ask for the runs to lie inside the grid (an
  access outside the matrix is undefined behaviour in the source).
* `double` arithmetic is exact rational arithmetic; the transcendental
  helpers and the normalisation tables that live outside this file are the
  fields of `MathFns`.
-/

set_option autoImplicit false

namespace VGAVisualGlobal

/-! ## Data model -/

/-- A grid position: column `x` and row `y` (two `short`s in the source). -/
structure PixelRef where
  x : Int
  y : Int
deriving DecidableEq

/-- Modelled from the spec: the axis of a bin, `Bin::m_dir`.  The header that
declares the direction codes (`PixelRef::HORIZONTAL`, `VERTICAL`,
`POSDIAGONAL`, `NEGDIAGONAL`, and the mask `DIAGONAL` covering the last two)
is not among the sources.  A bin that was never made carries no run, so its
direction is never consulted; it is represented by any direction with an
empty run list. -/
inductive Dir
  | horizontal
  | vertical
  | posdiagonal
  | negdiagonal
deriving DecidableEq

/-- The test `m_dir & PixelRef::DIAGONAL`. -/
def Dir.diagonal : Dir → Bool
  | .posdiagonal => true
  | .negdiagonal => true
  | _ => false

/-- Modelled from the spec: `PixelRef::col(dir)`, the coordinate along the
axis of a bin: `y` for a vertical bin and `x` otherwise (a diagonal run is
walked along `x`). -/
def PixelRef.col (p : PixelRef) : Dir → Int
  | .vertical => p.y
  | _ => p.x

/-- The assignment `extent.col(dir) = v`. -/
def PixelRef.setCol (p : PixelRef) (dir : Dir) (v : Int) : PixelRef :=
  match dir with
  | .vertical => { p with y := v }
  | _ => { p with x := v }

/-- Modelled from the spec: `PixelRef::move(dir)`, one step of the cursor
along the axis of a bin, on coordinates taken as mathematical integers.  The
coordinates of the source are `short`s: `moveShort` is the same step with
their wrap-around, and the two agree as long as no coordinate passes 32767. -/
def PixelRef.move (p : PixelRef) : Dir → PixelRef
  | .horizontal => ⟨p.x + 1, p.y⟩
  | .vertical => ⟨p.x, p.y + 1⟩
  | .posdiagonal => ⟨p.x + 1, p.y + 1⟩
  | .negdiagonal => ⟨p.x + 1, p.y - 1⟩

/-- A run of pixels (`PixelVec`): `start()` and `end()`. -/
structure PixelVec where
  start : PixelRef
  end_ : PixelRef
deriving DecidableEq

/-- One angular bin of a node: its axis and its runs. -/
structure Bin where
  m_dir : Dir
  m_pixel_vecs : List PixelVec

/-- The adjacency node of a cell: `bin i` for `0 ≤ i < 32`. -/
structure Node where
  bin : Nat → Bin

/-- A cell of the grid.  `getMergePixel` is `none` when the source's merge
pixel is empty. -/
structure Point where
  filled : Bool
  contextfilled : Bool
  getMergePixel : Option PixelRef
  getNode : Node

/-- The grid.  `iseven` is `PixelRef::iseven`, declared in a header that is
not among the sources; it is carried as a parameter. -/
structure PointMap where
  getCols : Nat
  getRows : Nat
  getPoint : PixelRef → Point
  iseven : PixelRef → Bool

/-- The options read by the analysis; `radius` is `(int)options.radius`. -/
structure Options where
  radius : Int
  gates_only : Bool

/-- The scratch matrices `miscs` and `extents`. -/
structure Workspace where
  miscs : PixelRef → Nat
  extents : PixelRef → PixelRef

/-- The consumed sentinel `~0` as a 32-bit pattern. -/
def allOnes : Nat := 0xFFFFFFFF

/-- The value `1 << i` as a 32-bit pattern. -/
def binBit (i : Nat) : Nat := (1 <<< i) % 2 ^ 32

/-- The assignment `miscs(p.y, p.x) = v`. -/
def Workspace.setMisc (ws : Workspace) (p : PixelRef) (v : Nat) : Workspace :=
  { ws with miscs := fun q => if q = p then v else ws.miscs q }

/-- The assignment `extents(p.y, p.x) = v`. -/
def Workspace.setExtent (ws : Workspace) (p : PixelRef) (v : PixelRef) : Workspace :=
  { ws with extents := fun q => if q = p then v else ws.extents q }

/-- Position `p` is one of the `getCols × getRows` positions of the grid. -/
def PointMap.inGrid (map : PointMap) (p : PixelRef) : Prop :=
  0 ≤ p.x ∧ p.x < map.getCols ∧ 0 ≤ p.y ∧ p.y < map.getRows

instance (map : PointMap) (p : PixelRef) : Decidable (map.inGrid p) := by
  unfold PointMap.inGrid; infer_instance

/-! ## The frontier expander -/

/-- The walk over one run (the innermost `for` of `extractUnseen`, lines
222-236) with the cursor on mathematical integers: `i` is the bin index,
`dir` its axis, `e` is `pixVec.end().col(dir)`.  The first argument bounds
the number of iterations; `extractRun` passes the number the loop condition
allows to a cursor that never wraps.  The walk of the source, whose cursor
is a pair of `short`s, is `scanShort`; it returns what this walk returns
whenever the cells of the run lie in a grid of at most 32767 columns and
rows, and it does not return when the cursor wraps. -/
def scanRun (i : Nat) (dir : Dir) (e : Int) :
    Nat → PixelRef → Workspace × List PixelRef → Workspace × List PixelRef
  | 0, _, st => st
  | n + 1, pix, st =>
    if pix.col dir ≤ e then
      let st1 : Workspace × List PixelRef :=
        if st.1.miscs pix = 0 then
          (st.1.setMisc pix (st.1.miscs pix ||| binBit i), pix :: st.2)
        else st
      if dir.diagonal = false then
        if e ≤ (st1.1.extents pix).col dir then st1
        else
          scanRun i dir e n (pix.move dir)
            (st1.1.setExtent pix ((st1.1.extents pix).setCol dir e), st1.2)
      else scanRun i dir e n (pix.move dir) st1
    else st

/-- The scan of one run of bin `i`. -/
def extractRun (i : Nat) (dir : Dir) (st : Workspace × List PixelRef)
    (pixVec : PixelVec) : Workspace × List PixelRef :=
  scanRun i dir (pixVec.end_.col dir)
    (Int.toNat (pixVec.end_.col dir - pixVec.start.col dir + 1)) pixVec.start st

/-- The scan of bin `i` of a node (the body of the loop over `i`). -/
def extractBin (node : Node) (st : Workspace × List PixelRef) (i : Nat) :
    Workspace × List PixelRef :=
  (node.bin i).m_pixel_vecs.foldl (extractRun i (node.bin i).m_dir) st

/-- The function `VGAVisualGlobal::extractUnseen`. -/
def extractUnseen (node : Node) (pixels : List PixelRef) (ws : Workspace) :
    Workspace × List PixelRef :=
  (List.range 32).foldl (extractBin node) (ws, pixels)

/-! ## The frontier expander with the `short` cursor of the source

The same statements as above with the cursor stepped by `moveShort`.  The
walk is bounded by an iteration budget and returns `none` when the budget is
used up while the loop condition of line 222 still holds. -/

/-- The variables of one episode.  `tail` is `search_tree.tail()`, newest
cell first; `distribution` is the depth distribution, newest bucket first.
`counted` is a ghost log of the executions of lines 103-105 (cell and level);
nothing reads it. -/
structure SearchState where
  ws : Workspace
  tail : List PixelRef
  total_depth : Nat
  total_nodes : Nat
  distribution : List Nat
  counted : List (PixelRef × Nat)

/-- The statement `distribution.tail() += 1`. -/
def incrTail : List Nat → List Nat
  | [] => []
  | d :: ds => (d + 1) :: ds

/-- The depth distribution in depth order (bucket `k` at index `k`). -/
def SearchState.depthDistribution (s : SearchState) : List Nat :=
  s.distribution.reverse

/-- The body of the loop over the cells of a level (lines 99-124) for the
cell `ref` at depth `level`. -/
def visit (map : PointMap) (radius : Int) (level : Nat) (s : SearchState)
    (ref : PixelRef) : SearchState :=
  let p := map.getPoint ref
  if p.filled = true ∧ s.ws.miscs ref ≠ allOnes then
    let s1 : SearchState :=
      { s with
        total_depth := s.total_depth + level
        total_nodes := s.total_nodes + 1
        distribution := incrTail s.distribution
        counted := (ref, level) :: s.counted }
    if radius = -1 ∨
        ((level : Int) < radius ∧ (p.contextfilled = false ∨ map.iseven ref = true)) then
      let r1 := extractUnseen p.getNode s1.tail s1.ws
      let ws2 := r1.1.setMisc ref allOnes
      match p.getMergePixel with
      | none => { s1 with ws := ws2, tail := r1.2 }
      | some mergePixel =>
        if ws2.miscs mergePixel ≠ allOnes then
          let r3 := extractUnseen (map.getPoint mergePixel).getNode r1.2 ws2
          { s1 with ws := r3.1.setMisc mergePixel allOnes, tail := r3.2 }
        else { s1 with ws := ws2, tail := r1.2 }
    else { s1 with ws := s1.ws.setMisc ref allOnes }
  else s

/-- One iteration of the `while` loop (lines 96-127) at depth `level`; on
entry `s.tail` is `search_tree[level]`, on exit it is `search_tree[level+1]`. -/
def levelStep (map : PointMap) (radius : Int) (level : Nat) (s : SearchState) :
    SearchState :=
  s.tail.foldl (visit map radius level)
    { s with tail := [], distribution := 0 :: s.distribution }

/-- The `while` loop of lines 95-128, bounded by `fuel` iterations; `none`
when the bound is reached before a level is empty. -/
def search (map : PointMap) (radius : Int) : Nat → Nat → SearchState → Option SearchState
  | 0, _, _ => none
  | fuel + 1, level, s =>
    if s.tail.length = 0 then some s
    else search map radius fuel (level + 1) (levelStep map radius level s)

/-- The reset of the workspace (lines 79-84). -/
def resetWorkspace (map : PointMap) (ws : Workspace) : Workspace :=
  { miscs := fun p => if map.inGrid p then 0 else ws.miscs p
    extents := fun p => if map.inGrid p then p else ws.extents p }

/-- The state in which the `while` loop is entered for the root `curs`. -/
def initialState (map : PointMap) (curs : PixelRef) (ws : Workspace) : SearchState :=
  { ws := resetWorkspace map ws
    tail := [curs]
    total_depth := 0
    total_nodes := 0
    distribution := []
    counted := [] }

/-- One traversal episode for the root `curs` (lines 79-128). -/
def episode (map : PointMap) (radius : Int) (curs : PixelRef) (ws : Workspace)
    (fuel : Nat) : Option SearchState :=
  search map radius fuel 0 (initialState map curs ws)

/-! ## One traversal episode with the `short` cursor of the source -/

/-- Modelled from the spec: the numeric helpers that the analysis calls and
that are defined outside this file (`dvalue`, `pvalue`, `teklinteg`) and the
transcendental functions `log2` and `exp`; they are parameters of the model. -/
structure MathFns where
  dvalue : Int → Rat
  pvalue : Int → Rat
  teklinteg : Int → Int → Rat
  log2 : Rat → Rat
  exp : Rat → Rat

/-- The columns the analysis registers, named after the variables that hold
their indices. -/
inductive Col
  | entropy_col
  | rel_entropy_col
  | integ_dv_col
  | integ_pv_col
  | integ_tk_col
  | depth_col
  | count_col
deriving DecidableEq

/-- The attribute sink: the value held for each row (keyed by the cell) and
column.  The table handed to the run carries whatever the sink held before. -/
abbrev AttributeTable := PixelRef → Col → Rat

/-- The call `attributes.setValue(row, col, v)`. -/
def setValue (attributes : AttributeTable) (row : PixelRef) (col : Col) (v : Rat) :
    AttributeTable :=
  fun r c => if r = row ∧ c = col then v else attributes r c

/-- The variables of the entropy loop (line 168). -/
structure EntropyAcc where
  entropy : Rat
  rel_entropy : Rat
  factorial : Rat

/-- The body of the entropy loop (lines 172-179) for bucket `k` holding
`dk` cells. -/
def entropyStep (fns : MathFns) (mean_depth : Rat) (total_nodes : Nat) (acc : EntropyAcc)
    (k : Nat) (dk : Nat) : EntropyAcc :=
  if 0 < dk then
    let prob : Rat := (dk : Rat) / ((total_nodes : Rat) - 1)
    let factorial : Rat := acc.factorial * ((k : Rat) + 1)
    let q : Rat := (mean_depth ^ k / factorial) * fns.exp (-mean_depth)
    { entropy := acc.entropy - prob * fns.log2 prob
      rel_entropy := acc.rel_entropy + prob * fns.log2 (prob / q)
      factorial := factorial }
  else acc

/-- The entropy loop (lines 171-180) from bucket `k` on; the list holds the
buckets `k`, `k + 1`, ... in depth order. -/
def entropyLoop (fns : MathFns) (mean_depth : Rat) (total_nodes : Nat) :
    Nat → List Nat → EntropyAcc → EntropyAcc
  | _, [], acc => acc
  | k, dk :: rest, acc =>
    entropyLoop fns mean_depth total_nodes (k + 1) rest
      (entropyStep fns mean_depth total_nodes acc k dk)

/-- The attribute values written for one root (lines 129-191);
`distribution` is in depth order.  The test `mean_depth > 1.0` on doubles is
the exact comparison: both operands of the division are integers below
`2^31`, so the rounded quotient exceeds 1 exactly when the quotient does. -/
def writeMetrics (fns : MathFns) (simple_version : Bool) (row : PixelRef)
    (total_nodes total_depth : Nat) (distribution : List Nat)
    (attributes : AttributeTable) : AttributeTable :=
  let a0 : AttributeTable :=
    if simple_version = false then setValue attributes row Col.count_col (total_nodes : Rat)
    else attributes
  if 1 < total_nodes then
    let mean_depth : Rat := (total_depth : Rat) / ((total_nodes : Rat) - 1)
    let a1 : AttributeTable :=
      if simple_version = false then setValue a0 row Col.depth_col mean_depth else a0
    let a2 : AttributeTable :=
      if 2 < total_nodes ∧ 1 < mean_depth then
        let ra : Rat := 2 * (mean_depth - 1) / ((total_nodes : Rat) - 2)
        let rra_d : Rat := ra / fns.dvalue total_nodes
        let rra_p : Rat := ra / fns.pvalue total_nodes
        let integ_tk : Rat := fns.teklinteg total_nodes total_depth
        let b1 : AttributeTable := setValue a1 row Col.integ_dv_col (1 / rra_d)
        let b2 : AttributeTable :=
          if simple_version = false then setValue b1 row Col.integ_pv_col (1 / rra_p) else b1
        if 1 < (total_depth : Int) - (total_nodes : Int) + 1 then
          if simple_version = false then setValue b2 row Col.integ_tk_col integ_tk else b2
        else
          if simple_version = false then setValue b2 row Col.integ_tk_col (-1) else b2
      else
        let b1 : AttributeTable := setValue a1 row Col.integ_dv_col (-1)
        if simple_version = false then
          setValue (setValue b1 row Col.integ_pv_col (-1)) row Col.integ_tk_col (-1)
        else b1
    let acc : EntropyAcc :=
      entropyLoop fns mean_depth total_nodes 1 (distribution.drop 1) ⟨0, 0, 1⟩
    if simple_version = false then
      setValue (setValue a2 row Col.entropy_col acc.entropy) row Col.rel_entropy_col
        acc.rel_entropy
    else a2
  else
    if simple_version = false then
      setValue (setValue (setValue a0 row Col.depth_col (-1)) row Col.entropy_col (-1)) row
        Col.rel_entropy_col (-1)
    else a0

/-! ## The registered columns -/

/-- Modelled from the spec: `dXstring::formatString(n, "%d")`, the decimal
text of an `int`; the helper lives outside this file. -/
def formatString (n : Int) : String := toString n

/-- The text appended to every column name (lines 32-35). -/
def radius_text (radius : Int) : String :=
  if radius ≠ -1 then " R" ++ formatString radius else ""

/-- The names handed to `attributes.insertColumn`, in the order of the calls
(lines 37-62, the build in which the simple version is a run-time choice). -/
def registeredColumns (radius : Int) (simple_version : Bool) : List String :=
  (if simple_version = false then ["Visual Entropy" ++ radius_text radius] else []) ++
    (["Visual Integration [HH]" ++ radius_text radius] ++
      (if simple_version = false then
        ["Visual Integration [P-value]" ++ radius_text radius,
          "Visual Integration [Tekl]" ++ radius_text radius,
          "Visual Mean Depth" ++ radius_text radius,
          "Visual Node Count" ++ radius_text radius,
          "Visual Relativised Entropy" ++ radius_text radius]
      else []))

/-! ## The loop over the grid -/

/-- The positions of the grid in the order of the loops of `run`: column by
column, and row by row inside a column. -/
def gridCells (map : PointMap) : List PixelRef :=
  (List.range map.getCols).foldr
    (fun (i : Nat) acc =>
      (List.range map.getRows).map (fun (j : Nat) => PixelRef.mk (i : Int) (j : Int)) ++ acc)
    []

/-- The variables of `run` that outlive one cell: the progress counter
`count`, the scratch workspace and the attribute sink. -/
structure RunState where
  count : Nat
  ws : Workspace
  attributes : AttributeTable

/-- The body of the loops of lines 69-204 for the cell `curs` (without the
progress channel); `none` when the episode does not complete within `fuel`
levels. -/
def runCell (fns : MathFns) (map : PointMap) (options : Options) (simple_version : Bool)
    (fuel : Nat) (st : RunState) (curs : PixelRef) : Option RunState :=
  if (map.getPoint curs).filled = true then
    if ((map.getPoint curs).contextfilled = true ∧ map.iseven curs = false) ∨
        options.gates_only = true then
      some { st with count := st.count + 1 }
    else
      match episode map options.radius curs st.ws fuel with
      | none => none
      | some s =>
        some
          { count := st.count + 1
            ws := s.ws
            attributes :=
              writeMetrics fns simple_version curs s.total_nodes s.total_depth
                s.depthDistribution st.attributes }
  else some { st with count := st.count + 1 }

/-- The loops of lines 69-204 over a list of cells. -/
def runLoop (fns : MathFns) (map : PointMap) (options : Options) (simple_version : Bool)
    (fuel : Nat) : List PixelRef → RunState → Option RunState
  | [], st => some st
  | curs :: rest, st =>
    match runCell fns map options simple_version fuel st curs with
    | none => none
    | some st1 => runLoop fns map options simple_version fuel rest st1

/-- The loops over every cell (lines 64-204) of `VGAVisualGlobal::run` on a
run that is not cancelled, started with `count = 0`; `ws` is the content of
the freshly made matrices and `attributes` the sink as the loops find it.
The registration of the columns before the loops and the statements after
them are added by `runComplete`. -/
def run (fns : MathFns) (map : PointMap) (options : Options) (simple_version : Bool)
    (fuel : Nat) (ws : Workspace) (attributes : AttributeTable) : Option RunState :=
  runLoop fns map options simple_version fuel (gridCells map)
    { count := 0, ws := ws, attributes := attributes }

/-- The cells visited by a walk of `n` steps from `p` along `dir`. -/
def runCellsAux (dir : Dir) : Nat → PixelRef → List PixelRef
  | 0, _ => []
  | n + 1, p => p :: runCellsAux dir n (p.move dir)

/-- The cells lying on a run of a bin with axis `dir`: the positions the
cursor of `extractUnseen` takes when nothing cuts the walk short. -/
def PixelVec.cells (dir : Dir) (pixVec : PixelVec) : List PixelRef :=
  runCellsAux dir (Int.toNat (pixVec.end_.col dir - pixVec.start.col dir + 1)) pixVec.start

/-- The cells lying on the runs of a bin. -/
def Bin.cells (b : Bin) : List PixelRef :=
  b.m_pixel_vecs.foldr (fun pixVec acc => pixVec.cells b.m_dir ++ acc) []

/-- The cells lying on the runs of the first `n` bins of a node. -/
def Node.cellsUpTo (node : Node) : Nat → List PixelRef
  | 0 => []
  | n + 1 => node.cellsUpTo n ++ (node.bin n).cells

/-- The cells lying on any run of any of the 32 bins of a node. -/
def Node.cells (node : Node) : List PixelRef := node.cellsUpTo 32

/-- Every run of every cell of the grid stays inside the grid, and so does
every merge partner: the positions at which the source indexes its matrices
and the point map exist. -/
def WellFormed (map : PointMap) : Prop :=
  ∀ c, map.inGrid c →
    (∀ d ∈ (map.getPoint c).getNode.cells, map.inGrid d) ∧
    (∀ m, (map.getPoint c).getMergePixel = some m → map.inGrid m)

/-- The number of cells of the grid whose visited marker is still 0. -/
def unvisitedCount (map : PointMap) (ws : Workspace) : Nat :=
  (gridCells map).countP (fun c => ws.miscs c = 0)

/-- The meaning of the extent marker of cell `c` along a straight axis
`dir`: every cell strictly after `c` and up to the recorded extent has been
visited. -/
def ExtentAt (ws : Workspace) (c : PixelRef) (dir : Dir) : Prop :=
  ∀ t : Int, c.col dir < t → t ≤ (ws.extents c).col dir → ws.miscs (c.setCol dir t) ≠ 0

/-- The extent markers of all cells of the grid are meaningful. -/
def ExtentInv (map : PointMap) (ws : Workspace) : Prop :=
  ∀ c, map.inGrid c → ∀ dir : Dir, dir.diagonal = false → ExtentAt ws c dir

/-- The workspace states of one episode: the reset state, and what
`extractUnseen` (on a node whose runs are inside the grid) and the consumed
marking `misc = ~0` make of such a state. -/
inductive Reachable (map : PointMap) : Workspace → Prop
  | reset (ws : Workspace) : Reachable map (resetWorkspace map ws)
  | extract (ws : Workspace) (node : Node) (pixels : List PixelRef) :
      Reachable map ws → (∀ c ∈ node.cells, map.inGrid c) →
      Reachable map (extractUnseen node pixels ws).1
  | consume (ws : Workspace) (p : PixelRef) :
      Reachable map ws → Reachable map (ws.setMisc p allOnes)

/-- The visibility graph the traversal explores: an edge leaves a filled
cell `u` for every cell on a run of one of its 32 bins. -/
def Edge (map : PointMap) (u v : PixelRef) : Prop :=
  (map.getPoint u).filled = true ∧ v ∈ (map.getPoint u).getNode.cells

/-- A walk of `k` edges from `root` to `v`. -/
inductive Walk (map : PointMap) (root : PixelRef) : Nat → PixelRef → Prop
  | zero : Walk map root 0 root
  | step {k : Nat} {u v : PixelRef} : Walk map root k u → Edge map u v → Walk map root (k + 1) v

/-- The shortest-path distance from `root` to `v` is `k`. -/
def IsDist (map : PointMap) (root : PixelRef) (k : Nat) (v : PixelRef) : Prop :=
  Walk map root k v ∧ ∀ m, m < k → ¬ Walk map root m v

/-- The state after the first `k` iterations of the `while` loop when no
level is found empty; `(levelState map radius curs ws k).tail` is frontier
level `k`. -/
def levelState (map : PointMap) (radius : Int) (curs : PixelRef) (ws : Workspace) :
    Nat → SearchState
  | 0 => initialState map curs ws
  | k + 1 => levelStep map radius k (levelState map radius curs ws k)

/-- What a scan over the cells `cs` does to the visited markers and to the
collected cells: the cells `new` it pushes are distinct, lie on `cs`, were
unvisited and now carry the bit of a bin; no other marker changes. -/
def Marked (cs : List PixelRef) (st st' : Workspace × List PixelRef) : Prop :=
  ∃ new : List PixelRef, st'.2 = new ++ st.2 ∧ new.Nodup ∧
    (∀ c ∈ new, c ∈ cs ∧ st.1.miscs c = 0 ∧ ∃ i, i < 32 ∧ st'.1.miscs c = binBit i) ∧
    (∀ c, c ∉ new → st'.1.miscs c = st.1.miscs c)

/-- The full effect of a scan over the cells `cs`: the marking, and, when the
extent markers are meaningful and `cs` lies inside the grid, that they stay
meaningful and that no cell of `cs` is left unvisited. -/
def Scanned (map : PointMap) (cs : List PixelRef) (st st' : Workspace × List PixelRef) : Prop :=
  Marked cs st st' ∧
    (ExtentInv map st.1 → (∀ c ∈ cs, map.inGrid c) →
      ExtentInv map st'.1 ∧ ∀ c ∈ cs, st'.1.miscs c ≠ 0)

/-- The link between the counters and the ghost log while level `level` is
processed: the totals are the length of the log and the sum of its depths,
and bucket `i` (counted from the newest) holds the entries of depth
`level - i`. -/
def CountersAt (level : Nat) (s : SearchState) : Prop :=
  s.total_nodes = s.counted.length ∧
  s.total_depth = (s.counted.map Prod.snd).sum ∧
  s.distribution.length = level + 1 ∧
  (∀ p ∈ s.counted, p.2 ≤ level) ∧
  ∀ i, s.distribution.getD i 0 = s.counted.countP (fun p => p.2 + i = level)

/-- The breadth-first invariant while level `k` is processed, `U` being the
cells of the level that are still to be visited and `s.tail` the part of
level `k + 1` found so far. -/
structure BfsInv (map : PointMap) (root : PixelRef) (k : Nat) (U : List PixelRef)
    (s : SearchState) : Prop where
  ext : ExtentInv map s.ws
  U_grid : ∀ c ∈ U, map.inGrid c
  U_nodup : U.Nodup
  U_dist : ∀ c ∈ U, (s.ws.miscs c ≠ allOnes ↔ IsDist map root k c)
  root_seen : s.ws.miscs root = 0 → U = [root]
  tail_grid : ∀ c ∈ s.tail, map.inGrid c
  tail_nodup : s.tail.Nodup
  tail_marked : ∀ c ∈ s.tail, s.ws.miscs c ≠ 0
  tail_within : ∀ c ∈ s.tail, ∃ m, m ≤ k + 1 ∧ IsDist map root m c
  seen : ∀ c, map.inGrid c →
    ((s.ws.miscs c ≠ 0 ∨ c = root) ↔ ((∃ m, m ≤ k ∧ IsDist map root m c) ∨ c ∈ s.tail))
  tail_dist : ∀ c, map.inGrid c →
    ((c ∈ s.tail ∧ s.ws.miscs c ≠ allOnes) ↔
      ((¬ ∃ m, m ≤ k ∧ IsDist map root m c) ∧
        ∃ u, IsDist map root k u ∧ u ∉ U ∧ Edge map u c))
  consumed : ∀ c, map.inGrid c →
    (s.ws.miscs c = allOnes ↔
      ((map.getPoint c).filled = true ∧
        ∃ m, IsDist map root m c ∧ (m < k ∨ (m = k ∧ c ∉ U))))
  ghost_nodup : s.counted.Nodup
  ghost_mem : ∀ v m, (v, m) ∈ s.counted ↔
    ((map.getPoint v).filled = true ∧ IsDist map root m v ∧ (m < k ∨ (m = k ∧ v ∉ U)))

/-- Only the newest bucket of the distribution can be empty, and it is empty
only while the next level is. -/
def NoGap (s : SearchState) : Prop :=
  ∀ d rest, s.distribution = d :: rest → (∀ x ∈ rest, 0 < x) ∧ (d = 0 → s.tail = [])

/-- A filled cell on a run of `root`, other than `root`, has on one of its
runs a cell that is neither `root` nor on a run of `root`. -/
def SeesBeyond (map : PointMap) (root : PixelRef) : Prop :=
  ∃ u c, u ∈ (map.getPoint root).getNode.cells ∧ u ≠ root ∧
    (map.getPoint u).filled = true ∧ c ∈ (map.getPoint u).getNode.cells ∧
    c ∉ (map.getPoint root).getNode.cells ∧ c ≠ root

/-- The test of lines 106-108: a counted cell at depth `level` is expanded. -/
def Expands (map : PointMap) (radius : Int) (level : Nat) (ref : PixelRef) : Prop :=
  radius = -1 ∨
    ((level : Int) < radius ∧
      ((map.getPoint ref).contextfilled = false ∨ map.iseven ref = true))

/-- Two workspaces hold the same markers and extents at every position of
the grid. -/
def AgreeOn (map : PointMap) (ws1 ws2 : Workspace) : Prop :=
  ∀ c, map.inGrid c → ws1.miscs c = ws2.miscs c ∧ ws1.extents c = ws2.extents c

/-- Two episode states that differ at most in the workspace outside the grid. -/
def StateAgree (map : PointMap) (s1 s2 : SearchState) : Prop :=
  AgreeOn map s1.ws s2.ws ∧ s1.tail = s2.tail ∧ s1.total_depth = s2.total_depth ∧
    s1.total_nodes = s2.total_nodes ∧ s1.distribution = s2.distribution ∧
    s1.counted = s2.counted

/-- The three shapes of a visited marker: unvisited, the bit of one bin, or
the consumed sentinel. -/
def MarkerShape (v : Nat) : Prop :=
  v = 0 ∨ (∃ i, i < 32 ∧ v = binBit i) ∨ v = allOnes

/-- Every cell of the grid carries a marker of one of the three shapes. -/
def MarkersOk (map : PointMap) (ws : Workspace) : Prop :=
  ∀ c, map.inGrid c → MarkerShape (ws.miscs c)

/-- The first position at which two texts differ exists before either ends,
and carries the smaller character in the first text. -/
def firstDiffLt : List Char → List Char → Bool
  | a :: as, b :: bs => if a = b then firstDiffLt as bs else decide (a < b)
  | _, _ => false

/-! ## The episode under another processing order

The source scans the bins in the order `0, ..., 31` and walks a level from
its newest cell to its oldest.  The definitions below follow the wording of
the order-independence property: the same statements, with the bins scanned
in the order `order` and the cells of level `k` processed in the order
`reorder k`. -/

/-- The loop of `extractUnseen` over the bins taken in the order `order`. -/
def extractUnseenIn (order : List Nat) (node : Node) (pixels : List PixelRef)
    (ws : Workspace) : Workspace × List PixelRef :=
  order.foldl (extractBin node) (ws, pixels)

/-- The body of the loop over the cells of a level, with the bins scanned in
the order `order`. -/
def visitIn (order : List Nat) (map : PointMap) (radius : Int) (level : Nat)
    (s : SearchState) (ref : PixelRef) : SearchState :=
  let p := map.getPoint ref
  if p.filled = true ∧ s.ws.miscs ref ≠ allOnes then
    let s1 : SearchState :=
      { s with
        total_depth := s.total_depth + level
        total_nodes := s.total_nodes + 1
        distribution := incrTail s.distribution
        counted := (ref, level) :: s.counted }
    if radius = -1 ∨
        ((level : Int) < radius ∧ (p.contextfilled = false ∨ map.iseven ref = true)) then
      let r1 := extractUnseenIn order p.getNode s1.tail s1.ws
      let ws2 := r1.1.setMisc ref allOnes
      match p.getMergePixel with
      | none => { s1 with ws := ws2, tail := r1.2 }
      | some mergePixel =>
        if ws2.miscs mergePixel ≠ allOnes then
          let r3 := extractUnseenIn order (map.getPoint mergePixel).getNode r1.2 ws2
          { s1 with ws := r3.1.setMisc mergePixel allOnes, tail := r3.2 }
        else { s1 with ws := ws2, tail := r1.2 }
    else { s1 with ws := s1.ws.setMisc ref allOnes }
  else s

/-- One iteration of the `while` loop with the cells of the level processed
in the order `reorder level`. -/
def levelStepIn (order : List Nat) (reorder : Nat → List PixelRef → List PixelRef)
    (map : PointMap) (radius : Int) (level : Nat) (s : SearchState) : SearchState :=
  (reorder level s.tail).foldl (visitIn order map radius level)
    { s with tail := [], distribution := 0 :: s.distribution }

/-- The `while` loop under the processing orders `order` and `reorder`. -/
def searchIn (order : List Nat) (reorder : Nat → List PixelRef → List PixelRef)
    (map : PointMap) (radius : Int) : Nat → Nat → SearchState → Option SearchState
  | 0, _, _ => none
  | fuel + 1, level, s =>
    if s.tail.length = 0 then some s
    else searchIn order reorder map radius fuel (level + 1)
      (levelStepIn order reorder map radius level s)

/-- One traversal episode under the processing orders `order` and `reorder`. -/
def episodeIn (order : List Nat) (reorder : Nat → List PixelRef → List PixelRef)
    (map : PointMap) (radius : Int) (curs : PixelRef) (ws : Workspace) (fuel : Nat) :
    Option SearchState :=
  searchIn order reorder map radius fuel 0 (initialState map curs ws)

/-- The orders the property quantifies over: `order` lists each of the 32
bins once, and `reorder k` rearranges a level without adding or dropping a
cell. -/
def ValidOrders (order : List Nat) (reorder : Nat → List PixelRef → List PixelRef) : Prop :=
  order.Perm (List.range 32) ∧ ∀ k l, (reorder k l).Perm l

/-- The test of line 102: the cell `ref` is counted when it is visited in
state `s`. -/
def Counts (map : PointMap) (s : SearchState) (ref : PixelRef) : Prop :=
  (map.getPoint ref).filled = true ∧ s.ws.miscs ref ≠ allOnes

/-- What one visit of `ref` at depth `level` does, told without reference to
any order: the cells pushed, the markers that are 0 and the markers that are
`~0` afterwards, and the totals. -/
def VisitEffect (map : PointMap) (radius : Int) (level : Nat) (ref : PixelRef)
    (s s' : SearchState) : Prop :=
  ∃ new : List PixelRef, s'.tail = new ++ s.tail ∧ new.Nodup ∧
    (∀ c, c ∈ new ↔ (Counts map s ref ∧ Expands map radius level ref ∧
      c ∈ (map.getPoint ref).getNode.cells ∧ s.ws.miscs c = 0)) ∧
    (∀ c, s'.ws.miscs c = 0 ↔ (s.ws.miscs c = 0 ∧ c ∉ new ∧ ¬ (Counts map s ref ∧ c = ref))) ∧
    (∀ c, s'.ws.miscs c = allOnes ↔ (s.ws.miscs c = allOnes ∨ (Counts map s ref ∧ c = ref))) ∧
    (Counts map s ref →
      s'.total_depth = s.total_depth + level ∧ s'.total_nodes = s.total_nodes + 1 ∧
        s'.distribution = incrTail s.distribution ∧ s'.counted = (ref, level) :: s.counted) ∧
    (¬ Counts map s ref →
      s'.total_depth = s.total_depth ∧ s'.total_nodes = s.total_nodes ∧
        s'.distribution = s.distribution ∧ s'.counted = s.counted)

/-- Two episode states that differ at most in the order of the cells of the
level under construction, in the order of the ghost log, and in which bin bit
a discovered cell carries. -/
def OrderEquiv (s s' : SearchState) : Prop :=
  (∀ c, s.ws.miscs c = 0 ↔ s'.ws.miscs c = 0) ∧
  (∀ c, s.ws.miscs c = allOnes ↔ s'.ws.miscs c = allOnes) ∧
  s.tail.Perm s'.tail ∧ s.total_depth = s'.total_depth ∧
  s.total_nodes = s'.total_nodes ∧ s.distribution = s'.distribution ∧
  s.counted.Perm s'.counted

/-- The extent markers are meaningful and the level under construction lies
inside the grid. -/
def GoodState (map : PointMap) (s : SearchState) : Prop :=
  ExtentInv map s.ws ∧ ∀ c ∈ s.tail, map.inGrid c

/-! ## Concrete grids -/

/-- A node without any run. -/
def emptyNode : Node := ⟨fun _ => ⟨Dir.horizontal, []⟩⟩

/-- A node whose bin 0 holds the three rows of a 3 x 3 grid. -/
def rowsNode : Node :=
  ⟨fun i =>
    if i = 0 then
      ⟨Dir.horizontal, [⟨⟨0, 0⟩, ⟨2, 0⟩⟩, ⟨⟨0, 1⟩, ⟨2, 1⟩⟩, ⟨⟨0, 2⟩, ⟨2, 2⟩⟩]⟩
    else ⟨Dir.horizontal, []⟩⟩

/-- A node whose bin 0 holds the single cell `q`. -/
def seesNode (q : PixelRef) : Node :=
  ⟨fun i => if i = 0 then ⟨Dir.horizontal, [⟨q, q⟩]⟩ else ⟨Dir.horizontal, []⟩⟩

/-- The fully mutually visible filled 3 x 3 grid, without context fill and
merge links. -/
def fullGrid3 : PointMap :=
  ⟨3, 3, fun _ => ⟨true, false, none, rowsNode⟩, fun _ => true⟩

/-- Two filled cells `(0,0)` and `(1,0)` that see nothing and are each
other's merge partner. -/
def mergePairGrid : PointMap :=
  ⟨2, 1,
    fun p => ⟨true, false, some (if p = ⟨0, 0⟩ then ⟨1, 0⟩ else ⟨0, 0⟩), emptyNode⟩,
    fun _ => true⟩

/-- One isolated filled cell. -/
def singleCellGrid : PointMap :=
  ⟨1, 1, fun _ => ⟨true, false, none, emptyNode⟩, fun _ => true⟩

/-- Three cells in a row: the filled `(0,0)` sees the filled `(1,0)`, which
sees the unfilled `(2,0)`. -/
def chainGrid : PointMap :=
  ⟨3, 1,
    fun p =>
      if p = ⟨0, 0⟩ then ⟨true, false, none, seesNode ⟨1, 0⟩⟩
      else if p = ⟨1, 0⟩ then ⟨true, false, none, seesNode ⟨2, 0⟩⟩
      else ⟨false, false, none, emptyNode⟩,
    fun _ => true⟩

/-- Three filled cells in a row: the root `(0,0)` sees `(1,0)` and `(2,0)`;
`(1,0)` is context-filled and `(2,0)` is not; `(1,0)` and `(2,0)` are each
other's merge partner and see nothing.  The parity is that of `x + y`. -/
def mergeOrderGrid : PointMap :=
  ⟨3, 1,
    fun p =>
      if p = ⟨0, 0⟩ then
        ⟨true, false, none,
          ⟨fun i => if i = 0 then ⟨Dir.horizontal, [⟨⟨1, 0⟩, ⟨2, 0⟩⟩]⟩ else ⟨Dir.horizontal, []⟩⟩⟩
      else if p = ⟨1, 0⟩ then ⟨true, true, some ⟨2, 0⟩, emptyNode⟩
      else ⟨true, false, some ⟨1, 0⟩, emptyNode⟩,
    fun p => (p.x + p.y) % 2 = 0⟩

/-- Three filled cells in a row: `(0,0)` and `(1,0)` are each other's merge
partner and do not see each other; `(1,0)` sees `(2,0)`. -/
def mergeSeesGrid : PointMap :=
  ⟨3, 1,
    fun p =>
      if p = ⟨0, 0⟩ then ⟨true, false, some ⟨1, 0⟩, emptyNode⟩
      else if p = ⟨1, 0⟩ then ⟨true, false, some ⟨0, 0⟩, seesNode ⟨2, 0⟩⟩
      else ⟨true, false, none, emptyNode⟩,
    fun p => (p.x + p.y) % 2 = 0⟩

/-- A workspace holding zeros and the reset extents. -/
def zeroWorkspace : Workspace := ⟨fun _ => 0, fun p => p⟩

/-- Stand-ins for the numeric helpers, used to evaluate concrete runs. -/
def unitFns : MathFns := ⟨fun _ => 1, fun _ => 1, fun _ _ => 1, fun _ => 0, fun _ => 1⟩

/-! ## Lemmas -/

theorem binBit_ne_zero {i : Nat} (hi : i < 32) : binBit i ≠ 0 := by
  unfold binBit
  interval_cases i <;> decide

theorem binBit_ne_allOnes {i : Nat} (hi : i < 32) : binBit i ≠ allOnes := by
  unfold binBit allOnes
  interval_cases i <;> decide

theorem allOnes_ne_zero : allOnes ≠ 0 := by decide

theorem col_move (p : PixelRef) (dir : Dir) : (p.move dir).col dir = p.col dir + 1 := by
  cases dir <;> rfl

theorem move_eq_setCol (p : PixelRef) (dir : Dir) (h : dir.diagonal = false) :
    p.move dir = p.setCol dir (p.col dir + 1) := by
  cases dir <;> first | rfl | cases h

theorem col_setCol (p : PixelRef) (dir : Dir) (t : Int) : (p.setCol dir t).col dir = t := by
  cases dir <;> rfl

theorem setCol_setCol (p : PixelRef) (dir : Dir) (s t : Int) :
    (p.setCol dir s).setCol dir t = p.setCol dir t := by
  cases dir <;> rfl

theorem setCol_col (p : PixelRef) (dir : Dir) : p.setCol dir (p.col dir) = p := by
  cases dir <;> rfl

theorem col_setCol_other (p : PixelRef) (dir dir2 : Dir) (t : Int)
    (h1 : dir.diagonal = false) (h2 : dir2.diagonal = false) (hne : dir2 ≠ dir) :
    (p.setCol dir t).col dir2 = p.col dir2 := by
  cases dir <;> cases dir2 <;>
    first | rfl | exact absurd rfl hne | exact absurd h1 (by decide) | exact absurd h2 (by decide)

theorem mem_runCellsAux_straight (dir : Dir) (h : dir.diagonal = false) :
    ∀ (n : Nat) (p c : PixelRef), c ∈ runCellsAux dir n p ↔
      ∃ t : Int, p.col dir ≤ t ∧ t < p.col dir + n ∧ c = p.setCol dir t := by
  intro n
  induction n with
  | zero =>
    intro p c
    simp only [runCellsAux, List.not_mem_nil, false_iff]
    rintro ⟨t, h1, h2, _⟩
    simp at h2
    omega
  | succ n ih =>
    intro p c
    simp only [runCellsAux, List.mem_cons, ih, col_move]
    constructor
    · rintro (rfl | ⟨t, h1, h2, rfl⟩)
      · exact ⟨c.col dir, le_refl _, by push_cast; omega, (setCol_col c dir).symm⟩
      · refine ⟨t, by omega, by push_cast; omega, ?_⟩
        rw [move_eq_setCol p dir h, setCol_setCol]
    · rintro ⟨t, h1, h2, rfl⟩
      by_cases ht : t = p.col dir
      · left; rw [ht, setCol_col]
      · right
        refine ⟨t, by omega, by push_cast at h2; omega, ?_⟩
        rw [move_eq_setCol p dir h, setCol_setCol]

/-! ### The relation `Marked` -/

theorem Marked.same (cs : List PixelRef) (st : Workspace × List PixelRef) : Marked cs st st :=
  ⟨[], rfl, List.nodup_nil, by simp, by simp⟩

theorem Marked.mono_cells {cs cs' : List PixelRef} {st st' : Workspace × List PixelRef}
    (h : ∀ c ∈ cs, c ∈ cs') (hm : Marked cs st st') : Marked cs' st st' := by
  obtain ⟨new, h1, h2, h3, h4⟩ := hm
  exact ⟨new, h1, h2, fun c hc => ⟨h c (h3 c hc).1, (h3 c hc).2⟩, h4⟩

theorem Marked.congr {cs : List PixelRef} {st st' a a' : Workspace × List PixelRef}
    (hm : Marked cs st st') (h1 : a.1.miscs = st.1.miscs) (h2 : a.2 = st.2)
    (h3 : a'.1.miscs = st'.1.miscs) (h4 : a'.2 = st'.2) : Marked cs a a' := by
  obtain ⟨new, e1, e2, e3, e4⟩ := hm
  refine ⟨new, by rw [h4, h2, e1], e2, ?_, ?_⟩
  · intro c hc
    rw [h1, h3]
    exact e3 c hc
  · intro c hc
    rw [h1, h3]
    exact e4 c hc

theorem Marked.misc_eq {cs : List PixelRef} {st st' : Workspace × List PixelRef}
    (hm : Marked cs st st') {c : PixelRef} (hc : st.1.miscs c ≠ 0) :
    st'.1.miscs c = st.1.miscs c := by
  obtain ⟨new, _, _, e3, e4⟩ := hm
  apply e4
  intro hmem
  exact hc (e3 c hmem).2.1

theorem Marked.misc_ne_zero {cs : List PixelRef} {st st' : Workspace × List PixelRef}
    (hm : Marked cs st st') {c : PixelRef} (hc : st.1.miscs c ≠ 0) :
    st'.1.miscs c ≠ 0 := by
  rw [hm.misc_eq hc]; exact hc

theorem Marked.append {cs1 cs2 : List PixelRef} {st st1 st2 : Workspace × List PixelRef}
    (h1 : Marked cs1 st st1) (h2 : Marked cs2 st1 st2) : Marked (cs1 ++ cs2) st st2 := by
  obtain ⟨new1, a1, a2, a3, a4⟩ := h1
  obtain ⟨new2, b1, b2, b3, b4⟩ := h2
  have hdisj : ∀ c, c ∈ new2 → c ∉ new1 := by
    intro c hc2 hc1
    obtain ⟨_, _, i, hi, hbit⟩ := a3 c hc1
    have := (b3 c hc2).2.1
    rw [hbit] at this
    exact binBit_ne_zero hi this
  refine ⟨new2 ++ new1, by rw [b1, a1, List.append_assoc], ?_, ?_, ?_⟩
  · rw [List.nodup_append]
    exact ⟨b2, a2, fun c hc2 hc1 => hdisj c hc2 hc1⟩
  · intro c hc
    rcases List.mem_append.1 hc with hc2 | hc1
    · obtain ⟨m1, m2, m3⟩ := b3 c hc2
      refine ⟨List.mem_append_right _ m1, ?_, m3⟩
      rw [← a4 c (hdisj c hc2)]
      exact m2
    · obtain ⟨m1, m2, i, hi, hbit⟩ := a3 c hc1
      refine ⟨List.mem_append_left _ m1, m2, i, hi, ?_⟩
      have hne : st1.1.miscs c ≠ 0 := by rw [hbit]; exact binBit_ne_zero hi
      have hnot : c ∉ new2 := fun hc2 => hne (b3 c hc2).2.1
      rw [b4 c hnot, hbit]
  · intro c hc
    have hc1 : c ∉ new1 := fun h => hc (List.mem_append_right _ h)
    have hc2 : c ∉ new2 := fun h => hc (List.mem_append_left _ h)
    rw [b4 c hc2, a4 c hc1]

/-- The marking of one cursor position (lines 225-228). -/
theorem marked_single (i : Nat) (hi : i < 32) (pix : PixelRef) (st : Workspace × List PixelRef) :
    Marked [pix] st
      (if st.1.miscs pix = 0 then
        (st.1.setMisc pix (st.1.miscs pix ||| binBit i), pix :: st.2) else st) := by
  by_cases h : st.1.miscs pix = 0
  · rw [if_pos h]
    refine ⟨[pix], rfl, List.nodup_singleton _, ?_, ?_⟩
    · intro c hc
      have hcp : c = pix := List.mem_singleton.1 hc
      subst hcp
      refine ⟨hc, h, i, hi, ?_⟩
      simp [Workspace.setMisc, h]
    · intro c hc
      have hcp : c ≠ pix := fun e => hc (List.mem_singleton.2 e)
      simp [Workspace.setMisc, hcp]
  · rw [if_neg h]
    exact Marked.same _ _

theorem marked_single_ne_zero (i : Nat) (hi : i < 32) (pix : PixelRef)
    (st : Workspace × List PixelRef) :
    (if st.1.miscs pix = 0 then
        (st.1.setMisc pix (st.1.miscs pix ||| binBit i), pix :: st.2) else st).1.miscs pix ≠ 0 := by
  by_cases h : st.1.miscs pix = 0
  · rw [if_pos h]
    simp [Workspace.setMisc, h, binBit_ne_zero hi]
  · rw [if_neg h]; exact h

theorem marked_single_extents (i : Nat) (pix : PixelRef) (st : Workspace × List PixelRef) :
    (if st.1.miscs pix = 0 then
        (st.1.setMisc pix (st.1.miscs pix ||| binBit i), pix :: st.2) else st).1.extents
      = st.1.extents := by
  by_cases h : st.1.miscs pix = 0
  · rw [if_pos h]; rfl
  · rw [if_neg h]

/-! ### The walk over one run -/

theorem scanRun_spec (i : Nat) (hi : i < 32) (dir : Dir) (e : Int) :
    ∀ (n : Nat) (pix : PixelRef) (st : Workspace × List PixelRef),
      n = Int.toNat (e - pix.col dir + 1) →
      Marked (runCellsAux dir n pix) st (scanRun i dir e n pix st) ∧
      (∀ c, (scanRun i dir e n pix st).1.extents c = st.1.extents c ∨
        (dir.diagonal = false ∧ c ∈ runCellsAux dir n pix ∧
          (scanRun i dir e n pix st).1.extents c = (st.1.extents c).setCol dir e)) ∧
      ((dir.diagonal = false → ∀ c ∈ runCellsAux dir n pix, ExtentAt st.1 c dir) →
        ∀ c ∈ runCellsAux dir n pix, (scanRun i dir e n pix st).1.miscs c ≠ 0) := by
  intro n
  induction n with
  | zero =>
    intro pix st _
    refine ⟨Marked.same _ _, fun c => Or.inl rfl, ?_⟩
    intro _ c hc
    simp [runCellsAux] at hc
  | succ n ih =>
    intro pix st hn
    have hcond : pix.col dir ≤ e := by omega
    have hn' : n = Int.toNat (e - (pix.move dir).col dir + 1) := by
      rw [col_move]; omega
    have hm1 := marked_single i hi pix st
    have hnz1 := marked_single_ne_zero i hi pix st
    have hex1 := marked_single_extents i pix st
    unfold scanRun
    rw [if_pos hcond]
    simp only []
    generalize hst1 : (if st.1.miscs pix = 0 then
        (st.1.setMisc pix (st.1.miscs pix ||| binBit i), pix :: st.2) else st) = st1
      at hm1 hnz1 hex1
    by_cases hd : dir.diagonal = false
    · rw [if_pos hd]
      by_cases hbr : e ≤ (st1.1.extents pix).col dir
      · -- the early exit
        rw [if_pos hbr]
        refine ⟨hm1.mono_cells (by intro c hc; simp [runCellsAux] at hc ⊢; exact Or.inl hc),
          fun c => Or.inl (by rw [hex1]), ?_⟩
        intro hahead c hc
        simp only [runCellsAux, List.mem_cons] at hc
        rcases hc with rfl | hc
        · exact hnz1
        · rw [mem_runCellsAux_straight dir hd] at hc
          obtain ⟨t, t1, t2, rfl⟩ := hc
          rw [col_move] at t1 t2
          rw [move_eq_setCol pix dir hd, setCol_setCol]
          apply hm1.misc_ne_zero
          have hat := hahead hd pix (by simp [runCellsAux])
          apply hat t (by omega)
          rw [hex1] at hbr
          omega
      · -- the extent is advanced and the walk goes on
        rw [if_neg hbr]
        obtain ⟨im, ie, iv⟩ := ih (pix.move dir)
          (st1.1.setExtent pix ((st1.1.extents pix).setCol dir e), st1.2) hn'
        have im' : Marked (runCellsAux dir n (pix.move dir)) st1
            (scanRun i dir e n (pix.move dir)
              (st1.1.setExtent pix ((st1.1.extents pix).setCol dir e), st1.2)) :=
          im.congr rfl rfl rfl rfl
        have htail_ne : ∀ c ∈ runCellsAux dir n (pix.move dir), c ≠ pix := by
          intro c hc
          rw [mem_runCellsAux_straight dir hd] at hc
          obtain ⟨t, t1, _, rfl⟩ := hc
          rw [col_move] at t1
          intro hEq
          have := congrArg (fun q => PixelRef.col q dir) hEq
          simp only [col_setCol] at this
          omega
        refine ⟨?_, ?_, ?_⟩
        · have := hm1.append im'
          simpa [runCellsAux] using this
        · intro c
          rcases ie c with h | ⟨_, hc, h⟩
          · by_cases hcp : c = pix
            · right
              refine ⟨hd, by simp [runCellsAux, hcp], ?_⟩
              rw [h]
              simp [Workspace.setExtent, hcp, hex1]
            · left
              rw [h]
              simp [Workspace.setExtent, hcp, hex1]
          · right
            refine ⟨hd, by simp [runCellsAux, hc], ?_⟩
            rw [h]
            have hcp : c ≠ pix := htail_ne c hc
            simp [Workspace.setExtent, hcp, hex1]
        · intro hahead c hc
          simp only [runCellsAux, List.mem_cons] at hc
          rcases hc with rfl | hc
          · exact im'.misc_ne_zero hnz1
          · apply iv _ c hc
            intro _ c' hc'
            have hcp : c' ≠ pix := htail_ne c' hc'
            have hat := hahead hd c' (by simp [runCellsAux, hc'])
            intro t t1 t2
            simp only [Workspace.setExtent, hcp, if_false, hex1] at t2 ⊢
            exact hm1.misc_ne_zero (hat t t1 t2)
    · rw [if_neg hd]
      obtain ⟨im, ie, iv⟩ := ih (pix.move dir) st1 hn'
      refine ⟨?_, ?_, ?_⟩
      · have := hm1.append im
        simpa [runCellsAux] using this
      · intro c
        rcases ie c with h | ⟨h, _⟩
        · left; rw [h, hex1]
        · exact absurd h hd
      · intro _ c hc
        simp only [runCellsAux, List.mem_cons] at hc
        rcases hc with rfl | hc
        · exact im.misc_ne_zero hnz1
        · exact iv (fun h => absurd h hd) c hc

/-! ### The relation `Scanned` and the three loops of `extractUnseen` -/

theorem Scanned.nil (map : PointMap) (st : Workspace × List PixelRef) : Scanned map [] st st :=
  ⟨Marked.same _ _, fun h _ => ⟨h, by simp⟩⟩

theorem Scanned.concat {map : PointMap} {cs1 cs2 : List PixelRef}
    {st st1 st2 : Workspace × List PixelRef}
    (h1 : Scanned map cs1 st st1) (h2 : Scanned map cs2 st1 st2) :
    Scanned map (cs1 ++ cs2) st st2 := by
  refine ⟨h1.1.append h2.1, ?_⟩
  intro hinv hgrid
  obtain ⟨i1, v1⟩ := h1.2 hinv (fun c hc => hgrid c (List.mem_append_left _ hc))
  obtain ⟨i2, v2⟩ := h2.2 i1 (fun c hc => hgrid c (List.mem_append_right _ hc))
  refine ⟨i2, ?_⟩
  intro c hc
  rcases List.mem_append.1 hc with hc | hc
  · exact h2.1.misc_ne_zero (v1 c hc)
  · exact v2 c hc

theorem extractRun_scanned (map : PointMap) (i : Nat) (hi : i < 32) (dir : Dir)
    (st : Workspace × List PixelRef) (pixVec : PixelVec) :
    Scanned map (pixVec.cells dir) st (extractRun i dir st pixVec) := by
  obtain ⟨hm, he, hv⟩ := scanRun_spec i hi dir (pixVec.end_.col dir)
    (Int.toNat (pixVec.end_.col dir - pixVec.start.col dir + 1)) pixVec.start st rfl
  refine ⟨hm, ?_⟩
  intro hinv hgrid
  have hvis := hv (fun hd c hc => hinv c (hgrid c hc) dir hd)
  refine ⟨?_, hvis⟩
  intro c hc dir2 hd2 t t1 t2
  rcases he c with h | ⟨hd, hmem, h⟩
  · unfold extractRun at t2 ⊢
    rw [h] at t2
    exact hm.misc_ne_zero (hinv c hc dir2 hd2 t t1 t2)
  · unfold extractRun at t2 ⊢
    rw [h] at t2
    by_cases hdir : dir2 = dir
    · subst hdir
      rw [col_setCol] at t2
      apply hvis
      have hmem' := hmem
      rw [mem_runCellsAux_straight dir2 hd] at hmem' ⊢
      obtain ⟨t0, a1, a2, rfl⟩ := hmem'
      rw [col_setCol] at t1
      refine ⟨t, by omega, ?_, by rw [setCol_setCol]⟩
      have : (0 : Int) < ((pixVec.end_.col dir2 - pixVec.start.col dir2 + 1).toNat : Int) := by
        omega
      omega
    · rw [col_setCol_other _ dir dir2 _ hd hd2 hdir] at t2
      exact hm.misc_ne_zero (hinv c hc dir2 hd2 t t1 t2)

theorem foldl_extractRun_scanned (map : PointMap) (i : Nat) (hi : i < 32) (dir : Dir) :
    ∀ (runs : List PixelVec) (st : Workspace × List PixelRef),
      Scanned map (runs.foldr (fun pixVec acc => pixVec.cells dir ++ acc) []) st
        (runs.foldl (extractRun i dir) st) := by
  intro runs
  induction runs with
  | nil => intro st; exact Scanned.nil map st
  | cons pv rest ih =>
    intro st
    simp only [List.foldr_cons, List.foldl_cons]
    exact (extractRun_scanned map i hi dir st pv).concat (ih _)

theorem extractBin_scanned (map : PointMap) (node : Node) (i : Nat) (hi : i < 32)
    (st : Workspace × List PixelRef) :
    Scanned map (node.bin i).cells st (extractBin node st i) :=
  foldl_extractRun_scanned map i hi (node.bin i).m_dir (node.bin i).m_pixel_vecs st

theorem foldl_extractBin_scanned (map : PointMap) (node : Node) :
    ∀ (n : Nat), n ≤ 32 → ∀ (st : Workspace × List PixelRef),
      Scanned map (node.cellsUpTo n) st ((List.range n).foldl (extractBin node) st) := by
  intro n
  induction n with
  | zero => intro _ st; exact Scanned.nil map st
  | succ n ih =>
    intro hn st
    rw [List.range_succ, List.foldl_append]
    simp only [List.foldl_cons, List.foldl_nil, Node.cellsUpTo]
    exact (ih (by omega) st).concat (extractBin_scanned map node n (by omega) _)

theorem extractUnseen_scanned (map : PointMap) (node : Node) (pixels : List PixelRef)
    (ws : Workspace) :
    Scanned map node.cells (ws, pixels) (extractUnseen node pixels ws) :=
  foldl_extractBin_scanned map node 32 (le_refl _) (ws, pixels)

/-! ### The extent markers inside an episode -/

theorem extentInv_reset (map : PointMap) (ws : Workspace) :
    ExtentInv map (resetWorkspace map ws) := by
  intro c hc dir _ t t1 t2
  simp only [resetWorkspace, hc, if_true] at t2
  omega

theorem extentInv_setMisc (map : PointMap) (ws : Workspace) (p : PixelRef) (v : Nat)
    (hv : v ≠ 0) (h : ExtentInv map ws) : ExtentInv map (ws.setMisc p v) := by
  intro c hc dir hd t t1 t2
  have := h c hc dir hd t t1 t2
  simp only [Workspace.setMisc]
  split
  · exact hv
  · exact this

theorem extentInv_of_reachable (map : PointMap) (ws : Workspace) (h : Reachable map ws) :
    ExtentInv map ws := by
  induction h with
  | reset ws => exact extentInv_reset map ws
  | extract ws node pixels _ hgrid ih =>
    exact ((extractUnseen_scanned map node pixels ws).2 ih hgrid).1
  | consume ws p _ ih => exact extentInv_setMisc map ws p allOnes allOnes_ne_zero ih

/-- With meaningful extents, the cells `extractUnseen` pushes are exactly the
unvisited cells of the node's runs. -/
theorem extractUnseen_exact (map : PointMap) (node : Node) (pixels : List PixelRef)
    (ws : Workspace) (hinv : ExtentInv map ws) (hgrid : ∀ c ∈ node.cells, map.inGrid c) :
    (∀ c ∈ node.cells, (extractUnseen node pixels ws).1.miscs c ≠ 0) ∧
    ∃ new : List PixelRef, (extractUnseen node pixels ws).2 = new ++ pixels ∧ new.Nodup ∧
      (∀ c, c ∈ new ↔ (c ∈ node.cells ∧ ws.miscs c = 0)) ∧
      (∀ c ∈ new, ∃ i, i < 32 ∧ (extractUnseen node pixels ws).1.miscs c = binBit i) ∧
      (∀ c, c ∉ new → (extractUnseen node pixels ws).1.miscs c = ws.miscs c) := by
  obtain ⟨hm, hc⟩ := extractUnseen_scanned map node pixels ws
  obtain ⟨_, hvis⟩ := hc hinv hgrid
  refine ⟨hvis, ?_⟩
  obtain ⟨new, e1, e2, e3, e4⟩ := hm
  refine ⟨new, e1, e2, ?_, fun c hc => (e3 c hc).2.2, e4⟩
  intro c
  constructor
  · intro hc; exact ⟨(e3 c hc).1, (e3 c hc).2.1⟩
  · rintro ⟨hc, h0⟩
    by_contra hnot
    exact hvis c hc (by rw [e4 c hnot]; exact h0)

/-! ### The positions of the grid -/

theorem mem_gridCells_aux (rows : Nat) (l : List Nat) (c : PixelRef) :
    c ∈ l.foldr (fun (i : Nat) acc => (List.range rows).map
        (fun (j : Nat) => PixelRef.mk (i : Int) (j : Int)) ++ acc) [] ↔
      ∃ i ∈ l, ∃ j, j < rows ∧ c = PixelRef.mk (i : Int) (j : Int) := by
  induction l with
  | nil => simp
  | cons a l ih =>
    simp only [List.foldr_cons, List.mem_append, List.mem_map, List.mem_range, ih,
      List.mem_cons, exists_eq_or_imp]
    constructor
    · rintro (⟨j, hj, rfl⟩ | h)
      · exact Or.inl ⟨j, hj, rfl⟩
      · exact Or.inr h
    · rintro (⟨j, hj, rfl⟩ | h)
      · exact Or.inl ⟨j, hj, rfl⟩
      · exact Or.inr h

theorem mem_gridCells (map : PointMap) (c : PixelRef) : c ∈ gridCells map ↔ map.inGrid c := by
  unfold gridCells PointMap.inGrid
  rw [mem_gridCells_aux]
  constructor
  · rintro ⟨i, hi, j, hj, rfl⟩
    rw [List.mem_range] at hi
    simp only
    omega
  · rintro ⟨h1, h2, h3, h4⟩
    refine ⟨c.x.toNat, by rw [List.mem_range]; omega, c.y.toNat, by omega, ?_⟩
    cases c with
    | mk x y =>
      simp only at h1 h2 h3 h4 ⊢
      rw [Int.toNat_of_nonneg h1, Int.toNat_of_nonneg h3]

theorem nodup_gridCells_aux (rows : Nat) (l : List Nat) (hl : l.Nodup) :
    (l.foldr (fun (i : Nat) acc => (List.range rows).map
        (fun (j : Nat) => PixelRef.mk (i : Int) (j : Int)) ++ acc) []).Nodup := by
  induction l with
  | nil => simp
  | cons a l ih =>
    rw [List.nodup_cons] at hl
    simp only [List.foldr_cons]
    rw [List.nodup_append]
    refine ⟨?_, ih hl.2, ?_⟩
    · apply List.Nodup.map _ (List.nodup_range rows)
      intro j1 j2 h
      have := congrArg PixelRef.y h
      simpa using this
    · intro c hc1 hc2
      rw [mem_gridCells_aux] at hc2
      rw [List.mem_map] at hc1
      obtain ⟨j, _, rfl⟩ := hc1
      obtain ⟨i, hi, j2, _, h⟩ := hc2
      have := congrArg PixelRef.x h
      simp only [Nat.cast_inj] at this
      subst this
      exact hl.1 hi

theorem nodup_gridCells (map : PointMap) : (gridCells map).Nodup :=
  nodup_gridCells_aux _ _ (List.nodup_range _)

theorem length_gridCells_aux (rows : Nat) (l : List Nat) :
    (l.foldr (fun (i : Nat) acc => (List.range rows).map
        (fun (j : Nat) => PixelRef.mk (i : Int) (j : Int)) ++ acc) []).length = l.length * rows := by
  induction l with
  | nil => simp
  | cons a l ih =>
    simp only [List.foldr_cons, List.length_append, List.length_map, List.length_range, ih,
      List.length_cons]
    ring

theorem length_gridCells (map : PointMap) :
    (gridCells map).length = map.getCols * map.getRows := by
  unfold gridCells
  rw [length_gridCells_aux, List.length_range]

/-! ### Counting the unvisited cells -/

theorem unvisitedCount_reset (map : PointMap) (ws : Workspace) :
    unvisitedCount map (resetWorkspace map ws) = map.getCols * map.getRows := by
  unfold unvisitedCount
  rw [← length_gridCells, List.countP_eq_length]
  intro c hc
  rw [mem_gridCells] at hc
  simp [resetWorkspace, hc]

theorem unvisitedCount_marked (map : PointMap) {cs : List PixelRef}
    {st st' : Workspace × List PixelRef} (hm : Marked cs st st')
    (hgrid : ∀ c ∈ cs, map.inGrid c) :
    unvisitedCount map st'.1 + st'.2.length = unvisitedCount map st.1 + st.2.length := by
  obtain ⟨new, e1, e2, e3, e4⟩ := hm
  have hperm : List.Perm ((gridCells map).filter (fun c => st.1.miscs c = 0))
      ((gridCells map).filter (fun c => st'.1.miscs c = 0) ++ new) := by
    rw [List.perm_ext_iff_of_nodup ((nodup_gridCells map).filter _)]
    · intro c
      simp only [List.mem_filter, List.mem_append, decide_eq_true_eq]
      constructor
      · rintro ⟨hg, h0⟩
        by_cases hc : c ∈ new
        · exact Or.inr hc
        · exact Or.inl ⟨hg, by rw [e4 c hc]; exact h0⟩
      · rintro (⟨hg, h0⟩ | hc)
        · refine ⟨hg, ?_⟩
          by_cases hc : c ∈ new
          · exact (e3 c hc).2.1
          · rw [← e4 c hc]; exact h0
        · exact ⟨(mem_gridCells map c).2 (hgrid c (e3 c hc).1), (e3 c hc).2.1⟩
    · rw [List.nodup_append]
      refine ⟨(nodup_gridCells map).filter _, e2, ?_⟩
      intro c hc1 hc2
      simp only [List.mem_filter, decide_eq_true_eq] at hc1
      obtain ⟨_, _, i, hi, hb⟩ := e3 c hc2
      rw [hb] at hc1
      exact binBit_ne_zero hi hc1.2
  have hlen := hperm.length_eq
  unfold unvisitedCount
  rw [List.countP_eq_length_filter, List.countP_eq_length_filter, e1, List.length_append]
  rw [List.length_append] at hlen
  omega

theorem unvisitedCount_setMisc_le (map : PointMap) (ws : Workspace) (p : PixelRef) (v : Nat)
    (hv : v ≠ 0) : unvisitedCount map (ws.setMisc p v) ≤ unvisitedCount map ws := by
  unfold unvisitedCount
  apply List.countP_mono_left
  intro c _ hc
  simp only [Workspace.setMisc, decide_eq_true_eq] at hc ⊢
  by_cases h : c = p
  · rw [if_pos h] at hc; exact absurd hc hv
  · rw [if_neg h] at hc; exact hc

/-! ### One cell of a level -/

theorem visit_skip (map : PointMap) (radius : Int) (level : Nat) (s : SearchState)
    (ref : PixelRef)
    (h : ¬ ((map.getPoint ref).filled = true ∧ s.ws.miscs ref ≠ allOnes)) :
    visit map radius level s ref = s := by
  unfold visit
  simp only []
  rw [if_neg h]

theorem visit_counters (map : PointMap) (radius : Int) (level : Nat) (s : SearchState)
    (ref : PixelRef)
    (h : (map.getPoint ref).filled = true ∧ s.ws.miscs ref ≠ allOnes) :
    (visit map radius level s ref).total_nodes = s.total_nodes + 1 ∧
    (visit map radius level s ref).total_depth = s.total_depth + level ∧
    (visit map radius level s ref).distribution = incrTail s.distribution ∧
    (visit map radius level s ref).counted = (ref, level) :: s.counted := by
  unfold visit
  simp only []
  rw [if_pos h]
  split_ifs
  · split
    · exact ⟨rfl, rfl, rfl, rfl⟩
    · split_ifs <;> exact ⟨rfl, rfl, rfl, rfl⟩
  · exact ⟨rfl, rfl, rfl, rfl⟩

/-- The effect of one expansion followed by a consumed marking on the number
of unvisited cells. -/
theorem expand_measure (map : PointMap) (node : Node) (hgrid : ∀ c ∈ node.cells, map.inGrid c)
    (ws : Workspace) (tail : List PixelRef) (htail : ∀ c ∈ tail, map.inGrid c) (p : PixelRef) :
    unvisitedCount map ((extractUnseen node tail ws).1.setMisc p allOnes)
        + (extractUnseen node tail ws).2.length ≤ unvisitedCount map ws + tail.length ∧
      ∀ c ∈ (extractUnseen node tail ws).2, map.inGrid c := by
  have hm := (extractUnseen_scanned map node tail ws).1
  have hcount := unvisitedCount_marked map hm hgrid
  have hle := unvisitedCount_setMisc_le map (extractUnseen node tail ws).1 p allOnes
    allOnes_ne_zero
  simp only at hcount
  refine ⟨by omega, ?_⟩
  obtain ⟨new, e1, _, e3, _⟩ := hm
  intro c hc
  rw [e1] at hc
  rcases List.mem_append.1 hc with h | h
  · exact hgrid c (e3 c h).1
  · exact htail c h

theorem visit_measure (map : PointMap) (hwf : WellFormed map) (radius : Int) (level : Nat)
    (s : SearchState) (ref : PixelRef) (href : map.inGrid ref)
    (htail : ∀ c ∈ s.tail, map.inGrid c) :
    unvisitedCount map (visit map radius level s ref).ws
        + (visit map radius level s ref).tail.length
      ≤ unvisitedCount map s.ws + s.tail.length ∧
    ∀ c ∈ (visit map radius level s ref).tail, map.inGrid c := by
  unfold visit
  simp only []
  split_ifs with h1 h2
  · have e1 := expand_measure map (map.getPoint ref).getNode (hwf ref href).1 s.ws s.tail htail ref
    split
    · exact e1
    · rename_i mergePixel hmp
      have hm := (hwf ref href).2 mergePixel hmp
      split_ifs with h3
      · have e2 := expand_measure map (map.getPoint mergePixel).getNode (hwf mergePixel hm).1
          ((extractUnseen (map.getPoint ref).getNode s.tail s.ws).1.setMisc ref allOnes)
          (extractUnseen (map.getPoint ref).getNode s.tail s.ws).2 e1.2 mergePixel
        exact ⟨by simp only at e1 e2 ⊢; omega, e2.2⟩
      · exact e1
  · exact ⟨by
      have := unvisitedCount_setMisc_le map s.ws ref allOnes allOnes_ne_zero
      simp only
      omega, htail⟩
  · exact ⟨le_refl _, htail⟩

theorem foldl_visit_measure (map : PointMap) (hwf : WellFormed map) (radius : Int)
    (level : Nat) :
    ∀ (cur : List PixelRef) (s : SearchState), (∀ c ∈ cur, map.inGrid c) →
      (∀ c ∈ s.tail, map.inGrid c) →
      unvisitedCount map (cur.foldl (visit map radius level) s).ws
          + (cur.foldl (visit map radius level) s).tail.length
        ≤ unvisitedCount map s.ws + s.tail.length ∧
      ∀ c ∈ (cur.foldl (visit map radius level) s).tail, map.inGrid c := by
  intro cur
  induction cur with
  | nil => intro s _ ht; exact ⟨le_refl _, ht⟩
  | cons ref rest ih =>
    intro s hcur ht
    simp only [List.foldl_cons]
    have hv := visit_measure map hwf radius level s ref (hcur ref (List.mem_cons_self _ _)) ht
    have hr := ih (visit map radius level s ref)
      (fun c hc => hcur c (List.mem_cons_of_mem _ hc)) hv.2
    exact ⟨by omega, hr.2⟩

theorem levelStep_measure (map : PointMap) (hwf : WellFormed map) (radius : Int)
    (level : Nat) (s : SearchState) (htail : ∀ c ∈ s.tail, map.inGrid c) :
    unvisitedCount map (levelStep map radius level s).ws
        + (levelStep map radius level s).tail.length ≤ unvisitedCount map s.ws ∧
      ∀ c ∈ (levelStep map radius level s).tail, map.inGrid c := by
  have := foldl_visit_measure map hwf radius level s.tail
    { s with tail := [], distribution := 0 :: s.distribution } htail (by simp)
  simpa [levelStep] using this

/-! ### The `while` loop -/

/-- The loop ends on a well-formed grid once the fuel exceeds the number of
unvisited cells by two. -/
theorem search_terminates (map : PointMap) (hwf : WellFormed map) (radius : Int) :
    ∀ (fuel level : Nat) (s : SearchState), (∀ c ∈ s.tail, map.inGrid c) →
      ((s.tail = [] ∧ 1 ≤ fuel) ∨ unvisitedCount map s.ws + 2 ≤ fuel) →
      ∃ r, search map radius fuel level s = some r := by
  intro fuel
  induction fuel with
  | zero =>
    intro level s _ h
    rcases h with ⟨_, h⟩ | h <;> omega
  | succ fuel ih =>
    intro level s htail h
    unfold search
    by_cases he : s.tail.length = 0
    · rw [if_pos he]; exact ⟨s, rfl⟩
    · rw [if_neg he]
      have hne : s.tail ≠ [] := fun h0 => he (by rw [h0]; rfl)
      have hfuel : unvisitedCount map s.ws + 2 ≤ fuel + 1 := by
        rcases h with ⟨h0, _⟩ | h
        · exact absurd h0 hne
        · exact h
      obtain ⟨hm, hg⟩ := levelStep_measure map hwf radius level s htail
      apply ih (level + 1) _ hg
      by_cases h0 : (levelStep map radius level s).tail = []
      · left; exact ⟨h0, by omega⟩
      · right
        have : 0 < (levelStep map radius level s).tail.length :=
          List.length_pos.2 h0
        omega

/-- An invariant of the loop holds of its result, which has an empty level. -/
theorem search_invariant (map : PointMap) (radius : Int) (P : Nat → SearchState → Prop)
    (hstep : ∀ level s, P level s → s.tail ≠ [] → P (level + 1) (levelStep map radius level s)) :
    ∀ (fuel level : Nat) (s r : SearchState), P level s →
      search map radius fuel level s = some r →
      r.tail = [] ∧ ∃ level', level ≤ level' ∧ P level' r := by
  intro fuel
  induction fuel with
  | zero => intro level s r _ h; simp [search] at h
  | succ fuel ih =>
    intro level s r hP h
    unfold search at h
    by_cases he : s.tail.length = 0
    · rw [if_pos he] at h
      cases h
      exact ⟨List.length_eq_zero.1 he, level, le_refl _, hP⟩
    · rw [if_neg he] at h
      have hne : s.tail ≠ [] := fun h0 => he (by rw [h0]; rfl)
      obtain ⟨h1, l', h2, h3⟩ := ih (level + 1) _ r (hstep level s hP hne) h
      exact ⟨h1, l', by omega, h3⟩

/-! ### Counters of an episode -/

theorem foldl_visit_invariant (map : PointMap) (radius : Int) (level : Nat)
    (Q : SearchState → Prop)
    (hQ : ∀ s ref, Q s → Q (visit map radius level s ref)) :
    ∀ (cur : List PixelRef) (s : SearchState), Q s → Q (cur.foldl (visit map radius level) s) := by
  intro cur
  induction cur with
  | nil => intro s h; exact h
  | cons ref rest ih => intro s h; exact ih _ (hQ s ref h)

theorem incrTail_sum (d : List Nat) (h : d ≠ []) : (incrTail d).sum = d.sum + 1 := by
  cases d with
  | nil => exact absurd rfl h
  | cons a as => simp [incrTail]; omega

theorem incrTail_ne_nil (d : List Nat) (h : d ≠ []) : incrTail d ≠ [] := by
  cases d with
  | nil => exact absurd rfl h
  | cons a as => simp [incrTail]

theorem incrTail_length (d : List Nat) : (incrTail d).length = d.length := by
  cases d <;> simp [incrTail]

/-- The relation between the counters that one cell preserves. -/
theorem visit_sum (map : PointMap) (radius : Int) (level : Nat) (s : SearchState)
    (ref : PixelRef) (n0 : Nat)
    (h : s.distribution ≠ [] ∧ s.distribution.sum = s.total_nodes ∧ n0 ≤ s.total_nodes) :
    (visit map radius level s ref).distribution ≠ [] ∧
    (visit map radius level s ref).distribution.sum
      = (visit map radius level s ref).total_nodes ∧
    n0 ≤ (visit map radius level s ref).total_nodes := by
  by_cases hc : (map.getPoint ref).filled = true ∧ s.ws.miscs ref ≠ allOnes
  · obtain ⟨e1, _, e3, _⟩ := visit_counters map radius level s ref hc
    rw [e1, e3, incrTail_sum _ h.1, h.2.1]
    exact ⟨incrTail_ne_nil _ h.1, rfl, by omega⟩
  · rw [visit_skip map radius level s ref hc]; exact h

theorem levelStep_sum (map : PointMap) (radius : Int) (level : Nat) (s : SearchState)
    (h : s.distribution.sum = s.total_nodes) :
    (levelStep map radius level s).distribution.sum = (levelStep map radius level s).total_nodes ∧
    s.total_nodes ≤ (levelStep map radius level s).total_nodes := by
  have := foldl_visit_invariant map radius level
    (fun t => t.distribution ≠ [] ∧ t.distribution.sum = t.total_nodes ∧
      s.total_nodes ≤ t.total_nodes)
    (fun t ref ht => visit_sum map radius level t ref s.total_nodes ht)
    s.tail { s with tail := [], distribution := 0 :: s.distribution }
    ⟨by simp, by simpa using h, le_refl _⟩
  exact this.2

theorem unvisited_initialState (map : PointMap) (curs : PixelRef) (ws : Workspace) :
    unvisitedCount map (initialState map curs ws).ws = map.getCols * map.getRows :=
  unvisitedCount_reset map ws

/-! ### Walks and distances in the visibility graph -/

theorem walk_zero_iff (map : PointMap) (root c : PixelRef) : Walk map root 0 c ↔ c = root := by
  constructor
  · intro h; cases h; rfl
  · rintro rfl; exact Walk.zero

theorem walk_succ_iff (map : PointMap) (root c : PixelRef) (k : Nat) :
    Walk map root (k + 1) c ↔ ∃ u, Walk map root k u ∧ Edge map u c := by
  constructor
  · intro h
    cases h with
    | step hw he => exact ⟨_, hw, he⟩
  · rintro ⟨u, hw, he⟩; exact Walk.step hw he

theorem exists_isDist_of_walk (map : PointMap) (root v : PixelRef) :
    ∀ k, Walk map root k v → ∃ m, m ≤ k ∧ IsDist map root m v := by
  intro k
  induction k using Nat.strong_induction_on with
  | _ k ih =>
    intro hw
    by_cases h : ∃ m, m < k ∧ Walk map root m v
    · obtain ⟨m, hm, hwm⟩ := h
      obtain ⟨m', hm', hd⟩ := ih m hm hwm
      exact ⟨m', by omega, hd⟩
    · exact ⟨k, le_refl _, hw, fun m hm hwm => h ⟨m, hm, hwm⟩⟩

theorem isDist_zero_iff (map : PointMap) (root c : PixelRef) :
    IsDist map root 0 c ↔ c = root := by
  constructor
  · intro h; exact (walk_zero_iff map root c).1 h.1
  · rintro rfl; exact ⟨Walk.zero, fun m hm => absurd hm (by omega)⟩

theorem isDist_unique (map : PointMap) (root c : PixelRef) {m m' : Nat}
    (h : IsDist map root m c) (h' : IsDist map root m' c) : m = m' := by
  rcases Nat.lt_trichotomy m m' with hlt | heq | hgt
  · exact absurd h.1 (h'.2 m hlt)
  · exact heq
  · exact absurd h'.1 (h.2 m' hgt)

theorem isDist_succ_iff (map : PointMap) (root c : PixelRef) (k : Nat) :
    IsDist map root (k + 1) c ↔
      (¬ ∃ m, m ≤ k ∧ IsDist map root m c) ∧ ∃ u, IsDist map root k u ∧ Edge map u c := by
  constructor
  · rintro ⟨hw, hmin⟩
    refine ⟨?_, ?_⟩
    · rintro ⟨m, hm, hd⟩
      exact hmin m (by omega) hd.1
    · obtain ⟨u, hwu, he⟩ := (walk_succ_iff map root c k).1 hw
      refine ⟨u, ⟨hwu, ?_⟩, he⟩
      intro m hm hwm
      exact hmin (m + 1) (by omega) (Walk.step hwm he)
  · rintro ⟨hno, u, hdu, he⟩
    refine ⟨Walk.step hdu.1 he, ?_⟩
    intro m hm hwm
    obtain ⟨m', hm', hd⟩ := exists_isDist_of_walk map root c m hwm
    exact hno ⟨m', by omega, hd⟩

theorem isDist_pred (map : PointMap) (root c : PixelRef) (k : Nat)
    (h : IsDist map root (k + 1) c) : ∃ u, IsDist map root k u :=
  let ⟨_, u, hu, _⟩ := (isDist_succ_iff map root c k).1 h
  ⟨u, hu⟩

/-- When no cell is at distance `k`, none is further away. -/
theorem no_isDist_above (map : PointMap) (root : PixelRef) (k : Nat)
    (h : ∀ c, ¬ IsDist map root k c) : ∀ m, k ≤ m → ∀ c, ¬ IsDist map root m c := by
  intro m hm
  induction m with
  | zero =>
    have : k = 0 := by omega
    subst this; exact h
  | succ m ih =>
    by_cases hk : k = m + 1
    · subst hk; exact h
    · intro c hc
      obtain ⟨u, hu⟩ := isDist_pred map root c m hc
      exact ih (by omega) u hu

theorem walk_inGrid (map : PointMap) (hwf : WellFormed map) (root : PixelRef)
    (hroot : map.inGrid root) : ∀ (k : Nat) (c : PixelRef), Walk map root k c → map.inGrid c := by
  intro k c h
  induction h with
  | zero => exact hroot
  | step _ he ih => exact (hwf _ ih).1 _ he.2

theorem isDist_inGrid (map : PointMap) (hwf : WellFormed map) (root : PixelRef)
    (hroot : map.inGrid root) (k : Nat) (c : PixelRef) (h : IsDist map root k c) :
    map.inGrid c :=
  walk_inGrid map hwf root hroot k c h.1

/-! ### The counters and the ghost log -/

theorem countersAt_visit (map : PointMap) (radius : Int) (level : Nat) (s : SearchState)
    (ref : PixelRef) (h : CountersAt level s) :
    CountersAt level (visit map radius level s ref) := by
  by_cases hc : (map.getPoint ref).filled = true ∧ s.ws.miscs ref ≠ allOnes
  · obtain ⟨e1, e2, e3, e4⟩ := visit_counters map radius level s ref hc
    obtain ⟨h1, h2, h3, h4, h5⟩ := h
    refine ⟨?_, ?_, ?_, ?_, ?_⟩
    · rw [e1, e4, h1]; rfl
    · rw [e2, e4, h2]; simp only [List.map_cons, List.sum_cons]; omega
    · rw [e3, incrTail_length, h3]
    · intro p hp
      rw [e4] at hp
      rcases List.mem_cons.1 hp with rfl | hp
      · exact le_refl _
      · exact h4 p hp
    · intro i
      rw [e3, e4, List.countP_cons]
      cases hd : s.distribution with
      | nil => rw [hd] at h3; simp at h3
      | cons d ds =>
        have h5i := h5 i
        rw [hd] at h5i
        cases i with
        | zero =>
          simp only [incrTail, List.getD_cons_zero] at h5i ⊢
          simp [h5i]
        | succ i =>
          simp only [incrTail, List.getD_cons_succ] at h5i ⊢
          rw [h5i]
          simp
  · rw [visit_skip map radius level s ref hc]; exact h

theorem countersAt_push (level : Nat) (s : SearchState) (h : CountersAt level s) :
    CountersAt (level + 1) { s with tail := [], distribution := 0 :: s.distribution } := by
  obtain ⟨h1, h2, h3, h4, h5⟩ := h
  refine ⟨h1, h2, by simp [h3], fun p hp => by have := h4 p hp; omega, ?_⟩
  intro i
  cases i with
  | zero =>
    simp only [List.getD_cons_zero]
    symm
    rw [List.countP_eq_zero]
    intro p hp
    have := h4 p hp
    simp only [decide_eq_true_eq]
    omega
  | succ i =>
    simp only [List.getD_cons_succ]
    rw [h5 i]
    apply List.countP_congr
    intro p _
    simp only [decide_eq_true_eq]
    omega

theorem countersAt_initial (map : PointMap) (curs : PixelRef) (ws : Workspace) :
    CountersAt 0
      { initialState map curs ws with
        tail := [], distribution := 0 :: (initialState map curs ws).distribution } := by
  refine ⟨rfl, rfl, rfl, by simp [initialState], ?_⟩
  intro i
  cases i <;> simp [initialState]

theorem countersAt_levelStep (map : PointMap) (radius : Int) (level : Nat) (s : SearchState)
    (h : CountersAt level { s with tail := [], distribution := 0 :: s.distribution }) :
    CountersAt level (levelStep map radius level s) :=
  foldl_visit_invariant map radius level (CountersAt level)
    (fun t ref ht => countersAt_visit map radius level t ref ht) s.tail _ h

/-- At the end of an episode the counters are read off the ghost log. -/
theorem counters_of_final (level : Nat) (r : SearchState)
    (h : CountersAt level { r with tail := [], distribution := 0 :: r.distribution }) :
    r.total_nodes = r.counted.length ∧
    r.total_depth = (r.counted.map Prod.snd).sum ∧
    r.depthDistribution.length = level ∧
    (∀ p ∈ r.counted, p.2 < level) ∧
    ∀ j, r.depthDistribution.getD j 0 = r.counted.countP (fun p => p.2 = j) := by
  obtain ⟨h1, h2, h3, h4, h5⟩ := h
  simp only [List.length_cons, add_left_inj] at h3
  have hlt : ∀ p ∈ r.counted, p.2 < level := by
    intro p hp
    have h0 := h5 0
    simp only [List.getD_cons_zero] at h0
    have := (List.countP_eq_zero.1 h0.symm) p hp
    simp only [decide_eq_true_eq, add_zero] at this
    have := h4 p hp
    omega
  refine ⟨h1, h2, by simp [SearchState.depthDistribution, h3], hlt, ?_⟩
  intro j
  unfold SearchState.depthDistribution
  by_cases hj : j < level
  · rw [List.getD_eq_getElem?_getD, List.getElem?_reverse (by omega),
      ← List.getD_eq_getElem?_getD]
    have := h5 (r.distribution.length - 1 - j + 1)
    simp only [List.getD_cons_succ] at this
    rw [this]
    apply List.countP_congr
    intro p hp
    have := hlt p hp
    simp only [decide_eq_true_eq]
    omega
  · rw [List.getD_eq_default _ _ (by simp; omega)]
    symm
    rw [List.countP_eq_zero]
    intro p hp
    have := hlt p hp
    simp only [decide_eq_true_eq]
    omega

/-- The counters of a completed episode agree with its ghost log. -/
theorem episode_counters (map : PointMap) (radius : Int) (curs : PixelRef) (ws : Workspace)
    (fuel : Nat) (r : SearchState) (h : episode map radius curs ws fuel = some r) :
    r.total_nodes = r.counted.length ∧
    r.total_depth = (r.counted.map Prod.snd).sum ∧
    (∀ p ∈ r.counted, p.2 < r.depthDistribution.length) ∧
    ∀ j, r.depthDistribution.getD j 0 = r.counted.countP (fun p => p.2 = j) := by
  obtain ⟨_, level, _, hP⟩ := search_invariant map radius
    (fun level t => CountersAt level { t with tail := [], distribution := 0 :: t.distribution })
    (fun level t ht _ =>
      countersAt_push level _ (countersAt_levelStep map radius level t ht))
    fuel 0 (initialState map curs ws) r (countersAt_initial map curs ws) h
  obtain ⟨a1, a2, a3, a4, a5⟩ := counters_of_final level r hP
  exact ⟨a1, a2, by rw [a3]; exact a4, a5⟩

/-! ### The breadth-first invariant -/

theorem visit_unlimited_nomerge (map : PointMap) (level : Nat) (s : SearchState)
    (ref : PixelRef) (hm : (map.getPoint ref).getMergePixel = none)
    (hc : (map.getPoint ref).filled = true ∧ s.ws.miscs ref ≠ allOnes) :
    (visit map (-1) level s ref).ws
      = (extractUnseen (map.getPoint ref).getNode s.tail s.ws).1.setMisc ref allOnes ∧
    (visit map (-1) level s ref).tail
      = (extractUnseen (map.getPoint ref).getNode s.tail s.ws).2 := by
  unfold visit
  simp only []
  rw [if_pos hc]
  simp only [hm, true_or, if_true, and_self]

theorem bfsInv_skip (map : PointMap) (root : PixelRef)
    (hfilled : (map.getPoint root).filled = true) (k : Nat) (c : PixelRef)
    (rest : List PixelRef) (s : SearchState) (h : BfsInv map root k (c :: rest) s)
    (hskip : ¬ ((map.getPoint c).filled = true ∧ s.ws.miscs c ≠ allOnes)) :
    BfsInv map root k rest s := by
  have key : ¬ ((map.getPoint c).filled = true ∧ IsDist map root k c) := by
    rintro ⟨hf, hd⟩
    exact hskip ⟨hf, (h.U_dist c (List.mem_cons_self _ _)).2 hd⟩
  have hnot : ∀ v, (map.getPoint v).filled = true → IsDist map root k v →
      (v ∉ rest ↔ v ∉ c :: rest) := by
    intro v hf hd
    have hvc : v ≠ c := by rintro rfl; exact key ⟨hf, hd⟩
    simp [hvc]
  refine
    { ext := h.ext
      U_grid := fun c' hc' => h.U_grid c' (List.mem_cons_of_mem _ hc')
      U_nodup := (List.nodup_cons.1 h.U_nodup).2
      U_dist := fun c' hc' => h.U_dist c' (List.mem_cons_of_mem _ hc')
      root_seen := ?_
      tail_grid := h.tail_grid
      tail_nodup := h.tail_nodup
      tail_marked := h.tail_marked
      tail_within := h.tail_within
      seen := h.seen
      tail_dist := ?_
      consumed := ?_
      ghost_nodup := h.ghost_nodup
      ghost_mem := ?_ }
  · intro h0
    have hU := h.root_seen h0
    have hcr : c = root := (List.cons.inj hU).1
    subst hcr
    exact absurd ⟨hfilled, by rw [h0]; exact allOnes_ne_zero.symm⟩ hskip
  · intro c' hg
    rw [h.tail_dist c' hg]
    constructor
    · rintro ⟨h1, u, hdu, hu, he⟩
      exact ⟨h1, u, hdu, fun hr => hu (List.mem_cons_of_mem _ hr), he⟩
    · rintro ⟨h1, u, hdu, hu, he⟩
      exact ⟨h1, u, hdu, (hnot u he.1 hdu).1 hu, he⟩
  · intro c' hg
    rw [h.consumed c' hg]
    constructor
    · rintro ⟨hf, m, hdm, hor⟩
      refine ⟨hf, m, hdm, ?_⟩
      rcases hor with h1 | ⟨h1, h2⟩
      · exact Or.inl h1
      · exact Or.inr ⟨h1, fun hr => h2 (List.mem_cons_of_mem _ hr)⟩
    · rintro ⟨hf, m, hdm, hor⟩
      refine ⟨hf, m, hdm, ?_⟩
      rcases hor with h1 | ⟨h1, h2⟩
      · exact Or.inl h1
      · subst h1; exact Or.inr ⟨rfl, (hnot c' hf hdm).1 h2⟩
  · intro v m
    rw [h.ghost_mem v m]
    constructor
    · rintro ⟨hf, hdm, hor⟩
      refine ⟨hf, hdm, ?_⟩
      rcases hor with h1 | ⟨h1, h2⟩
      · exact Or.inl h1
      · exact Or.inr ⟨h1, fun hr => h2 (List.mem_cons_of_mem _ hr)⟩
    · rintro ⟨hf, hdm, hor⟩
      refine ⟨hf, hdm, ?_⟩
      rcases hor with h1 | ⟨h1, h2⟩
      · exact Or.inl h1
      · subst h1; exact Or.inr ⟨rfl, (hnot v hf hdm).1 h2⟩

theorem bfsInv_expand (map : PointMap) (hwf : WellFormed map) (root : PixelRef)
    (k : Nat) (c : PixelRef) (rest : List PixelRef) (s s' : SearchState)
    (h : BfsInv map root k (c :: rest) s)
    (hfc : (map.getPoint c).filled = true) (hmc : s.ws.miscs c ≠ allOnes)
    (new : List PixelRef) (hext : ExtentInv map s'.ws)
    (htail : s'.tail = new ++ s.tail) (hnew_nodup : new.Nodup)
    (hnew : ∀ c', c' ∈ new ↔ (c' ∈ (map.getPoint c).getNode.cells ∧ s.ws.miscs c' = 0))
    (hmisc_c : s'.ws.miscs c = allOnes)
    (hmisc_new : ∀ c', c' ∈ new → c' ≠ c → ∃ i, i < 32 ∧ s'.ws.miscs c' = binBit i)
    (hmisc_old : ∀ c', c' ∉ new → c' ≠ c → s'.ws.miscs c' = s.ws.miscs c')
    (hcounted : s'.counted = (c, k) :: s.counted) :
    BfsInv map root k rest s' := by
  have hcg : map.inGrid c := h.U_grid c (List.mem_cons_self _ _)
  have hdc : IsDist map root k c := (h.U_dist c (List.mem_cons_self _ _)).1 hmc
  have hc_rest : c ∉ rest := (List.nodup_cons.1 h.U_nodup).1
  have hcells : ∀ c' ∈ (map.getPoint c).getNode.cells, map.inGrid c' := (hwf c hcg).1
  have hroot_ne : ∀ c', s.ws.miscs c' = 0 → c' ≠ c → c' ≠ root := by
    intro c' h0 hne hr
    subst hr
    exact hne (List.cons.inj (h.root_seen h0)).1.symm
  have hzero : ∀ c', map.inGrid c' → s.ws.miscs c' = 0 → c' ≠ c →
      ¬ ∃ m, m ≤ k ∧ IsDist map root m c' := by
    intro c' hg h0 hne hw
    rcases (h.seen c' hg).2 (Or.inl hw) with h1 | h1
    · exact h1 h0
    · exact hroot_ne c' h0 hne h1
  have hmono : ∀ c', s.ws.miscs c' ≠ 0 → s'.ws.miscs c' ≠ 0 := by
    intro c' hne
    by_cases hcc : c' = c
    · rw [hcc, hmisc_c]; exact allOnes_ne_zero
    · rw [hmisc_old c' (fun hn => hne ((hnew c').1 hn).2) hcc]; exact hne
  have hnew_ne : ∀ c', c' ∈ new → s'.ws.miscs c' ≠ 0 := by
    intro c' hn
    by_cases hcc : c' = c
    · rw [hcc, hmisc_c]; exact allOnes_ne_zero
    · obtain ⟨i, hi, hb⟩ := hmisc_new c' hn hcc
      rw [hb]; exact binBit_ne_zero hi
  have htm : ∀ c' ∈ s'.tail, s'.ws.miscs c' ≠ 0 := by
    intro c' hc'
    rw [htail] at hc'
    rcases List.mem_append.1 hc' with hn | ho
    · exact hnew_ne c' hn
    · exact hmono c' (h.tail_marked c' ho)
  have hwithin_c : ∃ m, m ≤ k ∧ IsDist map root m c := ⟨k, le_refl _, hdc⟩
  refine
    { ext := hext
      U_grid := fun c' hc' => h.U_grid c' (List.mem_cons_of_mem _ hc')
      U_nodup := (List.nodup_cons.1 h.U_nodup).2
      U_dist := ?_
      root_seen := ?_
      tail_grid := ?_
      tail_nodup := ?_
      tail_marked := htm
      tail_within := ?_
      seen := ?_
      tail_dist := ?_
      consumed := ?_
      ghost_nodup := ?_
      ghost_mem := ?_ }
  · -- U_dist
    intro c' hc'
    have hcc : c' ≠ c := by rintro rfl; exact hc_rest hc'
    by_cases hn : c' ∈ new
    · obtain ⟨i, hi, hb⟩ := hmisc_new c' hn hcc
      have h0 := ((hnew c').1 hn).2
      apply iff_of_true
      · rw [hb]; exact binBit_ne_allOnes hi
      · exact (h.U_dist c' (List.mem_cons_of_mem _ hc')).1
          (by rw [h0]; exact allOnes_ne_zero.symm)
    · rw [hmisc_old c' hn hcc]
      exact h.U_dist c' (List.mem_cons_of_mem _ hc')
  · -- root_seen
    intro h0
    exfalso
    by_cases hrc : root = c
    · rw [hrc, hmisc_c] at h0; exact allOnes_ne_zero h0
    · by_cases hn : root ∈ new
      · exact hnew_ne root hn h0
      · rw [hmisc_old root hn hrc] at h0
        exact hrc (List.cons.inj (h.root_seen h0)).1.symm
  · -- tail_grid
    intro c' hc'
    rw [htail] at hc'
    rcases List.mem_append.1 hc' with hn | ho
    · exact hcells c' ((hnew c').1 hn).1
    · exact h.tail_grid c' ho
  · -- tail_nodup
    rw [htail, List.nodup_append]
    refine ⟨hnew_nodup, h.tail_nodup, ?_⟩
    intro c' hn ho
    exact h.tail_marked c' ho ((hnew c').1 hn).2
  · -- tail_within
    intro c' hc'
    rw [htail] at hc'
    rcases List.mem_append.1 hc' with hn | ho
    · exact exists_isDist_of_walk map root c' (k + 1)
        (Walk.step hdc.1 ⟨hfc, ((hnew c').1 hn).1⟩)
    · exact h.tail_within c' ho
  · -- seen
    intro c' hg
    constructor
    · intro hl
      have hold : (s.ws.miscs c' ≠ 0 ∨ c' = root) →
          ((∃ m, m ≤ k ∧ IsDist map root m c') ∨ c' ∈ s'.tail) := by
        intro hx
        rcases (h.seen c' hg).1 hx with h1 | h1
        · exact Or.inl h1
        · exact Or.inr (by rw [htail]; exact List.mem_append_right _ h1)
      rcases hl with hne | hr
      · by_cases hcc : c' = c
        · rw [hcc]; exact Or.inl hwithin_c
        · by_cases hn : c' ∈ new
          · exact Or.inr (by rw [htail]; exact List.mem_append_left _ hn)
          · rw [hmisc_old c' hn hcc] at hne
            exact hold (Or.inl hne)
      · exact hold (Or.inr hr)
    · rintro (hw | ht)
      · rcases (h.seen c' hg).2 (Or.inl hw) with h1 | h1
        · exact Or.inl (hmono c' h1)
        · exact Or.inr h1
      · exact Or.inl (htm c' ht)
  · -- tail_dist
    intro c' hg
    constructor
    · rintro ⟨ht, hm⟩
      have hcc : c' ≠ c := by rintro rfl; exact hm hmisc_c
      rw [htail] at ht
      rcases List.mem_append.1 ht with hn | ho
      · exact ⟨hzero c' hg ((hnew c').1 hn).2 hcc, c, hdc, hc_rest, hfc, ((hnew c').1 hn).1⟩
      · have hnn : c' ∉ new := fun hn => h.tail_marked c' ho ((hnew c').1 hn).2
        rw [hmisc_old c' hnn hcc] at hm
        obtain ⟨h1, u, hdu, hu, he⟩ := (h.tail_dist c' hg).1 ⟨ho, hm⟩
        exact ⟨h1, u, hdu, fun hr => hu (List.mem_cons_of_mem _ hr), he⟩
    · rintro ⟨hnw, u, hdu, hu, he⟩
      have hcc : c' ≠ c := by rintro rfl; exact hnw hwithin_c
      by_cases huc : u = c
      · subst huc
        by_cases h0 : s.ws.miscs c' = 0
        · have hn : c' ∈ new := (hnew c').2 ⟨he.2, h0⟩
          obtain ⟨i, hi, hb⟩ := hmisc_new c' hn hcc
          exact ⟨by rw [htail]; exact List.mem_append_left _ hn,
            by rw [hb]; exact binBit_ne_allOnes hi⟩
        · have hnn : c' ∉ new := fun hn => h0 ((hnew c').1 hn).2
          rcases (h.seen c' hg).1 (Or.inl h0) with h1 | h1
          · exact absurd h1 hnw
          · refine ⟨by rw [htail]; exact List.mem_append_right _ h1, ?_⟩
            rw [hmisc_old c' hnn hcc]
            intro heq
            obtain ⟨_, m, hdm, hor⟩ := (h.consumed c' hg).1 heq
            apply hnw
            rcases hor with h2 | ⟨h2, _⟩
            · exact ⟨m, by omega, hdm⟩
            · exact ⟨m, by omega, hdm⟩
      · have hu' : u ∉ c :: rest := by
          intro hmem
          rcases List.mem_cons.1 hmem with h1 | h1
          · exact huc h1
          · exact hu h1
        obtain ⟨ho, hm⟩ := (h.tail_dist c' hg).2 ⟨hnw, u, hdu, hu', he⟩
        have hnn : c' ∉ new := fun hn => h.tail_marked c' ho ((hnew c').1 hn).2
        exact ⟨by rw [htail]; exact List.mem_append_right _ ho,
          by rw [hmisc_old c' hnn hcc]; exact hm⟩
  · -- consumed
    intro c' hg
    by_cases hcc : c' = c
    · rw [hcc]
      exact iff_of_true hmisc_c ⟨hfc, k, hdc, Or.inr ⟨rfl, hc_rest⟩⟩
    · by_cases hn : c' ∈ new
      · obtain ⟨i, hi, hb⟩ := hmisc_new c' hn hcc
        apply iff_of_false
        · rw [hb]; exact binBit_ne_allOnes hi
        · rintro ⟨_, m, hdm, hor⟩
          apply hzero c' hg ((hnew c').1 hn).2 hcc
          rcases hor with h2 | ⟨h2, _⟩
          · exact ⟨m, by omega, hdm⟩
          · exact ⟨m, by omega, hdm⟩
      · rw [hmisc_old c' hn hcc, h.consumed c' hg]
        have hiff : c' ∉ c :: rest ↔ c' ∉ rest := by simp [hcc]
        constructor
        · rintro ⟨hf, m, hdm, hor⟩
          refine ⟨hf, m, hdm, ?_⟩
          rcases hor with h1 | ⟨h1, h2⟩
          · exact Or.inl h1
          · exact Or.inr ⟨h1, hiff.1 h2⟩
        · rintro ⟨hf, m, hdm, hor⟩
          refine ⟨hf, m, hdm, ?_⟩
          rcases hor with h1 | ⟨h1, h2⟩
          · exact Or.inl h1
          · exact Or.inr ⟨h1, hiff.2 h2⟩
  · -- ghost_nodup
    rw [hcounted, List.nodup_cons]
    refine ⟨?_, h.ghost_nodup⟩
    intro hmem
    rcases ((h.ghost_mem c k).1 hmem).2.2 with h1 | ⟨_, h2⟩
    · omega
    · exact h2 (List.mem_cons_self _ _)
  · -- ghost_mem
    intro v m
    rw [hcounted, List.mem_cons]
    constructor
    · rintro (heq | hmem)
      · obtain ⟨rfl, rfl⟩ := Prod.mk.inj heq
        exact ⟨hfc, hdc, Or.inr ⟨rfl, hc_rest⟩⟩
      · obtain ⟨hf, hd, hor⟩ := (h.ghost_mem v m).1 hmem
        refine ⟨hf, hd, ?_⟩
        rcases hor with h1 | ⟨h1, h2⟩
        · exact Or.inl h1
        · exact Or.inr ⟨h1, fun hr => h2 (List.mem_cons_of_mem _ hr)⟩
    · rintro ⟨hf, hd, hor⟩
      rcases hor with h1 | ⟨h1, h2⟩
      · exact Or.inr ((h.ghost_mem v m).2 ⟨hf, hd, Or.inl h1⟩)
      · by_cases hvc : v = c
        · left; rw [hvc, h1]
        · right
          refine (h.ghost_mem v m).2 ⟨hf, hd, Or.inr ⟨h1, ?_⟩⟩
          intro hmem
          rcases List.mem_cons.1 hmem with h3 | h3
          · exact hvc h3
          · exact h2 h3

theorem bfsInv_visit (map : PointMap) (hwf : WellFormed map) (root : PixelRef)
    (hfilled : (map.getPoint root).filled = true)
    (hnomerge : ∀ c, map.inGrid c → (map.getPoint c).getMergePixel = none)
    (k : Nat) (c : PixelRef) (rest : List PixelRef) (s : SearchState)
    (h : BfsInv map root k (c :: rest) s) :
    BfsInv map root k rest (visit map (-1) k s c) := by
  by_cases hc : (map.getPoint c).filled = true ∧ s.ws.miscs c ≠ allOnes
  · have hcg : map.inGrid c := h.U_grid c (List.mem_cons_self _ _)
    obtain ⟨e_ws, e_tail⟩ := visit_unlimited_nomerge map k s c (hnomerge c hcg) hc
    obtain ⟨_, _, _, e4⟩ := visit_counters map (-1) k s c hc
    have hcells := (hwf c hcg).1
    obtain ⟨_, new, t1, t2, t3, t4, t5⟩ :=
      extractUnseen_exact map (map.getPoint c).getNode s.tail s.ws h.ext hcells
    have hext := ((extractUnseen_scanned map (map.getPoint c).getNode s.tail s.ws).2
      h.ext hcells).1
    apply bfsInv_expand map hwf root k c rest s _ h hc.1 hc.2 new
    · rw [e_ws]; exact extentInv_setMisc map _ c allOnes allOnes_ne_zero hext
    · rw [e_tail]; exact t1
    · exact t2
    · exact t3
    · rw [e_ws]; simp [Workspace.setMisc]
    · intro c' hn hne
      rw [e_ws]
      simp only [Workspace.setMisc, hne, if_false]
      exact t4 c' hn
    · intro c' hn hne
      rw [e_ws]
      simp only [Workspace.setMisc, hne, if_false]
      exact t5 c' hn
    · exact e4
  · rw [visit_skip map (-1) k s c hc]
    exact bfsInv_skip map root hfilled k c rest s h hc

theorem bfsInv_foldl (map : PointMap) (hwf : WellFormed map) (root : PixelRef)
    (hfilled : (map.getPoint root).filled = true)
    (hnomerge : ∀ c, map.inGrid c → (map.getPoint c).getMergePixel = none) (k : Nat) :
    ∀ (U : List PixelRef) (s : SearchState), BfsInv map root k U s →
      BfsInv map root k [] (U.foldl (visit map (-1) k) s) := by
  intro U
  induction U with
  | nil => intro s h; exact h
  | cons c rest ih =>
    intro s h
    exact ih _ (bfsInv_visit map hwf root hfilled hnomerge k c rest s h)

theorem bfsInv_next (map : PointMap) (hwf : WellFormed map) (root : PixelRef)
    (hroot : map.inGrid root) (hfilled : (map.getPoint root).filled = true)
    (k : Nat) (s : SearchState) (h : BfsInv map root k [] s) :
    BfsInv map root (k + 1) s.tail { s with tail := [], distribution := 0 :: s.distribution } ∧
    ∀ c, IsDist map root (k + 1) c → c ∈ s.tail := by
  have hfront : ∀ c, IsDist map root (k + 1) c ↔ (c ∈ s.tail ∧ s.ws.miscs c ≠ allOnes) := by
    intro c
    constructor
    · intro hd
      have hg := isDist_inGrid map hwf root hroot _ c hd
      obtain ⟨hnw, u, hdu, he⟩ := (isDist_succ_iff map root c k).1 hd
      exact (h.tail_dist c hg).2 ⟨hnw, u, hdu, List.not_mem_nil _, he⟩
    · rintro ⟨ht, hm⟩
      obtain ⟨hnw, u, hdu, _, he⟩ := (h.tail_dist c (h.tail_grid c ht)).1 ⟨ht, hm⟩
      exact (isDist_succ_iff map root c k).2 ⟨hnw, u, hdu, he⟩
  have hlevels : ∀ (c : PixelRef) (m : Nat), IsDist map root m c →
      ((m < k ∨ (m = k ∧ c ∉ ([] : List PixelRef))) ↔
        (m < k + 1 ∨ (m = k + 1 ∧ c ∉ s.tail))) := by
    intro c m hd
    constructor
    · rintro (h1 | ⟨h1, _⟩)
      · exact Or.inl (by omega)
      · exact Or.inl (by omega)
    · rintro (h1 | ⟨h1, h2⟩)
      · by_cases hk : m < k
        · exact Or.inl hk
        · exact Or.inr ⟨by omega, List.not_mem_nil _⟩
      · subst h1
        exact absurd ((hfront c).1 hd).1 h2
  refine ⟨?_, fun c hd => ((hfront c).1 hd).1⟩
  refine
    { ext := h.ext
      U_grid := h.tail_grid
      U_nodup := h.tail_nodup
      U_dist := ?_
      root_seen := ?_
      tail_grid := by intro c hc; cases hc
      tail_nodup := List.nodup_nil
      tail_marked := by intro c hc; cases hc
      tail_within := by intro c hc; cases hc
      seen := ?_
      tail_dist := ?_
      consumed := ?_
      ghost_nodup := h.ghost_nodup
      ghost_mem := ?_ }
  · intro c hc
    constructor
    · intro hm; exact (hfront c).2 ⟨hc, hm⟩
    · intro hd; exact ((hfront c).1 hd).2
  · intro h0
    exfalso
    have hd0 : IsDist map root 0 root := (isDist_zero_iff map root root).2 rfl
    have : s.ws.miscs root = allOnes := by
      apply (h.consumed root hroot).2
      refine ⟨hfilled, 0, hd0, ?_⟩
      by_cases hk : 0 < k
      · exact Or.inl hk
      · exact Or.inr ⟨by omega, List.not_mem_nil _⟩
    simp only at h0
    rw [this] at h0
    exact allOnes_ne_zero h0
  · intro c hg
    simp only
    rw [h.seen c hg]
    constructor
    · rintro (⟨m, hm, hd⟩ | ht)
      · exact Or.inl ⟨m, by omega, hd⟩
      · exact Or.inl (h.tail_within c ht)
    · rintro (⟨m, hm, hd⟩ | ht)
      · by_cases hk : m ≤ k
        · exact Or.inl ⟨m, hk, hd⟩
        · have : m = k + 1 := by omega
          subst this
          exact Or.inr ((hfront c).1 hd).1
      · cases ht
  · intro c _
    apply iff_of_false
    · rintro ⟨hc, _⟩; cases hc
    · rintro ⟨_, u, hdu, hu, _⟩
      exact hu ((hfront u).1 hdu).1
  · intro c hg
    simp only
    rw [h.consumed c hg]
    constructor
    · rintro ⟨hf, m, hd, hor⟩; exact ⟨hf, m, hd, (hlevels c m hd).1 hor⟩
    · rintro ⟨hf, m, hd, hor⟩; exact ⟨hf, m, hd, (hlevels c m hd).2 hor⟩
  · intro v m
    simp only
    rw [h.ghost_mem v m]
    constructor
    · rintro ⟨hf, hd, hor⟩; exact ⟨hf, hd, (hlevels v m hd).1 hor⟩
    · rintro ⟨hf, hd, hor⟩; exact ⟨hf, hd, (hlevels v m hd).2 hor⟩

theorem bfsInv_initial (map : PointMap) (root : PixelRef) (hroot : map.inGrid root)
    (ws : Workspace) :
    BfsInv map root 0 [root]
      { initialState map root ws with
        tail := [], distribution := 0 :: (initialState map root ws).distribution } := by
  have hmisc : ∀ c, map.inGrid c → (resetWorkspace map ws).miscs c = 0 := by
    intro c hc; simp [resetWorkspace, hc]
  refine
    { ext := extentInv_reset map ws
      U_grid := by intro c hc; rw [List.mem_singleton.1 hc]; exact hroot
      U_nodup := List.nodup_singleton _
      U_dist := ?_
      root_seen := fun _ => rfl
      tail_grid := by intro c hc; cases hc
      tail_nodup := List.nodup_nil
      tail_marked := by intro c hc; cases hc
      tail_within := by intro c hc; cases hc
      seen := ?_
      tail_dist := ?_
      consumed := ?_
      ghost_nodup := List.nodup_nil
      ghost_mem := ?_ }
  · intro c hc
    rw [List.mem_singleton.1 hc]
    apply iff_of_true
    · show (resetWorkspace map ws).miscs root ≠ allOnes
      rw [hmisc root hroot]; exact allOnes_ne_zero.symm
    · exact (isDist_zero_iff map root root).2 rfl
  · intro c hg
    show ((resetWorkspace map ws).miscs c ≠ 0 ∨ c = root) ↔ _
    rw [hmisc c hg]
    constructor
    · rintro (h | h)
      · exact absurd rfl h
      · exact Or.inl ⟨0, le_refl _, (isDist_zero_iff map root c).2 h⟩
    · rintro (⟨m, hm, hd⟩ | h)
      · have : m = 0 := by omega
        subst this
        exact Or.inr ((isDist_zero_iff map root c).1 hd)
      · cases h
  · intro c _
    apply iff_of_false
    · rintro ⟨hc, _⟩; cases hc
    · rintro ⟨_, u, hdu, hu, _⟩
      exact hu (List.mem_singleton.2 ((isDist_zero_iff map root u).1 hdu))
  · intro c hg
    apply iff_of_false
    · show (resetWorkspace map ws).miscs c ≠ allOnes
      rw [hmisc c hg]; exact allOnes_ne_zero.symm
    · rintro ⟨_, m, hd, hor⟩
      rcases hor with h1 | ⟨h1, h2⟩
      · omega
      · subst h1
        exact h2 (List.mem_singleton.2 ((isDist_zero_iff map root c).1 hd))
  · intro v m
    apply iff_of_false
    · intro hmem; cases hmem
    · rintro ⟨_, hd, hor⟩
      rcases hor with h1 | ⟨h1, h2⟩
      · omega
      · subst h1
        exact h2 (List.mem_singleton.2 ((isDist_zero_iff map root v).1 hd))

/-- The ghost log of a completed episode without merge links and with
unlimited radius lists each filled cell once, with its distance. -/
theorem bfs_counted (map : PointMap) (hwf : WellFormed map) (root : PixelRef)
    (hroot : map.inGrid root) (hfilled : (map.getPoint root).filled = true)
    (hnomerge : ∀ c, map.inGrid c → (map.getPoint c).getMergePixel = none)
    (ws : Workspace) (fuel : Nat) (r : SearchState)
    (h : episode map (-1) root ws fuel = some r) :
    r.counted.Nodup ∧
    ∀ v m, (v, m) ∈ r.counted ↔ ((map.getPoint v).filled = true ∧ IsDist map root m v) := by
  obtain ⟨hempty, level, _, hinv, hall⟩ := search_invariant map (-1)
    (fun level t =>
      BfsInv map root level t.tail { t with tail := [], distribution := 0 :: t.distribution } ∧
      ∀ c, IsDist map root level c → c ∈ t.tail)
    (fun level t ht _ =>
      bfsInv_next map hwf root hroot hfilled level _
        (bfsInv_foldl map hwf root hfilled hnomerge level t.tail _ ht.1))
    fuel 0 (initialState map root ws) r
    ⟨bfsInv_initial map root hroot ws, fun c hc =>
      List.mem_singleton.2 ((isDist_zero_iff map root c).1 hc)⟩ h
  have hnone : ∀ m, level ≤ m → ∀ c, ¬ IsDist map root m c :=
    no_isDist_above map root level (fun c hc => by
      have := hall c hc
      rw [hempty] at this
      cases this)
  refine ⟨hinv.ghost_nodup, ?_⟩
  intro v m
  have := hinv.ghost_mem v m
  simp only at this
  rw [this]
  constructor
  · rintro ⟨hf, hd, _⟩; exact ⟨hf, hd⟩
  · rintro ⟨hf, hd⟩
    refine ⟨hf, hd, Or.inl ?_⟩
    by_contra hlt
    exact hnone m (by omega) v hd

/-! ### Completion of an episode -/

theorem episode_completes (map : PointMap) (hwf : WellFormed map) (radius : Int)
    (curs : PixelRef) (ws : Workspace) (fuel : Nat) (hgrid : map.inGrid curs)
    (hfuel : map.getCols * map.getRows + 2 ≤ fuel) :
    ∃ s, episode map radius curs ws fuel = some s := by
  apply search_terminates map hwf radius fuel 0 (initialState map curs ws)
  · intro c hc
    simp only [initialState, List.mem_singleton] at hc
    rw [hc]; exact hgrid
  · right
    rw [unvisited_initialState]
    exact hfuel

theorem levelStep_root (map : PointMap) (radius : Int) (curs : PixelRef) (s : SearchState)
    (hfilled : (map.getPoint curs).filled = true) (ht : s.tail = [curs])
    (hm : s.ws.miscs curs ≠ allOnes) :
    (levelStep map radius 0 s).total_nodes = s.total_nodes + 1 := by
  have hc : (map.getPoint curs).filled = true ∧
      ({ s with tail := [], distribution := 0 :: s.distribution } : SearchState).ws.miscs
        curs ≠ allOnes := ⟨hfilled, hm⟩
  have := (visit_counters map radius 0 _ curs hc).1
  unfold levelStep
  rw [ht]
  simp only [List.foldl_cons, List.foldl_nil]
  rw [this]

theorem episode_root_counted (map : PointMap) (radius : Int) (curs : PixelRef)
    (ws : Workspace) (fuel : Nat) (hgrid : map.inGrid curs)
    (hfilled : (map.getPoint curs).filled = true) (s : SearchState)
    (hs : episode map radius curs ws fuel = some s) :
    1 ≤ s.total_nodes ∧ s.depthDistribution.sum = s.total_nodes := by
  have hinv := search_invariant map radius
    (fun level t => t.distribution.sum = t.total_nodes ∧
      (level = 0 → t.tail = [curs] ∧ t.ws.miscs curs ≠ allOnes) ∧
      (1 ≤ level → 1 ≤ t.total_nodes))
    (by
      intro level t ⟨h1, h2, h3⟩ _
      obtain ⟨a1, a2⟩ := levelStep_sum map radius level t h1
      refine ⟨a1, by omega, ?_⟩
      intro _
      by_cases hl : level = 0
      · obtain ⟨ht, hm⟩ := h2 hl
        subst hl
        rw [levelStep_root map radius curs t hfilled ht hm]
        omega
      · have := h3 (by omega)
        omega)
    fuel 0 (initialState map curs ws) s
    ⟨rfl, fun _ => ⟨rfl, by simp [initialState, resetWorkspace, hgrid, allOnes]⟩,
      fun h => absurd h (by omega)⟩ hs
  obtain ⟨hempty, level', _, p1, p2, p3⟩ := hinv
  have hlevel : 1 ≤ level' := by
    by_contra hl
    have h0 : level' = 0 := by omega
    have := (p2 h0).1
    rw [hempty] at this
    cases this
  exact ⟨p3 hlevel, by unfold SearchState.depthDistribution; rw [List.sum_reverse]; exact p1⟩

/-! ### What one cell of a level does to the markers, in general -/

/-- The marking done by `extractUnseen`, whatever the extents are. -/
theorem extractUnseen_marked (node : Node) (pixels : List PixelRef) (ws : Workspace) :
    Marked node.cells (ws, pixels) (extractUnseen node pixels ws) :=
  (extractUnseen_scanned ⟨0, 0, fun _ => ⟨false, false, none, node⟩, fun _ => false⟩
    node pixels ws).1

/-- An expansion followed by the consumed marking of `p`. -/
theorem expand_effect (node : Node) (tail : List PixelRef) (ws : Workspace) (p : PixelRef) :
    ∃ new : List PixelRef, (extractUnseen node tail ws).2 = new ++ tail ∧ new.Nodup ∧
      (∀ c ∈ new, c ∈ node.cells ∧ ws.miscs c = 0 ∧
        ((extractUnseen node tail ws).1.setMisc p allOnes).miscs c ≠ 0) ∧
      (∀ c, ((extractUnseen node tail ws).1.setMisc p allOnes).miscs c = ws.miscs c ∨
        ((extractUnseen node tail ws).1.setMisc p allOnes).miscs c = allOnes ∨
        (c ∈ new ∧ ∃ i, i < 32 ∧
          ((extractUnseen node tail ws).1.setMisc p allOnes).miscs c = binBit i)) ∧
      ((extractUnseen node tail ws).1.setMisc p allOnes).miscs p = allOnes := by
  obtain ⟨new, e1, e2, e3, e4⟩ := extractUnseen_marked node tail ws
  refine ⟨new, e1, e2, ?_, ?_, by simp [Workspace.setMisc]⟩
  · intro c hc
    obtain ⟨h1, h2, i, hi, hb⟩ := e3 c hc
    refine ⟨h1, h2, ?_⟩
    simp only [Workspace.setMisc]
    split
    · exact allOnes_ne_zero
    · rw [hb]; exact binBit_ne_zero hi
  · intro c
    simp only [Workspace.setMisc]
    split
    · exact Or.inr (Or.inl rfl)
    · by_cases hc : c ∈ new
      · obtain ⟨_, _, i, hi, hb⟩ := e3 c hc
        exact Or.inr (Or.inr ⟨hc, i, hi, hb⟩)
      · exact Or.inl (e4 c hc)

theorem visit_effect (map : PointMap) (radius : Int) (level : Nat) (s : SearchState)
    (ref : PixelRef) :
    ∃ new : List PixelRef, (visit map radius level s ref).tail = new ++ s.tail ∧ new.Nodup ∧
      (∀ c ∈ new, s.ws.miscs c = 0 ∧ (visit map radius level s ref).ws.miscs c ≠ 0 ∧
        (c ∈ (map.getPoint ref).getNode.cells ∨
          ∃ m, (map.getPoint ref).getMergePixel = some m ∧ c ∈ (map.getPoint m).getNode.cells)) ∧
      (∀ c, (visit map radius level s ref).ws.miscs c = s.ws.miscs c ∨
        (visit map radius level s ref).ws.miscs c = allOnes ∨
        (c ∈ new ∧ ∃ i, i < 32 ∧ (visit map radius level s ref).ws.miscs c = binBit i)) := by
  unfold visit
  simp only []
  split_ifs with h1 h2
  · obtain ⟨new1, a1, a2, a3, a4, a5⟩ :=
      expand_effect (map.getPoint ref).getNode s.tail s.ws ref
    split
    · exact ⟨new1, a1, a2, fun c hc => ⟨(a3 c hc).2.1, (a3 c hc).2.2, Or.inl (a3 c hc).1⟩, a4⟩
    · rename_i mergePixel hmp
      split_ifs with h3
      · obtain ⟨new3, b1, b2, b3, b4, b5⟩ :=
          expand_effect (map.getPoint mergePixel).getNode
            (extractUnseen (map.getPoint ref).getNode s.tail s.ws).2
            ((extractUnseen (map.getPoint ref).getNode s.tail s.ws).1.setMisc ref allOnes)
            mergePixel
        have hdisj : ∀ c, c ∈ new3 → c ∉ new1 := fun c h3 h1 =>
          (a3 c h1).2.2 (b3 c h3).2.1
        have hzero : ∀ c, c ∈ new3 → s.ws.miscs c = 0 := by
          intro c hc
          have h0 := (b3 c hc).2.1
          rcases a4 c with h | h | ⟨h, _⟩
          · rw [← h]; exact h0
          · rw [h] at h0; exact absurd h0 allOnes_ne_zero
          · exact absurd h (hdisj c hc)
        refine ⟨new3 ++ new1, by simp only; rw [b1, a1, List.append_assoc], ?_, ?_, ?_⟩
        · rw [List.nodup_append]
          exact ⟨b2, a2, fun c h3 h1 => hdisj c h3 h1⟩
        · intro c hc
          rcases List.mem_append.1 hc with hc3 | hc1
          · exact ⟨hzero c hc3, (b3 c hc3).2.2, Or.inr ⟨mergePixel, hmp, (b3 c hc3).1⟩⟩
          · refine ⟨(a3 c hc1).2.1, ?_, Or.inl (a3 c hc1).1⟩
            rcases b4 c with h | h | ⟨_, i, hi, h⟩
            · simp only; rw [h]; exact (a3 c hc1).2.2
            · simp only; rw [h]; exact allOnes_ne_zero
            · simp only; rw [h]; exact binBit_ne_zero hi
        · intro c
          rcases b4 c with h | h | ⟨hc, i, hi, h⟩
          · rcases a4 c with g | g | ⟨gc, i, hi, g⟩
            · exact Or.inl (by simp only; rw [h, g])
            · exact Or.inr (Or.inl (by simp only; rw [h, g]))
            · exact Or.inr (Or.inr ⟨List.mem_append_right _ gc, i, hi, by simp only; rw [h, g]⟩)
          · exact Or.inr (Or.inl h)
          · exact Or.inr (Or.inr ⟨List.mem_append_left _ hc, i, hi, h⟩)
      · exact ⟨new1, a1, a2,
          fun c hc => ⟨(a3 c hc).2.1, (a3 c hc).2.2, Or.inl (a3 c hc).1⟩, a4⟩
  · refine ⟨[], rfl, List.nodup_nil, by simp, ?_⟩
    intro c
    simp only [Workspace.setMisc]
    split
    · exact Or.inr (Or.inl rfl)
    · exact Or.inl rfl
  · exact ⟨[], rfl, List.nodup_nil, by simp, fun c => Or.inl rfl⟩

/-- A consumed cell stays consumed, and stays out of the next level. -/
theorem visit_consumed (map : PointMap) (radius : Int) (level : Nat) (s : SearchState)
    (ref b : PixelRef) (hb : s.ws.miscs b = allOnes) :
    (visit map radius level s ref).ws.miscs b = allOnes ∧
    (b ∉ s.tail → b ∉ (visit map radius level s ref).tail) := by
  obtain ⟨new, e1, _, e3, e4⟩ := visit_effect map radius level s ref
  have hnew : b ∉ new := by
    intro hn
    have := (e3 b hn).1
    rw [hb] at this
    exact allOnes_ne_zero this
  refine ⟨?_, ?_⟩
  · rcases e4 b with h | h | ⟨h, _⟩
    · rw [h, hb]
    · exact h
    · exact absurd h hnew
  · intro ht hmem
    rw [e1] at hmem
    rcases List.mem_append.1 hmem with h | h
    · exact hnew h
    · exact ht h

theorem visit_counted_subset (map : PointMap) (radius : Int) (level : Nat) (s : SearchState)
    (ref : PixelRef) (p : PixelRef × Nat) (hp : p ∈ (visit map radius level s ref).counted) :
    p ∈ s.counted ∨ (p = (ref, level) ∧ (map.getPoint ref).filled = true ∧
      s.ws.miscs ref ≠ allOnes) := by
  by_cases hc : (map.getPoint ref).filled = true ∧ s.ws.miscs ref ≠ allOnes
  · rw [(visit_counters map radius level s ref hc).2.2.2] at hp
    rcases List.mem_cons.1 hp with h | h
    · exact Or.inr ⟨h, hc⟩
    · exact Or.inl h
  · rw [visit_skip map radius level s ref hc] at hp
    exact Or.inl hp

/-- A consumed cell outside the level being processed and outside the next
level is never counted later in the episode. -/
theorem foldl_visit_consumed (map : PointMap) (radius : Int) (level : Nat) (b : PixelRef) :
    ∀ (cur : List PixelRef) (s : SearchState), s.ws.miscs b = allOnes → b ∉ s.tail →
      (∀ m, (b, m) ∉ s.counted) →
      (cur.foldl (visit map radius level) s).ws.miscs b = allOnes ∧
      b ∉ (cur.foldl (visit map radius level) s).tail ∧
      ∀ m, (b, m) ∉ (cur.foldl (visit map radius level) s).counted := by
  intro cur
  induction cur with
  | nil => intro s h1 h2 h3; exact ⟨h1, h2, h3⟩
  | cons ref rest ih =>
    intro s h1 h2 h3
    simp only [List.foldl_cons]
    obtain ⟨v1, v2⟩ := visit_consumed map radius level s ref b h1
    apply ih _ v1 (v2 h2)
    intro m hm
    rcases visit_counted_subset map radius level s ref (b, m) hm with h | ⟨h, _, hne⟩
    · exact h3 m h
    · have hbr : b = ref := (Prod.mk.inj h).1
      rw [← hbr] at hne
      exact hne h1

theorem search_consumed (map : PointMap) (radius : Int) (b : PixelRef) :
    ∀ (fuel level : Nat) (s r : SearchState), s.ws.miscs b = allOnes → b ∉ s.tail →
      (∀ m, (b, m) ∉ s.counted) → search map radius fuel level s = some r →
      ∀ m, (b, m) ∉ r.counted := by
  intro fuel level s r h1 h2 h3 hs
  obtain ⟨_, _, _, hP⟩ := search_invariant map radius
    (fun _ t => t.ws.miscs b = allOnes ∧ b ∉ t.tail ∧ ∀ m, (b, m) ∉ t.counted)
    (fun lv t ht _ => by
      have := foldl_visit_consumed map radius lv b t.tail
        { t with tail := [], distribution := 0 :: t.distribution } ht.1 (by simp) ht.2.2
      exact this)
    fuel level s r ⟨h1, h2, h3⟩ hs
  exact hP.2.2

/-! ### The first level -/

theorem episode_unfold (map : PointMap) (radius : Int) (curs : PixelRef) (ws : Workspace)
    (fuel : Nat) :
    episode map radius curs ws (fuel + 1)
      = search map radius fuel 1 (levelStep map radius 0 (initialState map curs ws)) := by
  unfold episode
  rw [search]
  simp [initialState]

theorem search_of_empty (map : PointMap) (radius : Int) (fuel level : Nat) (s : SearchState)
    (h : s.tail = []) : search map radius (fuel + 1) level s = some s := by
  rw [search]
  simp [h]

theorem levelStep_initial (map : PointMap) (radius : Int) (curs : PixelRef) (ws : Workspace) :
    levelStep map radius 0 (initialState map curs ws)
      = visit map radius 0
          { initialState map curs ws with tail := [], distribution := [0] } curs := by
  unfold levelStep
  simp [initialState]

theorem initial_root_counted (map : PointMap) (radius : Int) (curs : PixelRef)
    (ws : Workspace) (hgrid : map.inGrid curs) (hfilled : (map.getPoint curs).filled = true) :
    (levelStep map radius 0 (initialState map curs ws)).total_nodes = 1 ∧
    (levelStep map radius 0 (initialState map curs ws)).total_depth = 0 ∧
    (levelStep map radius 0 (initialState map curs ws)).distribution = [1] ∧
    (levelStep map radius 0 (initialState map curs ws)).counted = [(curs, 0)] := by
  rw [levelStep_initial]
  have hc : (map.getPoint curs).filled = true ∧
      ({ initialState map curs ws with tail := [], distribution := [0] } : SearchState).ws.miscs
        curs ≠ allOnes :=
    ⟨hfilled, by simp [initialState, resetWorkspace, hgrid, allOnes]⟩
  obtain ⟨e1, e2, e3, e4⟩ := visit_counters map radius 0 _ curs hc
  exact ⟨by rw [e1]; rfl, by rw [e2]; rfl, by rw [e3]; rfl, by rw [e4]; rfl⟩

theorem search_counted_mono (map : PointMap) (radius : Int) (p : PixelRef × Nat) :
    ∀ (fuel level : Nat) (s r : SearchState), p ∈ s.counted →
      search map radius fuel level s = some r → p ∈ r.counted := by
  intro fuel level s r hp hs
  obtain ⟨_, _, _, hP⟩ := search_invariant map radius (fun _ t => p ∈ t.counted)
    (fun lv t ht _ =>
      foldl_visit_invariant map radius lv (fun u => p ∈ u.counted)
        (fun u ref hu => by
          dsimp only at hu ⊢
          by_cases hc : (map.getPoint ref).filled = true ∧ u.ws.miscs ref ≠ allOnes
          · rw [(visit_counters map radius lv u ref hc).2.2.2]
            exact List.mem_cons_of_mem _ hu
          · rw [visit_skip map radius lv u ref hc]; exact hu)
        t.tail _ ht)
    fuel level s r hp hs
  exact hP

/-! ### A finite radius -/

theorem visit_no_expand (map : PointMap) (radius : Int) (level : Nat) (s : SearchState)
    (ref : PixelRef) (hR : 0 ≤ radius) (hl : radius ≤ (level : Int)) :
    (visit map radius level s ref).tail = s.tail := by
  have hcond : ¬ (radius = -1 ∨ ((level : Int) < radius ∧
      ((map.getPoint ref).contextfilled = false ∨ map.iseven ref = true))) := by
    rintro (h | ⟨h, _⟩) <;> omega
  unfold visit
  simp only []
  split_ifs
  · rfl
  · rfl

theorem levelStep_no_expand (map : PointMap) (radius : Int) (level : Nat) (s : SearchState)
    (hR : 0 ≤ radius) (hl : radius ≤ (level : Int)) :
    (levelStep map radius level s).tail = [] :=
  foldl_visit_invariant map radius level (fun t => t.tail = [])
    (fun t ref ht => by
      dsimp only at ht ⊢
      rw [visit_no_expand map radius level t ref hR hl]; exact ht)
    s.tail { s with tail := [], distribution := 0 :: s.distribution } rfl

theorem levelStep_distribution_length (map : PointMap) (radius : Int) (level : Nat)
    (s : SearchState) :
    (levelStep map radius level s).distribution.length = s.distribution.length + 1 :=
  foldl_visit_invariant map radius level
    (fun t => t.distribution.length = s.distribution.length + 1)
    (fun t ref ht => by
      dsimp only at ht ⊢
      by_cases hc : (map.getPoint ref).filled = true ∧ t.ws.miscs ref ≠ allOnes
      · rw [(visit_counters map radius level t ref hc).2.2.1, incrTail_length]; exact ht
      · rw [visit_skip map radius level t ref hc]; exact ht)
    s.tail { s with tail := [], distribution := 0 :: s.distribution } rfl

theorem levelState_distribution_length (map : PointMap) (radius : Int) (curs : PixelRef)
    (ws : Workspace) :
    ∀ k, (levelState map radius curs ws k).distribution.length = k := by
  intro k
  induction k with
  | zero => rfl
  | succ k ih =>
    rw [levelState, levelStep_distribution_length, ih]

/-- The loop started at frontier level `level` stops at the first empty
frontier level. -/
theorem search_levelState (map : PointMap) (radius : Int) (curs : PixelRef) (ws : Workspace) :
    ∀ (fuel level n : Nat), n < fuel →
      (levelState map radius curs ws (level + n)).tail = [] →
      ∃ j, level ≤ j ∧ j ≤ level + n ∧
        search map radius fuel level (levelState map radius curs ws level)
          = some (levelState map radius curs ws j) ∧
        (levelState map radius curs ws j).tail = [] := by
  intro fuel
  induction fuel with
  | zero => intro level n hn; omega
  | succ fuel ih =>
    intro level n hn hempty
    by_cases h0 : (levelState map radius curs ws level).tail = []
    · exact ⟨level, le_refl _, by omega, search_of_empty map radius fuel level _ h0, h0⟩
    · cases n with
      | zero => exact absurd hempty h0
      | succ n =>
        have hlen : ¬ (levelState map radius curs ws level).tail.length = 0 := by
          intro h; exact h0 (List.length_eq_zero.1 h)
        obtain ⟨j, j1, j2, j3, j4⟩ := ih (level + 1) n (by omega)
          (by rw [show level + 1 + n = level + (n + 1) by omega]; exact hempty)
        refine ⟨j, by omega, by omega, ?_, j4⟩
        rw [search, if_neg hlen]
        exact j3

/-! ### No gap in the depth distribution -/

theorem noGap_visit (map : PointMap) (radius : Int) (level : Nat) (s : SearchState)
    (ref : PixelRef) (h : NoGap s) : NoGap (visit map radius level s ref) := by
  by_cases hc : (map.getPoint ref).filled = true ∧ s.ws.miscs ref ≠ allOnes
  · intro d rest hd
    rw [(visit_counters map radius level s ref hc).2.2.1] at hd
    cases hdist : s.distribution with
    | nil => rw [hdist] at hd; simp [incrTail] at hd
    | cons d0 rest0 =>
      rw [hdist] at hd
      simp only [incrTail, List.cons.injEq] at hd
      obtain ⟨rfl, rfl⟩ := hd
      exact ⟨(h d0 rest0 hdist).1, fun h0 => absurd h0 (by omega)⟩
  · rw [visit_skip map radius level s ref hc]; exact h

theorem noGap_push (s : SearchState) (h : NoGap s) (ht : s.tail ≠ []) :
    NoGap { s with tail := [], distribution := 0 :: s.distribution } := by
  intro d rest hd
  simp only [List.cons.injEq] at hd
  obtain ⟨rfl, rfl⟩ := hd
  refine ⟨?_, fun _ => rfl⟩
  intro x hx
  cases hdist : s.distribution with
  | nil => rw [hdist] at hx; cases hx
  | cons d0 rest0 =>
    rw [hdist] at hx
    obtain ⟨h1, h2⟩ := h d0 rest0 hdist
    rcases List.mem_cons.1 hx with rfl | hx
    · by_contra h0
      exact ht (h2 (by omega))
    · exact h1 x hx

theorem noGap_final (r : SearchState) (h : NoGap r) :
    ∀ j, j + 1 < r.depthDistribution.length → 0 < r.depthDistribution.getD j 0 := by
  intro j hj
  unfold SearchState.depthDistribution at hj ⊢
  cases hdist : r.distribution with
  | nil => rw [hdist] at hj; simp at hj
  | cons d rest =>
    rw [hdist] at hj
    simp only [List.reverse_cons, List.length_append, List.length_reverse, List.length_singleton]
      at hj
    have hjr : j < rest.reverse.length := by rw [List.length_reverse]; omega
    rw [List.reverse_cons, List.getD_eq_getElem?_getD, List.getElem?_append_left hjr,
      List.getElem?_eq_getElem hjr]
    simp only [Option.getD_some]
    apply (h d rest hdist).1
    exact List.mem_reverse.1 (List.getElem_mem _)

/-- In a completed episode every bucket but the last is positive. -/
theorem episode_noGap (map : PointMap) (radius : Int) (curs : PixelRef) (ws : Workspace)
    (fuel : Nat) (r : SearchState) (h : episode map radius curs ws fuel = some r) :
    ∀ j, j + 1 < r.depthDistribution.length → 0 < r.depthDistribution.getD j 0 := by
  obtain ⟨_, _, _, hP⟩ := search_invariant map radius (fun _ t => NoGap t)
    (fun lv t ht hne =>
      foldl_visit_invariant map radius lv NoGap
        (fun u ref hu => noGap_visit map radius lv u ref hu) t.tail _ (noGap_push t ht hne))
    fuel 0 (initialState map curs ws) r
    (by intro d rest hd; simp [initialState] at hd) h
  exact noGap_final r hP

/-! ### The merge partner of an expanded cell -/

theorem visit_merge_consumed (map : PointMap) (level : Nat) (s : SearchState)
    (ref b : PixelRef) (hm : (map.getPoint ref).getMergePixel = some b)
    (hc : (map.getPoint ref).filled = true ∧ s.ws.miscs ref ≠ allOnes) :
    (visit map (-1) level s ref).ws.miscs b = allOnes := by
  unfold visit
  simp only []
  rw [if_pos hc]
  simp only [hm, true_or, if_true]
  split_ifs with h3
  · simp [Workspace.setMisc]
  · simpa using h3

/-! ### The attribute values -/

theorem setValue_same (attributes : AttributeTable) (row : PixelRef) (col : Col) (v : Rat) :
    setValue attributes row col v row col = v := by
  simp [setValue]

theorem setValue_other (attributes : AttributeTable) (row r : PixelRef) (col c : Col) (v : Rat)
    (h : c ≠ col) : setValue attributes row col v r c = attributes r c := by
  simp [setValue, h]

theorem setValue_other_row (attributes : AttributeTable) (row r : PixelRef) (col c : Col)
    (v : Rat) (h : r ≠ row) : setValue attributes row col v r c = attributes r c := by
  simp [setValue, h]

/-- In full mode with more than one node the mean depth column receives
`total_depth / (total_nodes - 1)`. -/
theorem writeMetrics_depth (fns : MathFns) (row : PixelRef) (total_nodes total_depth : Nat)
    (distribution : List Nat) (attributes : AttributeTable) (hN : 1 < total_nodes) :
    writeMetrics fns false row total_nodes total_depth distribution attributes row Col.depth_col
      = (total_depth : Rat) / ((total_nodes : Rat) - 1) := by
  unfold writeMetrics
  simp only [if_pos hN, if_true]
  split_ifs <;> simp [setValue]

/-- In full mode, with more than one node and outside the branch
`total_nodes > 2 && mean_depth > 1.0`, the three integration columns
receive the sentinel. -/
theorem writeMetrics_integ_sentinel (fns : MathFns) (row : PixelRef)
    (total_nodes total_depth : Nat) (distribution : List Nat) (attributes : AttributeTable)
    (hN : 1 < total_nodes)
    (hbranch : ¬ (2 < total_nodes ∧
      1 < (total_depth : Rat) / ((total_nodes : Rat) - 1))) :
    writeMetrics fns false row total_nodes total_depth distribution attributes row
        Col.integ_dv_col = -1 ∧
    writeMetrics fns false row total_nodes total_depth distribution attributes row
        Col.integ_pv_col = -1 ∧
    writeMetrics fns false row total_nodes total_depth distribution attributes row
        Col.integ_tk_col = -1 := by
  unfold writeMetrics
  simp only [if_pos hN, if_neg hbranch, if_true]
  simp [setValue]

/-- In full mode, inside the branch `total_nodes > 2 && mean_depth > 1.0`,
the values the three integration columns receive. -/
theorem writeMetrics_integ_values (fns : MathFns) (row : PixelRef)
    (total_nodes total_depth : Nat) (distribution : List Nat) (attributes : AttributeTable)
    (hN : 2 < total_nodes)
    (hmd : 1 < (total_depth : Rat) / ((total_nodes : Rat) - 1)) :
    writeMetrics fns false row total_nodes total_depth distribution attributes row
        Col.integ_dv_col
      = 1 / (2 * ((total_depth : Rat) / ((total_nodes : Rat) - 1) - 1)
              / ((total_nodes : Rat) - 2) / fns.dvalue total_nodes) ∧
    writeMetrics fns false row total_nodes total_depth distribution attributes row
        Col.integ_pv_col
      = 1 / (2 * ((total_depth : Rat) / ((total_nodes : Rat) - 1) - 1)
              / ((total_nodes : Rat) - 2) / fns.pvalue total_nodes) ∧
    writeMetrics fns false row total_nodes total_depth distribution attributes row
        Col.integ_tk_col
      = (if (total_depth : Int) - (total_nodes : Int) + 1 ≤ 1 then -1
          else fns.teklinteg total_nodes total_depth) := by
  have hN1 : 1 < total_nodes := by omega
  unfold writeMetrics
  simp only [if_pos hN1, if_pos (And.intro hN hmd), if_true]
  by_cases ht : 1 < (total_depth : Int) - (total_nodes : Int) + 1
  · have ht' : ¬ ((total_depth : Int) - (total_nodes : Int) + 1 ≤ 1) := by omega
    simp only [if_pos ht, if_neg ht']
    simp [setValue]
  · have ht' : (total_depth : Int) - (total_nodes : Int) + 1 ≤ 1 := by omega
    simp only [if_neg ht, if_pos ht']
    simp [setValue]

/-- The mean depth exceeds 1 exactly when the total depth exceeds
`total_nodes - 1`. -/
theorem mean_depth_gt_one_iff (total_nodes total_depth : Nat) (hN : 1 < total_nodes) :
    1 < (total_depth : Rat) / ((total_nodes : Rat) - 1) ↔ total_nodes - 1 < total_depth := by
  have hpos : (0 : Rat) < (total_nodes : Rat) - 1 := by
    have : (1 : Rat) < (total_nodes : Rat) := by exact_mod_cast hN
    linarith
  rw [lt_div_iff₀ hpos, one_mul]
  constructor
  · intro h
    have h' : (total_nodes : Rat) < (total_depth : Rat) + 1 := by linarith
    have : total_nodes < total_depth + 1 := by exact_mod_cast h'
    omega
  · intro h
    have : total_nodes < total_depth + 1 := by omega
    have h' : (total_nodes : Rat) < (total_depth : Rat) + 1 := by exact_mod_cast this
    linarith

/-! ### The entropy loop -/

/-- When every bucket from `k` on is non-empty, the factorial variable is
multiplied by `k + 1`, `k + 2`, ... in turn. -/
theorem entropyLoop_factorial (fns : MathFns) (mean_depth : Rat) (total_nodes : Nat) :
    ∀ (buckets : List Nat) (k : Nat) (acc : EntropyAcc), (∀ d ∈ buckets, 0 < d) →
      acc.factorial = (Nat.factorial k : Rat) →
      (entropyLoop fns mean_depth total_nodes k buckets acc).factorial
        = (Nat.factorial (k + buckets.length) : Rat) := by
  intro buckets
  induction buckets with
  | nil => intro k acc _ h; simpa [entropyLoop] using h
  | cons d rest ih =>
    intro k acc hpos h
    rw [entropyLoop]
    have hd : 0 < d := hpos d (List.mem_cons_self _ _)
    have hstep : (entropyStep fns mean_depth total_nodes acc k d).factorial
        = (Nat.factorial (k + 1) : Rat) := by
      unfold entropyStep
      rw [if_pos hd]
      simp only
      rw [h, Nat.factorial_succ]
      push_cast
      ring
    rw [ih (k + 1) _ (fun x hx => hpos x (List.mem_cons_of_mem _ hx)) hstep]
    congr 2
    simp only [List.length_cons]
    omega

/-! ### The loop over the grid -/

theorem runCell_count (fns : MathFns) (map : PointMap) (options : Options)
    (simple_version : Bool) (fuel : Nat) (st r : RunState) (curs : PixelRef)
    (h : runCell fns map options simple_version fuel st curs = some r) :
    r.count = st.count + 1 := by
  unfold runCell at h
  split_ifs at h
  · cases h; rfl
  · split at h
    · cases h
    · cases h; rfl
  · cases h; rfl

theorem runLoop_count (fns : MathFns) (map : PointMap) (options : Options)
    (simple_version : Bool) (fuel : Nat) :
    ∀ (cells : List PixelRef) (st r : RunState),
      runLoop fns map options simple_version fuel cells st = some r →
      r.count = st.count + cells.length := by
  intro cells
  induction cells with
  | nil => intro st r h; simp [runLoop] at h; rw [← h]; rfl
  | cons c rest ih =>
    intro st r h
    rw [runLoop] at h
    split at h
    · cases h
    · rename_i st1 h1
      have := runCell_count fns map options simple_version fuel st st1 c h1
      rw [ih st1 r h, this]
      simp only [List.length_cons]
      omega

theorem runCell_gates (fns : MathFns) (map : PointMap) (options : Options)
    (simple_version : Bool) (fuel : Nat) (st : RunState) (curs : PixelRef)
    (hg : options.gates_only = true) :
    runCell fns map options simple_version fuel st curs
      = some { st with count := st.count + 1 } := by
  unfold runCell
  split_ifs with h1 h2
  · rfl
  · exact absurd (Or.inr hg) h2
  · rfl

theorem runLoop_gates (fns : MathFns) (map : PointMap) (options : Options)
    (simple_version : Bool) (fuel : Nat) (hg : options.gates_only = true) :
    ∀ (cells : List PixelRef) (st : RunState),
      runLoop fns map options simple_version fuel cells st
        = some { st with count := st.count + cells.length } := by
  intro cells
  induction cells with
  | nil => intro st; rfl
  | cons c rest ih =>
    intro st
    rw [runLoop, runCell_gates fns map options simple_version fuel st c hg]
    simp only
    rw [ih]
    simp only [List.length_cons]
    congr 2
    omega

theorem runLoop_completes (fns : MathFns) (map : PointMap) (hwf : WellFormed map)
    (options : Options) (simple_version : Bool) (fuel : Nat)
    (hfuel : map.getCols * map.getRows + 2 ≤ fuel) :
    ∀ (cells : List PixelRef) (st : RunState), (∀ c ∈ cells, map.inGrid c) →
      ∃ r, runLoop fns map options simple_version fuel cells st = some r := by
  intro cells
  induction cells with
  | nil => intro st _; exact ⟨st, rfl⟩
  | cons c rest ih =>
    intro st hg
    have hrest : ∀ c' ∈ rest, map.inGrid c' := fun c' hc' => hg c' (List.mem_cons_of_mem _ hc')
    rw [runLoop]
    unfold runCell
    split_ifs
    · exact ih _ hrest
    · obtain ⟨s, hs⟩ := episode_completes map hwf options.radius c st.ws fuel
        (hg c (List.mem_cons_self _ _)) hfuel
      rw [hs]
      exact ih _ hrest
    · exact ih _ hrest

/-! ### A root that sees every other filled cell -/

theorem sum_snd_eq_countP_one (l : List (PixelRef × Nat)) (h : ∀ p ∈ l, p.2 ≤ 1) :
    (l.map Prod.snd).sum = l.countP (fun p => p.2 = 1) := by
  induction l with
  | nil => rfl
  | cons a l ih =>
    have ha := h a (List.mem_cons_self _ _)
    rw [List.map_cons, List.sum_cons, List.countP_cons,
      ih (fun p hp => h p (List.mem_cons_of_mem _ hp))]
    by_cases h1 : a.2 = 1
    · simp [h1]; omega
    · have : a.2 = 0 := by omega
      simp [this]

theorem length_eq_countP_zero_add_one (l : List (PixelRef × Nat)) (h : ∀ p ∈ l, p.2 ≤ 1) :
    l.length = l.countP (fun p => p.2 = 0) + l.countP (fun p => p.2 = 1) := by
  induction l with
  | nil => rfl
  | cons a l ih =>
    have ha := h a (List.mem_cons_self _ _)
    rw [List.length_cons, List.countP_cons, List.countP_cons,
      ih (fun p hp => h p (List.mem_cons_of_mem _ hp))]
    by_cases h1 : a.2 = 1
    · simp [h1]; omega
    · have : a.2 = 0 := by omega
      simp [this]; omega

/-- The distances when every other filled cell of the grid lies on a run of
the root. -/
theorem isDist_of_root_sees_all (map : PointMap) (hwf : WellFormed map) (root : PixelRef)
    (hroot : map.inGrid root) (hfilled : (map.getPoint root).filled = true)
    (hsees : ∀ c, map.inGrid c → (map.getPoint c).filled = true → c ≠ root →
      c ∈ (map.getPoint root).getNode.cells)
    (v : PixelRef) (m : Nat) (hv : (map.getPoint v).filled = true) :
    IsDist map root m v ↔ (map.inGrid v ∧ m = if v = root then 0 else 1) := by
  have hone : ∀ c, map.inGrid c → (map.getPoint c).filled = true → c ≠ root →
      IsDist map root 1 c := by
    intro c hg hf hne
    apply (isDist_succ_iff map root c 0).2
    refine ⟨?_, root, (isDist_zero_iff map root root).2 rfl, hfilled, hsees c hg hf hne⟩
    rintro ⟨m', hm', hd⟩
    have : m' = 0 := by omega
    subst this
    exact hne ((isDist_zero_iff map root c).1 hd)
  constructor
  · intro hd
    have hg := isDist_inGrid map hwf root hroot m v hd
    refine ⟨hg, ?_⟩
    by_cases hvr : v = root
    · rw [if_pos hvr]
      exact isDist_unique map root v hd ((isDist_zero_iff map root v).2 hvr)
    · rw [if_neg hvr]
      exact isDist_unique map root v hd (hone v hg hv hvr)
  · rintro ⟨hg, hm⟩
    by_cases hvr : v = root
    · rw [if_pos hvr] at hm
      rw [hm]; exact (isDist_zero_iff map root v).2 hvr
    · rw [if_neg hvr] at hm
      rw [hm]; exact hone v hg hv hvr

/-- The shape of a list known by its length bound and its first buckets. -/
theorem distribution_shape (dd : List Nat) (n : Nat) (hlen : 0 < dd.length)
    (h0 : dd.getD 0 0 = 1) (h1 : dd.getD 1 0 = n - 1) (h2 : ∀ j, 2 ≤ j → dd.getD j 0 = 0)
    (hgap : ∀ j, j + 1 < dd.length → 0 < dd.getD j 0) (hn : 1 ≤ n) :
    (dd = [1] ∧ n = 1) ∨ dd = [1, n - 1] ∨ dd = [1, n - 1, 0] := by
  match dd, hlen, h0, h1, h2, hgap with
  | [x], _, h0, h1, _, _ =>
    left
    simp only [List.getD_cons_zero] at h0
    simp at h1
    exact ⟨by rw [h0], by omega⟩
  | [x, y], _, h0, h1, _, _ =>
    right; left
    simp only [List.getD_cons_zero, List.getD_cons_succ] at h0 h1
    rw [h0, h1]
  | [x, y, z], _, h0, h1, h2, _ =>
    right; right
    have hz := h2 2 (le_refl _)
    simp only [List.getD_cons_zero, List.getD_cons_succ] at h0 h1 hz
    rw [h0, h1, hz]
  | x :: y :: z :: w :: rest, _, _, _, h2, hgap =>
    exfalso
    have hz := h2 2 (le_refl _)
    have hp := hgap 2 (by simp)
    omega

theorem root_sees_all_result (map : PointMap) (hwf : WellFormed map) (root : PixelRef)
    (hroot : map.inGrid root) (hfilled : (map.getPoint root).filled = true)
    (hnomerge : ∀ c, map.inGrid c → (map.getPoint c).getMergePixel = none)
    (hsees : ∀ c, map.inGrid c → (map.getPoint c).filled = true → c ≠ root →
      c ∈ (map.getPoint root).getNode.cells)
    (ws : Workspace) (fuel : Nat) (s : SearchState)
    (hs : episode map (-1) root ws fuel = some s) :
    s.total_nodes = ((gridCells map).filter (fun c => (map.getPoint c).filled)).length ∧
    s.total_depth = s.total_nodes - 1 ∧
    ((s.depthDistribution = [1] ∧ s.total_nodes = 1) ∨
      s.depthDistribution = [1, s.total_nodes - 1] ∨
      s.depthDistribution = [1, s.total_nodes - 1, 0]) := by
  obtain ⟨hnd, hmem⟩ := bfs_counted map hwf root hroot hfilled hnomerge ws fuel s hs
  obtain ⟨c1, c2, c3, c4⟩ := episode_counters map (-1) root ws fuel s hs
  have hgap := episode_noGap map (-1) root ws fuel s hs
  have hchar : ∀ v m, (v, m) ∈ s.counted ↔
      ((map.getPoint v).filled = true ∧ map.inGrid v ∧ m = if v = root then 0 else 1) := by
    intro v m
    rw [hmem v m]
    constructor
    · rintro ⟨hf, hd⟩
      exact ⟨hf, (isDist_of_root_sees_all map hwf root hroot hfilled hsees v m hf).1 hd⟩
    · rintro ⟨hf, hrest⟩
      exact ⟨hf, (isDist_of_root_sees_all map hwf root hroot hfilled hsees v m hf).2 hrest⟩
  have hle : ∀ p ∈ s.counted, p.2 ≤ 1 := by
    intro p hp
    have := ((hchar p.1 p.2).1 hp).2.2
    split_ifs at this <;> omega
  -- the number of nodes
  have hN : s.total_nodes
      = ((gridCells map).filter (fun c => (map.getPoint c).filled)).length := by
    rw [c1, ← List.length_map s.counted Prod.fst]
    apply List.Perm.length_eq
    rw [List.perm_ext_iff_of_nodup _ ((nodup_gridCells map).filter _)]
    · intro v
      simp only [List.mem_map, List.mem_filter, mem_gridCells, Prod.exists, exists_and_right,
        exists_eq_right]
      constructor
      · rintro ⟨m, hm⟩
        exact ⟨((hchar v m).1 hm).2.1, ((hchar v m).1 hm).1⟩
      · rintro ⟨hg, hf⟩
        exact ⟨_, (hchar v _).2 ⟨hf, hg, rfl⟩⟩
    · apply List.Nodup.map_on _ hnd
      intro p hp q hq hpq
      have h1 := ((hchar p.1 p.2).1 hp).2.2
      have h2 := ((hchar q.1 q.2).1 hq).2.2
      rw [hpq] at h1
      exact Prod.ext hpq (by rw [h1, h2])
  -- the buckets
  have hzero : s.counted.countP (fun p => p.2 = 0) = 1 := by
    rw [List.countP_eq_length_filter]
    have : List.Perm (s.counted.filter (fun p => p.2 = 0)) [(root, 0)] := by
      rw [List.perm_ext_iff_of_nodup (hnd.filter _) (List.nodup_singleton _)]
      rintro ⟨v, m⟩
      simp only [List.mem_filter, List.mem_singleton, decide_eq_true_eq, hchar, Prod.mk.injEq]
      constructor
      · rintro ⟨⟨_, _, hm⟩, h0⟩
        subst h0
        by_cases hvr : v = root
        · exact ⟨hvr, rfl⟩
        · rw [if_neg hvr] at hm; omega
      · rintro ⟨rfl, rfl⟩
        exact ⟨⟨hfilled, hroot, by simp⟩, rfl⟩
    rw [this.length_eq]; rfl
  have hlen := length_eq_countP_zero_add_one s.counted hle
  have hone : s.counted.countP (fun p => p.2 = 1) = s.total_nodes - 1 := by
    rw [c1]; omega
  have hD : s.total_depth = s.total_nodes - 1 := by
    rw [c2, sum_snd_eq_countP_one s.counted hle, hone]
  refine ⟨hN, hD, ?_⟩
  apply distribution_shape s.depthDistribution s.total_nodes
  · exact c3 (root, 0) ((hchar root 0).2 ⟨hfilled, hroot, by simp⟩)
  · rw [c4 0]; exact hzero
  · rw [c4 1]; exact hone
  · intro j hj
    rw [c4 j, List.countP_eq_zero]
    intro p hp
    have := hle p hp
    simp only [decide_eq_true_eq]
    omega
  · exact hgap
  · rw [c1]; omega

/-! ### Facts about the concrete grids -/

theorem wellFormed_fullGrid3 : WellFormed fullGrid3 := by
  intro c _
  refine ⟨?_, ?_⟩
  · show ∀ d ∈ rowsNode.cells, fullGrid3.inGrid d
    decide
  · intro m hm; cases hm

theorem noMerge_fullGrid3 :
    ∀ c, fullGrid3.inGrid c → (fullGrid3.getPoint c).getMergePixel = none :=
  fun _ _ => rfl

theorem fullGrid3_centre_sees_all :
    ∀ c, fullGrid3.inGrid c → (fullGrid3.getPoint c).filled = true → c ≠ ⟨1, 1⟩ →
      c ∈ (fullGrid3.getPoint ⟨1, 1⟩).getNode.cells := by
  intro c hc _ _
  have hmem : c ∈ gridCells fullGrid3 := (mem_gridCells fullGrid3 c).2 hc
  have hall : ∀ d ∈ gridCells fullGrid3, d ∈ rowsNode.cells := by decide
  exact hall c hmem

/-! ### The result of an episode as a level state -/

theorem episode_root_depth_zero (map : PointMap) (radius : Int) (curs : PixelRef)
    (ws : Workspace) (fuel : Nat) (hgrid : map.inGrid curs)
    (hfilled : (map.getPoint curs).filled = true) (s : SearchState)
    (hs : episode map radius curs ws fuel = some s) :
    s.counted.countP (fun p => p.2 = 0) = 1 ∧ (curs, 0) ∈ s.counted ∧
      ∀ p ∈ s.counted, p.2 = 0 → p = (curs, 0) := by
  cases fuel with
  | zero => simp [episode, search] at hs
  | succ fuel =>
    rw [episode_unfold] at hs
    obtain ⟨_, _, _, i4⟩ := initial_root_counted map radius curs ws hgrid hfilled
    obtain ⟨_, level, _, _, h1, h2⟩ := search_invariant map radius
      (fun level t => 1 ≤ level ∧ t.counted.countP (fun p => p.2 = 0) = 1 ∧
        ∀ p ∈ t.counted, p.2 = 0 → p = (curs, 0))
      (fun level t ht _ => by
        refine ⟨by omega, ?_⟩
        exact foldl_visit_invariant map radius level
          (fun u => u.counted.countP (fun p => p.2 = 0) = 1 ∧
            ∀ p ∈ u.counted, p.2 = 0 → p = (curs, 0))
          (fun u ref hu => by
            dsimp only at hu ⊢
            by_cases hc : (map.getPoint ref).filled = true ∧ u.ws.miscs ref ≠ allOnes
            · rw [(visit_counters map radius level u ref hc).2.2.2]
              refine ⟨?_, ?_⟩
              · rw [List.countP_cons, hu.1]
                have : ¬ level = 0 := by omega
                simp [this]
              · intro p hp h0
                rcases List.mem_cons.1 hp with rfl | hp
                · simp only at h0; omega
                · exact hu.2 p hp h0
            · rw [visit_skip map radius level u ref hc]; exact hu)
          t.tail _ ht.2)
      fuel 1 _ s ⟨le_refl _, by rw [i4]; simp, by rw [i4]; simp⟩ hs
    refine ⟨h1, ?_, h2⟩
    exact search_counted_mono map radius (curs, 0) fuel 1 _ s (by rw [i4]; simp) hs

/-! ### Depth sums -/

theorem sum_snd_eq_weighted (l : List (PixelRef × Nat)) (L : Nat) (h : ∀ p ∈ l, p.2 < L) :
    (l.map Prod.snd).sum = ∑ k ∈ Finset.range L, k * l.countP (fun p => p.2 = k) := by
  induction l with
  | nil => simp
  | cons a l ih =>
    have ha : a.2 < L := h a (List.mem_cons_self _ _)
    rw [List.map_cons, List.sum_cons, ih (fun p hp => h p (List.mem_cons_of_mem _ hp))]
    have hsplit : ∀ k, k * (a :: l).countP (fun p => p.2 = k)
        = k * l.countP (fun p => p.2 = k) + (if a.2 = k then k else 0) := by
      intro k
      rw [List.countP_cons]
      by_cases hk : a.2 = k
      · simp [hk, mul_add]
      · simp [hk]
    simp only [hsplit, Finset.sum_add_distrib]
    rw [Finset.sum_ite_eq]
    simp [ha]
    omega

theorem sum_snd_ge_countP (l : List (PixelRef × Nat)) :
    l.countP (fun p => 1 ≤ p.2) ≤ (l.map Prod.snd).sum ∧
    ((l.map Prod.snd).sum = l.countP (fun p => 1 ≤ p.2) ↔ ∀ p ∈ l, p.2 ≤ 1) := by
  induction l with
  | nil => simp
  | cons a l ih =>
    obtain ⟨ih1, ih2⟩ := ih
    rw [List.map_cons, List.sum_cons, List.countP_cons]
    by_cases h1 : 1 ≤ a.2
    · simp only [h1, decide_True, if_true]
      refine ⟨by omega, ?_⟩
      constructor
      · intro heq p hp
        have hl : (l.map Prod.snd).sum = l.countP (fun p => 1 ≤ p.2) := by omega
        have ha : a.2 ≤ 1 := by omega
        rcases List.mem_cons.1 hp with rfl | hp
        · exact ha
        · exact ih2.1 hl p hp
      · intro hall
        have ha := hall a (List.mem_cons_self _ _)
        have := ih2.2 (fun p hp => hall p (List.mem_cons_of_mem _ hp))
        omega
    · have h0 : a.2 = 0 := by omega
      simp only [h1, decide_False, if_false, Bool.false_eq_true]
      refine ⟨by omega, ?_⟩
      constructor
      · intro heq p hp
        have hl : (l.map Prod.snd).sum = l.countP (fun p => 1 ≤ p.2) := by omega
        rcases List.mem_cons.1 hp with rfl | hp
        · omega
        · exact ih2.1 hl p hp
      · intro hall
        have := ih2.2 (fun p hp => hall p (List.mem_cons_of_mem _ hp))
        omega

theorem length_eq_zero_add_positive (l : List (PixelRef × Nat)) :
    l.length = l.countP (fun p => p.2 = 0) + l.countP (fun p => 1 ≤ p.2) := by
  induction l with
  | nil => rfl
  | cons a l ih =>
    rw [List.length_cons, List.countP_cons, List.countP_cons, ih]
    by_cases h1 : 1 ≤ a.2
    · have : ¬ a.2 = 0 := by omega
      simp [h1, this]; omega
    · have : a.2 = 0 := by omega
      simp [this]; omega

/-- The total depth of a completed episode from a filled root of the grid is
at least the number of the other counted cells, with equality exactly when
every counted cell is at depth at most 1. -/
theorem episode_depth_ge (map : PointMap) (radius : Int) (curs : PixelRef) (ws : Workspace)
    (fuel : Nat) (hgrid : map.inGrid curs) (hfilled : (map.getPoint curs).filled = true)
    (s : SearchState) (hs : episode map radius curs ws fuel = some s) :
    s.total_nodes - 1 ≤ s.total_depth ∧ 1 ≤ s.total_nodes ∧
    (s.total_depth = s.total_nodes - 1 ↔ ∀ p ∈ s.counted, p.2 ≤ 1) := by
  obtain ⟨c1, c2, _, _⟩ := episode_counters map radius curs ws fuel s hs
  obtain ⟨r1, _, _⟩ := episode_root_depth_zero map radius curs ws fuel hgrid hfilled s hs
  have hlen := length_eq_zero_add_positive s.counted
  obtain ⟨g1, g2⟩ := sum_snd_ge_countP s.counted
  refine ⟨by omega, by omega, ?_⟩
  rw [← g2]
  constructor <;> intro h <;> omega

theorem sum_map_div (l : List Nat) (c : Rat) :
    (l.map (fun (d : Nat) => (d : Rat) / c)).sum = ((l.sum : Nat) : Rat) / c := by
  induction l with
  | nil => simp
  | cons a l ih =>
    rw [List.map_cons, List.sum_cons, List.sum_cons, ih]
    push_cast
    ring

/-- The buckets of a completed episode from a filled root of the grid start
with 1. -/
theorem episode_distribution_head (map : PointMap) (radius : Int) (curs : PixelRef)
    (ws : Workspace) (fuel : Nat) (hgrid : map.inGrid curs)
    (hfilled : (map.getPoint curs).filled = true) (s : SearchState)
    (hs : episode map radius curs ws fuel = some s) :
    ∃ rest, s.depthDistribution = 1 :: rest ∧ rest.sum = s.total_nodes - 1 ∧
      1 ≤ s.total_nodes := by
  obtain ⟨_, _, c3, c4⟩ := episode_counters map radius curs ws fuel s hs
  obtain ⟨r1, r2, _⟩ := episode_root_depth_zero map radius curs ws fuel hgrid hfilled s hs
  obtain ⟨n1, n2⟩ := episode_root_counted map radius curs ws fuel hgrid hfilled s hs
  have hpos := c3 (curs, 0) r2
  have h0 := c4 0
  rw [r1] at h0
  cases hd : s.depthDistribution with
  | nil => rw [hd] at hpos; simp at hpos
  | cons x rest =>
    rw [hd] at h0 n2
    simp only [List.getD_cons_zero] at h0
    rw [List.sum_cons] at n2
    exact ⟨rest, by rw [h0], by omega, n1⟩

/-! ### Consumed cells -/

theorem miscs_setMisc (ws : Workspace) (p q : PixelRef) (v : Nat) :
    (ws.setMisc p v).miscs q = if q = p then v else ws.miscs q := rfl

theorem visit_marks_consumed (map : PointMap) (radius : Int) (level : Nat) (s : SearchState)
    (ref : PixelRef)
    (hc : (map.getPoint ref).filled = true ∧ s.ws.miscs ref ≠ allOnes) :
    (visit map radius level s ref).ws.miscs ref = allOnes := by
  unfold visit
  simp only []
  rw [if_pos hc]
  split_ifs with h2
  · split
    · simp [Workspace.setMisc]
    · rename_i mergePixel _
      split_ifs with h3
      · rw [miscs_setMisc]
        split
        · rfl
        · have hm := extractUnseen_marked (map.getPoint mergePixel).getNode
            (extractUnseen (map.getPoint ref).getNode s.tail s.ws).2
            ((extractUnseen (map.getPoint ref).getNode s.tail s.ws).1.setMisc ref allOnes)
          have href : ((extractUnseen (map.getPoint ref).getNode s.tail s.ws).1.setMisc ref
              allOnes).miscs ref = allOnes := by simp [Workspace.setMisc]
          have := hm.misc_eq (c := ref) (by simp only; rw [href]; exact allOnes_ne_zero)
          simp only at this
          rw [this, href]
      · simp [Workspace.setMisc]
  · simp [Workspace.setMisc]

theorem visit_merge_consumed_of_expands (map : PointMap) (radius : Int) (level : Nat)
    (s : SearchState) (ref b : PixelRef)
    (hm : (map.getPoint ref).getMergePixel = some b)
    (hc : (map.getPoint ref).filled = true ∧ s.ws.miscs ref ≠ allOnes)
    (he : Expands map radius level ref) :
    (visit map radius level s ref).ws.miscs b = allOnes := by
  unfold visit
  simp only []
  have he' : radius = -1 ∨ ((level : Int) < radius ∧
      ((map.getPoint ref).contextfilled = false ∨ map.iseven ref = true)) := he
  rw [if_pos hc, if_pos he']
  simp only [hm]
  split_ifs with h3
  · simp [Workspace.setMisc]
  · simpa using h3

/-- A consumed cell is not counted by any later visit. -/
theorem foldl_visit_no_recount (map : PointMap) (radius : Int) (level : Nat) (b : PixelRef) :
    ∀ (cur : List PixelRef) (t : SearchState), t.ws.miscs b = allOnes →
      (cur.foldl (visit map radius level) t).ws.miscs b = allOnes ∧
      ∀ m, (b, m) ∈ (cur.foldl (visit map radius level) t).counted → (b, m) ∈ t.counted := by
  intro cur
  induction cur with
  | nil => intro t h; exact ⟨h, fun _ hm => hm⟩
  | cons ref rest ih =>
    intro t h
    simp only [List.foldl_cons]
    obtain ⟨v1, _⟩ := visit_consumed map radius level t ref b h
    obtain ⟨i1, i2⟩ := ih _ v1
    refine ⟨i1, ?_⟩
    intro m hm
    rcases visit_counted_subset map radius level t ref (b, m) (i2 m hm) with h1 | ⟨h1, _, hne⟩
    · exact h1
    · have hbr : b = ref := (Prod.mk.inj h1).1
      rw [← hbr] at hne
      exact absurd h hne

theorem levelState_no_recount (map : PointMap) (radius : Int) (curs : PixelRef)
    (ws : Workspace) (b : PixelRef) (j : Nat)
    (h : (levelState map radius curs ws j).ws.miscs b = allOnes) :
    ∀ k, j ≤ k → (levelState map radius curs ws k).ws.miscs b = allOnes ∧
      ∀ m, (b, m) ∈ (levelState map radius curs ws k).counted →
        (b, m) ∈ (levelState map radius curs ws j).counted := by
  intro k hk
  induction k with
  | zero =>
    have : j = 0 := by omega
    subst this
    exact ⟨h, fun _ hm => hm⟩
  | succ k ih =>
    by_cases hj : j = k + 1
    · subst hj; exact ⟨h, fun _ hm => hm⟩
    · obtain ⟨i1, i2⟩ := ih (by omega)
      have := foldl_visit_no_recount map radius k b (levelState map radius curs ws k).tail
        { levelState map radius curs ws k with
          tail := [], distribution := 0 :: (levelState map radius curs ws k).distribution } i1
      rw [levelState]
      exact ⟨this.1, fun m hm => i2 m (this.2 m hm)⟩

/-- The counted cells are distinct and consumed. -/
theorem visit_counted_distinct (map : PointMap) (radius : Int) (level : Nat) (s : SearchState)
    (ref : PixelRef)
    (h : (s.counted.map Prod.fst).Nodup ∧ ∀ p ∈ s.counted, s.ws.miscs p.1 = allOnes) :
    ((visit map radius level s ref).counted.map Prod.fst).Nodup ∧
      ∀ p ∈ (visit map radius level s ref).counted,
        (visit map radius level s ref).ws.miscs p.1 = allOnes := by
  by_cases hc : (map.getPoint ref).filled = true ∧ s.ws.miscs ref ≠ allOnes
  · rw [(visit_counters map radius level s ref hc).2.2.2]
    refine ⟨?_, ?_⟩
    · rw [List.map_cons, List.nodup_cons]
      refine ⟨?_, h.1⟩
      intro hmem
      obtain ⟨p, hp, hpe⟩ := List.mem_map.1 hmem
      have := h.2 p hp
      rw [hpe] at this
      exact hc.2 this
    · intro p hp
      rcases List.mem_cons.1 hp with rfl | hp
      · exact visit_marks_consumed map radius level s ref hc
      · exact (visit_consumed map radius level s ref p.1 (h.2 p hp)).1
  · rw [visit_skip map radius level s ref hc]; exact h

theorem episode_counted_distinct (map : PointMap) (radius : Int) (curs : PixelRef)
    (ws : Workspace) (fuel : Nat) (s : SearchState)
    (hs : episode map radius curs ws fuel = some s) :
    (s.counted.map Prod.fst).Nodup ∧ ∀ p ∈ s.counted, s.ws.miscs p.1 = allOnes := by
  obtain ⟨_, _, _, hP⟩ := search_invariant map radius
    (fun _ t => (t.counted.map Prod.fst).Nodup ∧ ∀ p ∈ t.counted, t.ws.miscs p.1 = allOnes)
    (fun lv t ht _ =>
      foldl_visit_invariant map radius lv
        (fun u => (u.counted.map Prod.fst).Nodup ∧ ∀ p ∈ u.counted, u.ws.miscs p.1 = allOnes)
        (fun u ref hu => visit_counted_distinct map radius lv u ref hu) t.tail _ ht)
    fuel 0 (initialState map curs ws) s
    ⟨by simp [initialState], by simp [initialState]⟩ hs
  exact hP

/-- The counted cells are filled cells of the grid. -/
theorem foldl_visit_counted_filled (map : PointMap) (radius : Int) (level : Nat) :
    ∀ (cur : List PixelRef) (t : SearchState), (∀ c ∈ cur, map.inGrid c) →
      (∀ p ∈ t.counted, (map.getPoint p.1).filled = true ∧ map.inGrid p.1) →
      ∀ p ∈ (cur.foldl (visit map radius level) t).counted,
        (map.getPoint p.1).filled = true ∧ map.inGrid p.1 := by
  intro cur
  induction cur with
  | nil => intro t _ h; exact h
  | cons ref rest ih =>
    intro t hcur h
    simp only [List.foldl_cons]
    apply ih _ (fun c hc => hcur c (List.mem_cons_of_mem _ hc))
    intro p hp
    rcases visit_counted_subset map radius level t ref p hp with h1 | ⟨h1, hf, _⟩
    · exact h p h1
    · rw [h1]; exact ⟨hf, hcur ref (List.mem_cons_self _ _)⟩

theorem episode_counted_filled (map : PointMap) (hwf : WellFormed map) (radius : Int)
    (curs : PixelRef) (ws : Workspace) (fuel : Nat) (hgrid : map.inGrid curs)
    (s : SearchState) (hs : episode map radius curs ws fuel = some s) :
    ∀ p ∈ s.counted, (map.getPoint p.1).filled = true ∧ map.inGrid p.1 := by
  obtain ⟨_, _, _, hP⟩ := search_invariant map radius
    (fun _ t => (∀ c ∈ t.tail, map.inGrid c) ∧
      ∀ p ∈ t.counted, (map.getPoint p.1).filled = true ∧ map.inGrid p.1)
    (fun lv t ht _ =>
      ⟨(levelStep_measure map hwf radius lv t ht.1).2,
        foldl_visit_counted_filled map radius lv t.tail _ ht.1 ht.2⟩)
    fuel 0 (initialState map curs ws) s
    ⟨by
      intro c hc
      simp only [initialState, List.mem_singleton] at hc
      rw [hc]; exact hgrid, by simp [initialState]⟩ hs
  exact hP.2

theorem episode_nodes_le_filled (map : PointMap) (hwf : WellFormed map) (radius : Int)
    (curs : PixelRef) (ws : Workspace) (fuel : Nat) (hgrid : map.inGrid curs)
    (s : SearchState) (hs : episode map radius curs ws fuel = some s) :
    s.total_nodes ≤ ((gridCells map).filter (fun c => (map.getPoint c).filled)).length := by
  obtain ⟨c1, _, _, _⟩ := episode_counters map radius curs ws fuel s hs
  obtain ⟨hnd, _⟩ := episode_counted_distinct map radius curs ws fuel s hs
  have hf := episode_counted_filled map hwf radius curs ws fuel hgrid s hs
  rw [c1, ← List.length_map s.counted Prod.fst]
  apply List.Subperm.length_le
  apply hnd.subperm
  intro c hc
  obtain ⟨p, hp, rfl⟩ := List.mem_map.1 hc
  rw [List.mem_filter]
  exact ⟨(mem_gridCells map p.1).2 (hf p hp).2, (hf p hp).1⟩

/-! ### The shapes of the visited markers -/

theorem binBit_eq_pow {i : Nat} (hi : i < 32) : binBit i = 2 ^ i := by
  unfold binBit
  interval_cases i <;> decide

theorem markerShape_marked {cs : List PixelRef} {st st' : Workspace × List PixelRef}
    (hm : Marked cs st st') (c : PixelRef) (h : MarkerShape (st.1.miscs c)) :
    MarkerShape (st'.1.miscs c) := by
  obtain ⟨new, _, _, e3, e4⟩ := hm
  by_cases hc : c ∈ new
  · obtain ⟨_, _, i, hi, hb⟩ := e3 c hc
    exact Or.inr (Or.inl ⟨i, hi, hb⟩)
  · rw [e4 c hc]; exact h

theorem markerShape_setMisc (ws : Workspace) (p c : PixelRef)
    (h : MarkerShape (ws.miscs c)) : MarkerShape ((ws.setMisc p allOnes).miscs c) := by
  rw [miscs_setMisc]
  split
  · exact Or.inr (Or.inr rfl)
  · exact h

theorem markerShape_scanRun (i : Nat) (hi : i < 32) (dir : Dir) (e : Int) (c : PixelRef) :
    ∀ (n : Nat) (pix : PixelRef) (st : Workspace × List PixelRef),
      MarkerShape (st.1.miscs c) → MarkerShape ((scanRun i dir e n pix st).1.miscs c) := by
  intro n
  induction n with
  | zero => intro pix st h; exact h
  | succ n ih =>
    intro pix st h
    have h1 := markerShape_marked (marked_single i hi pix st) c h
    unfold scanRun
    by_cases hcond : pix.col dir ≤ e
    · rw [if_pos hcond]
      simp only []
      generalize (if st.1.miscs pix = 0 then
          (st.1.setMisc pix (st.1.miscs pix ||| binBit i), pix :: st.2) else st) = st1 at h1
      by_cases hd : dir.diagonal = false
      · rw [if_pos hd]
        by_cases hbr : e ≤ (st1.1.extents pix).col dir
        · rw [if_pos hbr]; exact h1
        · rw [if_neg hbr]; exact ih _ _ h1
      · rw [if_neg hd]; exact ih _ _ h1
    · rw [if_neg hcond]; exact h

theorem markerShape_visit (map : PointMap) (radius : Int) (level : Nat) (t : SearchState)
    (ref c : PixelRef) (h : MarkerShape (t.ws.miscs c)) :
    MarkerShape ((visit map radius level t ref).ws.miscs c) := by
  obtain ⟨new, _, _, _, e4⟩ := visit_effect map radius level t ref
  rcases e4 c with h1 | h1 | ⟨_, i, hi, h1⟩
  · rw [h1]; exact h
  · exact Or.inr (Or.inr h1)
  · exact Or.inr (Or.inl ⟨i, hi, h1⟩)

theorem markersOk_reset (map : PointMap) (ws : Workspace) :
    MarkersOk map (resetWorkspace map ws) := by
  intro c hc
  left
  simp [resetWorkspace, hc]

theorem markersOk_of_reachable (map : PointMap) (ws : Workspace) (h : Reachable map ws) :
    MarkersOk map ws := by
  induction h with
  | reset ws => exact markersOk_reset map ws
  | extract ws node pixels _ _ ih =>
    intro c hc
    exact markerShape_marked (extractUnseen_marked node pixels ws) c (ih c hc)
  | consume ws p _ ih =>
    intro c hc
    exact markerShape_setMisc ws p c (ih c hc)

theorem markersOk_levelState (map : PointMap) (radius : Int) (curs : PixelRef)
    (ws : Workspace) : ∀ k, MarkersOk map (levelState map radius curs ws k).ws := by
  intro k
  induction k with
  | zero => exact markersOk_reset map ws
  | succ k ih =>
    rw [levelState]
    exact foldl_visit_invariant map radius k (fun t => MarkersOk map t.ws)
      (fun t ref ht c hc => markerShape_visit map radius k t ref c (ht c hc))
      (levelState map radius curs ws k).tail _ ih

/-! ### Each cell is pushed once -/

theorem entropyLoop_append (fns : MathFns) (mean_depth : Rat) (total_nodes : Nat) :
    ∀ (l1 l2 : List Nat) (k : Nat) (acc : EntropyAcc),
      entropyLoop fns mean_depth total_nodes k (l1 ++ l2) acc
        = entropyLoop fns mean_depth total_nodes (k + l1.length) l2
            (entropyLoop fns mean_depth total_nodes k l1 acc) := by
  intro l1
  induction l1 with
  | nil => intro l2 k acc; simp [entropyLoop]
  | cons d rest ih =>
    intro l2 k acc
    rw [List.cons_append, entropyLoop, entropyLoop, ih]
    simp only [List.length_cons]
    rw [show k + 1 + rest.length = k + (rest.length + 1) by omega]

theorem take_positive_of_noGap (dd : List Nat) (k : Nat) (hk : k < dd.length)
    (hgap : ∀ j, j + 1 < dd.length → 0 < dd.getD j 0) (hpos : 0 < dd.getD k 0) :
    ∀ d ∈ dd.take (k + 1), 0 < d := by
  intro d hd
  rw [List.mem_take_iff_getElem] at hd
  obtain ⟨j, hj, rfl⟩ := hd
  have hjl : j < dd.length := by
    have := Nat.min_le_right (k + 1) dd.length
    omega
  have hjk : j < k + 1 := by
    have := Nat.min_le_left (k + 1) dd.length
    omega
  rw [← List.getD_eq_getElem dd 0 hjl]
  by_cases hjk' : j = k
  · rw [hjk']; exact hpos
  · exact hgap j (by omega)

/-! ### Two workspaces that agree on the grid -/

theorem agreeOn_setMisc (map : PointMap) (ws1 ws2 : Workspace) (p : PixelRef) (v : Nat)
    (h : AgreeOn map ws1 ws2) : AgreeOn map (ws1.setMisc p v) (ws2.setMisc p v) := by
  intro c hc
  obtain ⟨h1, h2⟩ := h c hc
  refine ⟨?_, h2⟩
  rw [miscs_setMisc, miscs_setMisc, h1]

theorem agreeOn_setExtent (map : PointMap) (ws1 ws2 : Workspace) (p v : PixelRef)
    (h : AgreeOn map ws1 ws2) : AgreeOn map (ws1.setExtent p v) (ws2.setExtent p v) := by
  intro c hc
  obtain ⟨h1, h2⟩ := h c hc
  refine ⟨h1, ?_⟩
  simp only [Workspace.setExtent]
  rw [h2]

theorem agreeOn_reset (map : PointMap) (ws1 ws2 : Workspace) :
    AgreeOn map (resetWorkspace map ws1) (resetWorkspace map ws2) := by
  intro c hc
  simp [resetWorkspace, hc]

theorem scanRun_agree (map : PointMap) (i : Nat) (dir : Dir) (e : Int) :
    ∀ (n : Nat) (pix : PixelRef) (st1 st2 : Workspace × List PixelRef),
      (∀ c ∈ runCellsAux dir n pix, map.inGrid c) → AgreeOn map st1.1 st2.1 → st1.2 = st2.2 →
      AgreeOn map (scanRun i dir e n pix st1).1 (scanRun i dir e n pix st2).1 ∧
        (scanRun i dir e n pix st1).2 = (scanRun i dir e n pix st2).2 := by
  intro n
  induction n with
  | zero => intro pix st1 st2 _ h1 h2; exact ⟨h1, h2⟩
  | succ n ih =>
    intro pix st1 st2 hg h1 h2
    have hpix : map.inGrid pix := hg pix (by simp [runCellsAux])
    have hrest : ∀ c ∈ runCellsAux dir n (pix.move dir), map.inGrid c := by
      intro c hc
      exact hg c (by simp [runCellsAux, hc])
    have key : AgreeOn map
        (if st1.1.miscs pix = 0 then
          (st1.1.setMisc pix (st1.1.miscs pix ||| binBit i), pix :: st1.2) else st1).1
        (if st2.1.miscs pix = 0 then
          (st2.1.setMisc pix (st2.1.miscs pix ||| binBit i), pix :: st2.2) else st2).1 ∧
        (if st1.1.miscs pix = 0 then
          (st1.1.setMisc pix (st1.1.miscs pix ||| binBit i), pix :: st1.2) else st1).2
        = (if st2.1.miscs pix = 0 then
          (st2.1.setMisc pix (st2.1.miscs pix ||| binBit i), pix :: st2.2) else st2).2 := by
      rw [← (h1 pix hpix).1]
      by_cases hz : st1.1.miscs pix = 0
      · rw [if_pos hz, if_pos hz]
        exact ⟨agreeOn_setMisc map _ _ _ _ h1, by rw [h2]⟩
      · rw [if_neg hz, if_neg hz]
        exact ⟨h1, h2⟩
    conv_lhs => unfold scanRun
    conv_rhs => unfold scanRun
    by_cases hcond : pix.col dir ≤ e
    · simp only [if_pos hcond]
      generalize (if st1.1.miscs pix = 0 then
          (st1.1.setMisc pix (st1.1.miscs pix ||| binBit i), pix :: st1.2) else st1) = a1 at key ⊢
      generalize (if st2.1.miscs pix = 0 then
          (st2.1.setMisc pix (st2.1.miscs pix ||| binBit i), pix :: st2.2) else st2) = a2 at key ⊢
      have hext : a1.1.extents pix = a2.1.extents pix := (key.1 pix hpix).2
      rw [← hext]
      by_cases hd : dir.diagonal = false
      · simp only [if_pos hd]
        by_cases hbr : e ≤ (a1.1.extents pix).col dir
        · simp only [if_pos hbr]
          exact key
        · simp only [if_neg hbr]
          exact ih _ _ _ hrest (agreeOn_setExtent map _ _ _ _ key.1) key.2
      · simp only [if_neg hd]
        exact ih _ _ _ hrest key.1 key.2
    · simp only [if_neg hcond]
      exact ⟨h1, h2⟩

theorem mem_bin_cells (b : Bin) (pv : PixelVec) (hpv : pv ∈ b.m_pixel_vecs) (c : PixelRef)
    (hc : c ∈ pv.cells b.m_dir) : c ∈ b.cells := by
  unfold Bin.cells
  generalize b.m_pixel_vecs = runs at hpv
  induction runs with
  | nil => cases hpv
  | cons r rest ih =>
    simp only [List.foldr_cons, List.mem_append]
    rcases List.mem_cons.1 hpv with rfl | h
    · exact Or.inl hc
    · exact Or.inr (ih h)

theorem mem_cellsUpTo (node : Node) (c : PixelRef) :
    ∀ n, c ∈ node.cellsUpTo n ↔ ∃ i, i < n ∧ c ∈ (node.bin i).cells := by
  intro n
  induction n with
  | zero => simp [Node.cellsUpTo]
  | succ n ih =>
    simp only [Node.cellsUpTo, List.mem_append, ih]
    constructor
    · rintro (⟨i, hi, hc⟩ | hc)
      · exact ⟨i, by omega, hc⟩
      · exact ⟨n, by omega, hc⟩
    · rintro ⟨i, hi, hc⟩
      by_cases h : i = n
      · subst h; exact Or.inr hc
      · exact Or.inl ⟨i, by omega, hc⟩

theorem foldl_extractRun_agree (map : PointMap) (i : Nat) (dir : Dir) :
    ∀ (runs : List PixelVec) (st1 st2 : Workspace × List PixelRef),
      (∀ pv ∈ runs, ∀ c ∈ pv.cells dir, map.inGrid c) → AgreeOn map st1.1 st2.1 →
      st1.2 = st2.2 →
      AgreeOn map (runs.foldl (extractRun i dir) st1).1 (runs.foldl (extractRun i dir) st2).1 ∧
        (runs.foldl (extractRun i dir) st1).2 = (runs.foldl (extractRun i dir) st2).2 := by
  intro runs
  induction runs with
  | nil => intro st1 st2 _ h1 h2; exact ⟨h1, h2⟩
  | cons pv rest ih =>
    intro st1 st2 hg h1 h2
    simp only [List.foldl_cons]
    obtain ⟨a, b⟩ := scanRun_agree map i dir (pv.end_.col dir)
      (Int.toNat (pv.end_.col dir - pv.start.col dir + 1)) pv.start st1 st2
      (hg pv (List.mem_cons_self _ _)) h1 h2
    exact ih _ _ (fun q hq => hg q (List.mem_cons_of_mem _ hq)) a b

theorem foldl_extractBin_agree (map : PointMap) (node : Node)
    (hg : ∀ c ∈ node.cells, map.inGrid c) :
    ∀ (n : Nat), n ≤ 32 → ∀ (st1 st2 : Workspace × List PixelRef),
      AgreeOn map st1.1 st2.1 → st1.2 = st2.2 →
      AgreeOn map ((List.range n).foldl (extractBin node) st1).1
          ((List.range n).foldl (extractBin node) st2).1 ∧
        ((List.range n).foldl (extractBin node) st1).2
          = ((List.range n).foldl (extractBin node) st2).2 := by
  intro n
  induction n with
  | zero => intro _ st1 st2 h1 h2; exact ⟨h1, h2⟩
  | succ n ih =>
    intro hn st1 st2 h1 h2
    rw [List.range_succ, List.foldl_append, List.foldl_append]
    simp only [List.foldl_cons, List.foldl_nil]
    obtain ⟨a, b⟩ := ih (by omega) st1 st2 h1 h2
    exact foldl_extractRun_agree map n (node.bin n).m_dir (node.bin n).m_pixel_vecs _ _
      (fun pv hpv c hc => hg c ((mem_cellsUpTo node c 32).2
        ⟨n, by omega, mem_bin_cells (node.bin n) pv hpv c hc⟩)) a b

theorem extractUnseen_agree (map : PointMap) (node : Node)
    (hg : ∀ c ∈ node.cells, map.inGrid c) (pixels : List PixelRef) (ws1 ws2 : Workspace)
    (h : AgreeOn map ws1 ws2) :
    AgreeOn map (extractUnseen node pixels ws1).1 (extractUnseen node pixels ws2).1 ∧
      (extractUnseen node pixels ws1).2 = (extractUnseen node pixels ws2).2 :=
  foldl_extractBin_agree map node hg 32 (le_refl _) (ws1, pixels) (ws2, pixels) h rfl

theorem visit_agree (map : PointMap) (hwf : WellFormed map) (radius : Int) (level : Nat)
    (s1 s2 : SearchState) (ref : PixelRef) (href : map.inGrid ref)
    (h : StateAgree map s1 s2) :
    StateAgree map (visit map radius level s1 ref) (visit map radius level s2 ref) := by
  obtain ⟨hws, ht, hd, hn, hdist, hcnt⟩ := h
  have hm : s1.ws.miscs ref = s2.ws.miscs ref := (hws ref href).1
  unfold visit
  simp only []
  rw [← hm]
  by_cases hc : (map.getPoint ref).filled = true ∧ s1.ws.miscs ref ≠ allOnes
  · rw [if_pos hc, if_pos hc]
    by_cases he : radius = -1 ∨ ((level : Int) < radius ∧
        ((map.getPoint ref).contextfilled = false ∨ map.iseven ref = true))
    · rw [if_pos he, if_pos he]
      obtain ⟨a, b⟩ := extractUnseen_agree map (map.getPoint ref).getNode (hwf ref href).1
        s1.tail s1.ws s2.ws hws
      rw [← ht]
      have a2 := agreeOn_setMisc map _ _ ref allOnes a
      cases hmp : (map.getPoint ref).getMergePixel with
      | none =>
        exact ⟨a2, b, by simp [hd], by simp [hn], by simp [hdist], by simp [hcnt]⟩
      | some mergePixel =>
        have hmg := (hwf ref href).2 mergePixel hmp
        simp only []
        rw [← (a2 mergePixel hmg).1]
        by_cases h3 : ((extractUnseen (map.getPoint ref).getNode s1.tail s1.ws).1.setMisc ref
            allOnes).miscs mergePixel ≠ allOnes
        · rw [if_pos h3, if_pos h3]
          rw [← b]
          obtain ⟨c, d⟩ := extractUnseen_agree map (map.getPoint mergePixel).getNode
            (hwf mergePixel hmg).1 (extractUnseen (map.getPoint ref).getNode s1.tail s1.ws).2
            _ _ a2
          exact ⟨agreeOn_setMisc map _ _ mergePixel allOnes c, d, by simp [hd], by simp [hn],
            by simp [hdist], by simp [hcnt]⟩
        · rw [if_neg h3, if_neg h3]
          exact ⟨a2, b, by simp [hd], by simp [hn], by simp [hdist], by simp [hcnt]⟩
    · rw [if_neg he, if_neg he]
      exact ⟨agreeOn_setMisc map _ _ ref allOnes hws, ht, by simp [hd], by simp [hn],
        by simp [hdist], by simp [hcnt]⟩
  · rw [if_neg hc, if_neg hc]
    exact ⟨hws, ht, hd, hn, hdist, hcnt⟩

theorem foldl_visit_agree (map : PointMap) (hwf : WellFormed map) (radius : Int)
    (level : Nat) :
    ∀ (cur : List PixelRef) (s1 s2 : SearchState), (∀ c ∈ cur, map.inGrid c) →
      StateAgree map s1 s2 →
      StateAgree map (cur.foldl (visit map radius level) s1)
        (cur.foldl (visit map radius level) s2) := by
  intro cur
  induction cur with
  | nil => intro s1 s2 _ h; exact h
  | cons ref rest ih =>
    intro s1 s2 hg h
    simp only [List.foldl_cons]
    exact ih _ _ (fun c hc => hg c (List.mem_cons_of_mem _ hc))
      (visit_agree map hwf radius level s1 s2 ref (hg ref (List.mem_cons_self _ _)) h)

theorem levelStep_agree (map : PointMap) (hwf : WellFormed map) (radius : Int) (level : Nat)
    (s1 s2 : SearchState) (hg : ∀ c ∈ s1.tail, map.inGrid c) (h : StateAgree map s1 s2) :
    StateAgree map (levelStep map radius level s1) (levelStep map radius level s2) := by
  unfold levelStep
  obtain ⟨hws, ht, hd, hn, hdist, hcnt⟩ := h
  rw [← ht]
  exact foldl_visit_agree map hwf radius level s1.tail _ _ hg
    ⟨hws, rfl, hd, hn, by simp [hdist], hcnt⟩

theorem search_agree (map : PointMap) (hwf : WellFormed map) (radius : Int) :
    ∀ (fuel level : Nat) (s1 s2 : SearchState), StateAgree map s1 s2 →
      (∀ c ∈ s1.tail, map.inGrid c) → ∀ r1, search map radius fuel level s1 = some r1 →
      ∃ r2, search map radius fuel level s2 = some r2 ∧ StateAgree map r1 r2 := by
  intro fuel
  induction fuel with
  | zero => intro level s1 s2 _ _ r1 h; simp [search] at h
  | succ fuel ih =>
    intro level s1 s2 h hg r1 hr
    have ht : s1.tail = s2.tail := h.2.1
    unfold search at hr ⊢
    rw [← ht]
    by_cases he : s1.tail.length = 0
    · rw [if_pos he] at hr ⊢
      cases hr
      exact ⟨s2, rfl, h⟩
    · rw [if_neg he] at hr ⊢
      exact ih (level + 1) _ _ (levelStep_agree map hwf radius level s1 s2 hg h)
        (levelStep_measure map hwf radius level s1 hg).2 r1 hr

theorem episode_agree (map : PointMap) (hwf : WellFormed map) (radius : Int)
    (curs : PixelRef) (hgrid : map.inGrid curs) (ws1 ws2 : Workspace) (fuel : Nat)
    (s1 : SearchState) (h : episode map radius curs ws1 fuel = some s1) :
    ∃ s2, episode map radius curs ws2 fuel = some s2 ∧ StateAgree map s1 s2 := by
  unfold episode at h ⊢
  refine search_agree map hwf radius fuel 0 (initialState map curs ws1)
    (initialState map curs ws2) ⟨agreeOn_reset map ws1 ws2, rfl, rfl, rfl, rfl, rfl⟩ ?_ s1 h
  intro c hc
  simp only [initialState, List.mem_singleton] at hc
  rw [hc]; exact hgrid

/-! ### The order of the column names -/

theorem lex_of_firstDiffLt :
    ∀ (a b : List Char), firstDiffLt a b = true →
      ∀ (s t : List Char), List.Lex (fun x y => x < y) (a ++ s) (b ++ t) := by
  intro a
  induction a with
  | nil => intro b h; simp [firstDiffLt] at h
  | cons x xs ih =>
    intro b h s t
    cases b with
    | nil => simp [firstDiffLt] at h
    | cons y ys =>
      simp only [firstDiffLt] at h
      by_cases hxy : x = y
      · rw [if_pos hxy] at h
        subst hxy
        exact List.Lex.cons (ih ys h s t)
      · rw [if_neg hxy] at h
        exact List.Lex.rel (of_decide_eq_true h)

theorem string_append_lt (a b : String) (h : firstDiffLt a.data b.data = true)
    (s t : String) : a ++ s < b ++ t := by
  rw [String.lt_iff_toList_lt]
  exact lex_of_firstDiffLt a.data b.data h s.data t.data

theorem registeredColumns_pairwise (radius : Int) (simple_version : Bool) :
    (registeredColumns radius simple_version).Pairwise (fun a b => a < b) := by
  cases simple_version
  · simp only [registeredColumns, if_true, List.singleton_append, List.cons_append,
      List.nil_append, List.pairwise_cons, List.mem_cons, List.mem_singleton, forall_eq_or_imp,
      forall_eq, List.not_mem_nil, false_imp_iff, implies_true, List.Pairwise.nil, and_true]
    refine ⟨⟨?_, ?_, ?_, ?_, ?_, ?_⟩, ⟨?_, ?_, ?_, ?_, ?_⟩, ⟨?_, ?_, ?_, ?_⟩, ⟨?_, ?_, ?_⟩,
      ⟨?_, ?_⟩, ?_⟩ <;> exact string_append_lt _ _ (by decide) _ _
  · simp [registeredColumns]

/-! ### The scan of the bins in another order -/

theorem Scanned.same_cells {map : PointMap} {cs cs' : List PixelRef}
    {st st' : Workspace × List PixelRef} (h : Scanned map cs st st')
    (hmem : ∀ c, c ∈ cs ↔ c ∈ cs') : Scanned map cs' st st' := by
  refine ⟨h.1.mono_cells (fun c hc => (hmem c).1 hc), ?_⟩
  intro hinv hgrid
  obtain ⟨a, b⟩ := h.2 hinv (fun c hc => hgrid c ((hmem c).1 hc))
  exact ⟨a, fun c hc => b c ((hmem c).2 hc)⟩

theorem foldl_extractBin_scanned_order (map : PointMap) (node : Node) :
    ∀ (order : List Nat), (∀ i ∈ order, i < 32) → ∀ (st : Workspace × List PixelRef),
      Scanned map (order.foldr (fun i acc => (node.bin i).cells ++ acc) []) st
        (order.foldl (extractBin node) st) := by
  intro order
  induction order with
  | nil => intro _ st; exact Scanned.nil map st
  | cons i rest ih =>
    intro h st
    simp only [List.foldr_cons, List.foldl_cons]
    exact (extractBin_scanned map node i (h i (List.mem_cons_self _ _)) st).concat
      (ih (fun j hj => h j (List.mem_cons_of_mem _ hj)) _)

theorem mem_foldr_bin_cells (node : Node) (c : PixelRef) :
    ∀ (order : List Nat),
      c ∈ order.foldr (fun i acc => (node.bin i).cells ++ acc) [] ↔
        ∃ i, i ∈ order ∧ c ∈ (node.bin i).cells := by
  intro order
  induction order with
  | nil => simp
  | cons i rest ih =>
    simp only [List.foldr_cons, List.mem_append, ih, List.mem_cons]
    constructor
    · rintro (h | ⟨j, hj, hc⟩)
      · exact ⟨i, Or.inl rfl, h⟩
      · exact ⟨j, Or.inr hj, hc⟩
    · rintro ⟨j, hj | hj, hc⟩
      · subst hj; exact Or.inl hc
      · exact Or.inr ⟨j, hj, hc⟩

theorem extractUnseenIn_scanned (map : PointMap) (node : Node) (pixels : List PixelRef)
    (ws : Workspace) (order : List Nat) (hord : order.Perm (List.range 32)) :
    Scanned map node.cells (ws, pixels) (extractUnseenIn order node pixels ws) := by
  have hmem : ∀ i, i ∈ order ↔ i < 32 := fun i => by rw [hord.mem_iff, List.mem_range]
  refine (foldl_extractBin_scanned_order map node order (fun i hi => (hmem i).1 hi)
    (ws, pixels)).same_cells ?_
  intro c
  rw [mem_foldr_bin_cells]
  unfold Node.cells
  rw [mem_cellsUpTo]
  constructor
  · rintro ⟨i, hi, hc⟩; exact ⟨i, (hmem i).1 hi, hc⟩
  · rintro ⟨i, hi, hc⟩; exact ⟨i, (hmem i).2 hi, hc⟩

theorem extractUnseenIn_exact (map : PointMap) (node : Node) (pixels : List PixelRef)
    (ws : Workspace) (order : List Nat) (hord : order.Perm (List.range 32))
    (hinv : ExtentInv map ws) (hgrid : ∀ c ∈ node.cells, map.inGrid c) :
    ExtentInv map (extractUnseenIn order node pixels ws).1 ∧
    ∃ new : List PixelRef, (extractUnseenIn order node pixels ws).2 = new ++ pixels ∧
      new.Nodup ∧
      (∀ c, c ∈ new ↔ (c ∈ node.cells ∧ ws.miscs c = 0)) ∧
      (∀ c ∈ new, ∃ i, i < 32 ∧ (extractUnseenIn order node pixels ws).1.miscs c = binBit i) ∧
      (∀ c, c ∉ new → (extractUnseenIn order node pixels ws).1.miscs c = ws.miscs c) := by
  obtain ⟨hm, hc⟩ := extractUnseenIn_scanned map node pixels ws order hord
  obtain ⟨hext, hvis⟩ := hc hinv hgrid
  refine ⟨hext, ?_⟩
  obtain ⟨new, e1, e2, e3, e4⟩ := hm
  refine ⟨new, e1, e2, ?_, fun c hc => (e3 c hc).2.2, e4⟩
  intro c
  constructor
  · intro hc; exact ⟨(e3 c hc).1, (e3 c hc).2.1⟩
  · rintro ⟨hc, h0⟩
    by_contra hnot
    exact hvis c hc (by rw [e4 c hnot]; exact h0)

/-! ### One visit, told without reference to an order -/

theorem visitIn_effect (order : List Nat) (hord : order.Perm (List.range 32))
    (map : PointMap) (hwf : WellFormed map) (radius : Int) (level : Nat) (s : SearchState)
    (ref : PixelRef) (href : map.inGrid ref)
    (hnm : (map.getPoint ref).getMergePixel = none) (hgood : GoodState map s) :
    VisitEffect map radius level ref s (visitIn order map radius level s ref) ∧
      GoodState map (visitIn order map radius level s ref) := by
  obtain ⟨hext, htail⟩ := hgood
  unfold visitIn
  simp only []
  by_cases hc : (map.getPoint ref).filled = true ∧ s.ws.miscs ref ≠ allOnes
  · have hcnt : Counts map s ref := hc
    rw [if_pos hc]
    by_cases he : radius = -1 ∨ ((level : Int) < radius ∧
        ((map.getPoint ref).contextfilled = false ∨ map.iseven ref = true))
    · have hexp : Expands map radius level ref := he
      rw [if_pos he, hnm]
      simp only []
      obtain ⟨x1, new, e1, e2, e3, e4, e5⟩ := extractUnseenIn_exact map
        (map.getPoint ref).getNode s.tail s.ws order hord hext (hwf ref href).1
      refine ⟨⟨new, e1, e2, ?_, ?_, ?_, ?_, ?_⟩, ?_, ?_⟩
      · intro c
        rw [e3 c]
        exact ⟨fun h => ⟨hcnt, hexp, h⟩, fun h => h.2.2⟩
      · intro c
        show ((extractUnseenIn order (map.getPoint ref).getNode s.tail s.ws).1.setMisc ref
          allOnes).miscs c = 0 ↔ _
        rw [miscs_setMisc]
        by_cases hcr : c = ref
        · rw [if_pos hcr]
          constructor
          · intro h; exact absurd h allOnes_ne_zero
          · intro h; exact absurd ⟨hcnt, hcr⟩ h.2.2
        · rw [if_neg hcr]
          by_cases hn : c ∈ new
          · obtain ⟨i, hi, hb⟩ := e4 c hn
            rw [hb]
            constructor
            · intro h; exact absurd h (binBit_ne_zero hi)
            · intro h; exact absurd hn h.2.1
          · rw [e5 c hn]
            exact ⟨fun h => ⟨h, hn, fun h2 => hcr h2.2⟩, fun h => h.1⟩
      · intro c
        show ((extractUnseenIn order (map.getPoint ref).getNode s.tail s.ws).1.setMisc ref
          allOnes).miscs c = allOnes ↔ _
        rw [miscs_setMisc]
        by_cases hcr : c = ref
        · rw [if_pos hcr]
          exact ⟨fun _ => Or.inr ⟨hcnt, hcr⟩, fun _ => rfl⟩
        · rw [if_neg hcr]
          by_cases hn : c ∈ new
          · obtain ⟨i, hi, hb⟩ := e4 c hn
            rw [hb]
            constructor
            · intro h; exact absurd h (binBit_ne_allOnes hi)
            · rintro (h | h)
              · have := ((e3 c).1 hn).2
                rw [this] at h
                exact absurd h.symm allOnes_ne_zero
              · exact absurd h.2 hcr
          · rw [e5 c hn]
            exact ⟨fun h => Or.inl h, fun h => h.elim id (fun h2 => absurd h2.2 hcr)⟩
      · intro _; exact ⟨rfl, rfl, rfl, rfl⟩
      · intro h; exact absurd hcnt h
      · exact extentInv_setMisc map _ ref allOnes allOnes_ne_zero x1
      · intro c hcm
        show map.inGrid c
        have hcm' : c ∈ (extractUnseenIn order (map.getPoint ref).getNode s.tail s.ws).2 := hcm
        rw [e1] at hcm'
        rcases List.mem_append.1 hcm' with h | h
        · exact (hwf ref href).1 c ((e3 c).1 h).1
        · exact htail c h
    · have hexp : ¬ Expands map radius level ref := he
      rw [if_neg he]
      refine ⟨⟨[], rfl, List.nodup_nil, ?_, ?_, ?_, ?_, ?_⟩, ?_, htail⟩
      · intro c
        exact ⟨fun h => absurd h (List.not_mem_nil c), fun h => absurd h.2.1 hexp⟩
      · intro c
        show (s.ws.setMisc ref allOnes).miscs c = 0 ↔ _
        rw [miscs_setMisc]
        by_cases hcr : c = ref
        · rw [if_pos hcr]
          constructor
          · intro h; exact absurd h allOnes_ne_zero
          · intro h; exact absurd ⟨hcnt, hcr⟩ h.2.2
        · rw [if_neg hcr]
          exact ⟨fun h => ⟨h, List.not_mem_nil c, fun h2 => hcr h2.2⟩, fun h => h.1⟩
      · intro c
        show (s.ws.setMisc ref allOnes).miscs c = allOnes ↔ _
        rw [miscs_setMisc]
        by_cases hcr : c = ref
        · rw [if_pos hcr]
          exact ⟨fun _ => Or.inr ⟨hcnt, hcr⟩, fun _ => rfl⟩
        · rw [if_neg hcr]
          exact ⟨fun h => Or.inl h, fun h => h.elim id (fun h2 => absurd h2.2 hcr)⟩
      · intro _; exact ⟨rfl, rfl, rfl, rfl⟩
      · intro h; exact absurd hcnt h
      · exact extentInv_setMisc map _ ref allOnes allOnes_ne_zero hext
  · have hcnt : ¬ Counts map s ref := hc
    rw [if_neg hc]
    refine ⟨⟨[], rfl, List.nodup_nil, ?_, ?_, ?_, ?_, ?_⟩, hext, htail⟩
    · intro c
      exact ⟨fun h => absurd h (List.not_mem_nil c), fun h => absurd h.1 hcnt⟩
    · intro c
      exact ⟨fun h => ⟨h, List.not_mem_nil c, fun h2 => hcnt h2.1⟩, fun h => h.1⟩
    · intro c
      exact ⟨fun h => Or.inl h, fun h => h.elim id (fun h2 => absurd h2.1 hcnt)⟩
    · intro h; exact absurd h hcnt
    · intro _; exact ⟨rfl, rfl, rfl, rfl⟩

/-! ### States that differ in processing order only -/

theorem orderEquiv_same (s : SearchState) : OrderEquiv s s :=
  ⟨fun _ => Iff.rfl, fun _ => Iff.rfl, List.Perm.refl _, rfl, rfl, rfl, List.Perm.refl _⟩

theorem orderEquiv_chain {s t u : SearchState} (h1 : OrderEquiv s t) (h2 : OrderEquiv t u) :
    OrderEquiv s u := by
  obtain ⟨a1, a2, a3, a4, a5, a6, a7⟩ := h1
  obtain ⟨b1, b2, b3, b4, b5, b6, b7⟩ := h2
  exact ⟨fun c => (a1 c).trans (b1 c), fun c => (a2 c).trans (b2 c), a3.trans b3,
    a4.trans b4, a5.trans b5, a6.trans b6, a7.trans b7⟩

theorem counts_congr (map : PointMap) {s t : SearchState} (h : OrderEquiv s t)
    (ref : PixelRef) : Counts map s ref ↔ Counts map t ref := by
  have h2 := h.2.1 ref
  unfold Counts
  constructor
  · rintro ⟨a, b⟩; exact ⟨a, fun e => b (h2.2 e)⟩
  · rintro ⟨a, b⟩; exact ⟨a, fun e => b (h2.1 e)⟩

theorem visitEffect_nonzero {map : PointMap} {radius : Int} {level : Nat} {ref : PixelRef}
    {s s' : SearchState} (h : VisitEffect map radius level ref s s') (c : PixelRef)
    (hc : s.ws.miscs c ≠ 0) : s'.ws.miscs c ≠ 0 := by
  obtain ⟨new, _, _, _, e4, _⟩ := h
  intro h0
  exact hc ((e4 c).1 h0).1

theorem visitEffect_tail_marked {map : PointMap} {radius : Int} {level : Nat}
    {ref : PixelRef} {s s' : SearchState} (h : VisitEffect map radius level ref s s')
    (ht : ∀ c ∈ s.tail, s.ws.miscs c ≠ 0) : ∀ c ∈ s'.tail, s'.ws.miscs c ≠ 0 := by
  intro c hc
  have hmono := visitEffect_nonzero h
  obtain ⟨new, e1, _, _, e4, _⟩ := h
  rw [e1] at hc
  rcases List.mem_append.1 hc with hn | ho
  · intro h0
    exact ((e4 c).1 h0).2.1 hn
  · exact hmono c (ht c ho)

theorem visitEffect_congr (map : PointMap) (radius : Int) (level : Nat) (ref : PixelRef)
    (s t s' t' : SearchState) (h : OrderEquiv s t)
    (hs : VisitEffect map radius level ref s s') (ht : VisitEffect map radius level ref t t') :
    OrderEquiv s' t' := by
  have hcnt := counts_congr map h ref
  obtain ⟨a1, a2, a3, a4, a5, a6, a7⟩ := h
  obtain ⟨n1, p1, p2, p3, p4, p5, p6, p7⟩ := hs
  obtain ⟨n2, q1, q2, q3, q4, q5, q6, q7⟩ := ht
  have hmem : ∀ c, c ∈ n1 ↔ c ∈ n2 := by
    intro c
    rw [p3 c, q3 c, hcnt, a1 c]
  refine ⟨?_, ?_, ?_, ?_, ?_, ?_, ?_⟩
  · intro c
    rw [p4 c, q4 c, hmem c, hcnt, a1 c]
  · intro c
    rw [p5 c, q5 c, hcnt, a2 c]
  · rw [p1, q1]
    exact ((List.perm_ext_iff_of_nodup p2 q2).2 hmem).append a3
  · by_cases hc : Counts map s ref
    · rw [(p6 hc).1, (q6 (hcnt.1 hc)).1, a4]
    · rw [(p7 hc).1, (q7 (fun h => hc (hcnt.2 h))).1, a4]
  · by_cases hc : Counts map s ref
    · rw [(p6 hc).2.1, (q6 (hcnt.1 hc)).2.1, a5]
    · rw [(p7 hc).2.1, (q7 (fun h => hc (hcnt.2 h))).2.1, a5]
  · by_cases hc : Counts map s ref
    · rw [(p6 hc).2.2.1, (q6 (hcnt.1 hc)).2.2.1, a6]
    · rw [(p7 hc).2.2.1, (q7 (fun h => hc (hcnt.2 h))).2.2.1, a6]
  · by_cases hc : Counts map s ref
    · rw [(p6 hc).2.2.2, (q6 (hcnt.1 hc)).2.2.2]
      exact a7.cons _
    · rw [(p7 hc).2.2.2, (q7 (fun h => hc (hcnt.2 h))).2.2.2]
      exact a7

theorem swap_prop (Z X Y U V in1 in2 in3 in4 z1 zt1 : Prop)
    (h1 : in1 ↔ (X ∧ Z)) (h3 : in3 ↔ (Y ∧ Z))
    (hz1 : z1 ↔ (Z ∧ ¬ in1 ∧ ¬ U)) (hzt1 : zt1 ↔ (Z ∧ ¬ in3 ∧ ¬ V))
    (h2 : in2 ↔ (Y ∧ z1)) (h4 : in4 ↔ (X ∧ zt1))
    (hU : Z → ¬ U) (hV : Z → ¬ V) :
    ((in2 ∨ in1) ↔ (in4 ∨ in3)) ∧
    ((z1 ∧ ¬ in2 ∧ ¬ V) ↔ (zt1 ∧ ¬ in4 ∧ ¬ U)) := by
  rw [h2, h4, hz1, hzt1, h1, h3]
  by_cases hZ : Z
  · have a := hU hZ
    have b := hV hZ
    by_cases hX : X <;> by_cases hY : Y <;> simp [hZ, a, b, hX, hY]
  · simp [hZ]

/-- Two visits of distinct discovered cells commute up to processing order. -/
theorem visitEffect_swap (map : PointMap) (radius : Int) (level : Nat) (u v : PixelRef)
    (huv : u ≠ v) (s s1 s2 t1 t2 : SearchState)
    (hu0 : s.ws.miscs u ≠ 0) (hv0 : s.ws.miscs v ≠ 0)
    (h1 : VisitEffect map radius level u s s1) (h2 : VisitEffect map radius level v s1 s2)
    (h3 : VisitEffect map radius level v s t1) (h4 : VisitEffect map radius level u t1 t2) :
    OrderEquiv s2 t2 := by
  obtain ⟨n1, p1, p2, p3, p4, p5, p6, p7⟩ := h1
  obtain ⟨n2, q1, q2, q3, q4, q5, q6, q7⟩ := h2
  obtain ⟨n3, r1, r2, r3, r4, r5, r6, r7⟩ := h3
  obtain ⟨n4, w1, w2, w3, w4, w5, w6, w7⟩ := h4
  have hcv : Counts map s1 v ↔ Counts map s v := by
    have h5 := p5 v
    unfold Counts
    constructor
    · rintro ⟨a, b⟩; exact ⟨a, fun h => b (h5.2 (Or.inl h))⟩
    · rintro ⟨a, b⟩
      exact ⟨a, fun h => (h5.1 h).elim b (fun h2 => huv h2.2.symm)⟩
  have hcu : Counts map t1 u ↔ Counts map s u := by
    have h5 := r5 u
    unfold Counts
    constructor
    · rintro ⟨a, b⟩; exact ⟨a, fun h => b (h5.2 (Or.inl h))⟩
    · rintro ⟨a, b⟩
      exact ⟨a, fun h => (h5.1 h).elim b (fun h2 => huv h2.2)⟩
  have hzu : ∀ c, s.ws.miscs c = 0 → c ≠ u := by
    intro c h0 hcu'; rw [hcu'] at h0; exact hu0 h0
  have hzv : ∀ c, s.ws.miscs c = 0 → c ≠ v := by
    intro c h0 hcv'; rw [hcv'] at h0; exact hv0 h0
  have hd21 : ∀ c, c ∈ n2 → c ∉ n1 := by
    intro c hc hn
    exact ((p4 c).1 ((q3 c).1 hc).2.2.2).2.1 hn
  have hd43 : ∀ c, c ∈ n4 → c ∉ n3 := by
    intro c hc hn
    exact ((r4 c).1 ((w3 c).1 hc).2.2.2).2.1 hn
  have key : ∀ c, ((c ∈ n2 ∨ c ∈ n1) ↔ (c ∈ n4 ∨ c ∈ n3)) ∧
      ((s1.ws.miscs c = 0 ∧ c ∉ n2 ∧ ¬ (Counts map s v ∧ c = v)) ↔
        (t1.ws.miscs c = 0 ∧ c ∉ n4 ∧ ¬ (Counts map s u ∧ c = u))) := by
    intro c
    refine swap_prop (s.ws.miscs c = 0)
      (Counts map s u ∧ Expands map radius level u ∧ c ∈ (map.getPoint u).getNode.cells)
      (Counts map s v ∧ Expands map radius level v ∧ c ∈ (map.getPoint v).getNode.cells)
      (Counts map s u ∧ c = u) (Counts map s v ∧ c = v) _ _ _ _ _ _ ?_ ?_ (p4 c) (r4 c) ?_ ?_
      (fun h0 h => hzu c h0 h.2) (fun h0 h => hzv c h0 h.2)
    · rw [p3 c]; simp only [and_assoc]
    · rw [r3 c]; simp only [and_assoc]
    · rw [q3 c, hcv]; simp only [and_assoc]
    · rw [w3 c, hcu]; simp only [and_assoc]
  refine ⟨?_, ?_, ?_, ?_, ?_, ?_, ?_⟩
  · intro c
    rw [q4 c, w4 c, hcv, hcu]
    exact (key c).2
  · intro c
    rw [q5 c, w5 c, hcv, hcu, p5 c, r5 c]
    exact or_right_comm
  · rw [q1, p1, w1, r1, ← List.append_assoc, ← List.append_assoc]
    refine List.Perm.append_right _ ?_
    refine (List.perm_ext_iff_of_nodup ?_ ?_).2 ?_
    · rw [List.nodup_append]
      exact ⟨q2, p2, fun c h2 h1 => hd21 c h2 h1⟩
    · rw [List.nodup_append]
      exact ⟨w2, r2, fun c h2 h1 => hd43 c h2 h1⟩
    · intro c
      rw [List.mem_append, List.mem_append]
      exact (key c).1
  · by_cases cu : Counts map s u <;> by_cases cv : Counts map s v
    · rw [(q6 (hcv.2 cv)).1, (p6 cu).1, (w6 (hcu.2 cu)).1, (r6 cv).1]
    · rw [(q7 (fun h => cv (hcv.1 h))).1, (p6 cu).1, (w6 (hcu.2 cu)).1, (r7 cv).1]
    · rw [(q6 (hcv.2 cv)).1, (p7 cu).1, (w7 (fun h => cu (hcu.1 h))).1, (r6 cv).1]
    · rw [(q7 (fun h => cv (hcv.1 h))).1, (p7 cu).1, (w7 (fun h => cu (hcu.1 h))).1, (r7 cv).1]
  · by_cases cu : Counts map s u <;> by_cases cv : Counts map s v
    · rw [(q6 (hcv.2 cv)).2.1, (p6 cu).2.1, (w6 (hcu.2 cu)).2.1, (r6 cv).2.1]
    · rw [(q7 (fun h => cv (hcv.1 h))).2.1, (p6 cu).2.1, (w6 (hcu.2 cu)).2.1, (r7 cv).2.1]
    · rw [(q6 (hcv.2 cv)).2.1, (p7 cu).2.1, (w7 (fun h => cu (hcu.1 h))).2.1, (r6 cv).2.1]
    · rw [(q7 (fun h => cv (hcv.1 h))).2.1, (p7 cu).2.1, (w7 (fun h => cu (hcu.1 h))).2.1,
        (r7 cv).2.1]
  · by_cases cu : Counts map s u <;> by_cases cv : Counts map s v
    · rw [(q6 (hcv.2 cv)).2.2.1, (p6 cu).2.2.1, (w6 (hcu.2 cu)).2.2.1, (r6 cv).2.2.1]
    · rw [(q7 (fun h => cv (hcv.1 h))).2.2.1, (p6 cu).2.2.1, (w6 (hcu.2 cu)).2.2.1,
        (r7 cv).2.2.1]
    · rw [(q6 (hcv.2 cv)).2.2.1, (p7 cu).2.2.1, (w7 (fun h => cu (hcu.1 h))).2.2.1,
        (r6 cv).2.2.1]
    · rw [(q7 (fun h => cv (hcv.1 h))).2.2.1, (p7 cu).2.2.1, (w7 (fun h => cu (hcu.1 h))).2.2.1,
        (r7 cv).2.2.1]
  · by_cases cu : Counts map s u <;> by_cases cv : Counts map s v
    · rw [(q6 (hcv.2 cv)).2.2.2, (p6 cu).2.2.2, (w6 (hcu.2 cu)).2.2.2, (r6 cv).2.2.2]
      exact List.Perm.swap _ _ _
    · rw [(q7 (fun h => cv (hcv.1 h))).2.2.2, (p6 cu).2.2.2, (w6 (hcu.2 cu)).2.2.2,
        (r7 cv).2.2.2]
    · rw [(q6 (hcv.2 cv)).2.2.2, (p7 cu).2.2.2, (w7 (fun h => cu (hcu.1 h))).2.2.2,
        (r6 cv).2.2.2]
    · rw [(q7 (fun h => cv (hcv.1 h))).2.2.2, (p7 cu).2.2.2, (w7 (fun h => cu (hcu.1 h))).2.2.2,
        (r7 cv).2.2.2]

/-! ### A level processed in two orders -/

theorem foldl_visitIn_good (order : List Nat) (hord : order.Perm (List.range 32))
    (map : PointMap) (hwf : WellFormed map)
    (hnm : ∀ c, map.inGrid c → (map.getPoint c).getMergePixel = none)
    (radius : Int) (level : Nat) :
    ∀ (l : List PixelRef) (s : SearchState), (∀ c ∈ l, map.inGrid c) → GoodState map s →
      GoodState map (l.foldl (visitIn order map radius level) s) ∧
      (∀ c, s.ws.miscs c ≠ 0 → (l.foldl (visitIn order map radius level) s).ws.miscs c ≠ 0) ∧
      ((∀ c ∈ s.tail, s.ws.miscs c ≠ 0) →
        ∀ c ∈ (l.foldl (visitIn order map radius level) s).tail,
          (l.foldl (visitIn order map radius level) s).ws.miscs c ≠ 0) := by
  intro l
  induction l with
  | nil => intro s _ hg; exact ⟨hg, fun _ h => h, fun h => h⟩
  | cons x rest ih =>
    intro s hl hg
    simp only [List.foldl_cons]
    obtain ⟨he, hg1⟩ := visitIn_effect order hord map hwf radius level s x
      (hl x (List.mem_cons_self _ _)) (hnm x (hl x (List.mem_cons_self _ _))) hg
    obtain ⟨a, b, c⟩ := ih (visitIn order map radius level s x)
      (fun c hc => hl c (List.mem_cons_of_mem _ hc)) hg1
    exact ⟨a, fun q hq => b q (visitEffect_nonzero he q hq),
      fun ht => c (visitEffect_tail_marked he ht)⟩

theorem foldl_visitIn_congr (o1 o2 : List Nat) (h1 : o1.Perm (List.range 32))
    (h2 : o2.Perm (List.range 32)) (map : PointMap) (hwf : WellFormed map)
    (hnm : ∀ c, map.inGrid c → (map.getPoint c).getMergePixel = none)
    (radius : Int) (level : Nat) :
    ∀ (l : List PixelRef) (s t : SearchState), (∀ c ∈ l, map.inGrid c) → GoodState map s →
      GoodState map t → OrderEquiv s t →
      OrderEquiv (l.foldl (visitIn o1 map radius level) s)
        (l.foldl (visitIn o2 map radius level) t) := by
  intro l
  induction l with
  | nil => intro s t _ _ _ h; exact h
  | cons x rest ih =>
    intro s t hl hs ht h
    simp only [List.foldl_cons]
    have hx := hl x (List.mem_cons_self _ _)
    obtain ⟨e1, g1⟩ := visitIn_effect o1 h1 map hwf radius level s x hx (hnm x hx) hs
    obtain ⟨e2, g2⟩ := visitIn_effect o2 h2 map hwf radius level t x hx (hnm x hx) ht
    exact ih _ _ (fun c hc => hl c (List.mem_cons_of_mem _ hc)) g1 g2
      (visitEffect_congr map radius level x s t _ _ h e1 e2)

theorem foldl_visitIn_perm (order : List Nat) (hord : order.Perm (List.range 32))
    (map : PointMap) (hwf : WellFormed map)
    (hnm : ∀ c, map.inGrid c → (map.getPoint c).getMergePixel = none)
    (radius : Int) (level : Nat) {l1 l2 : List PixelRef} (hp : l1.Perm l2) :
    ∀ (s : SearchState), GoodState map s → (∀ c ∈ l1, map.inGrid c ∧ s.ws.miscs c ≠ 0) →
      OrderEquiv (l1.foldl (visitIn order map radius level) s)
        (l2.foldl (visitIn order map radius level) s) := by
  induction hp with
  | nil => intro s _ _; exact orderEquiv_same _
  | cons x _ ih =>
    intro s hg hl
    simp only [List.foldl_cons]
    have hx := (hl x (List.mem_cons_self _ _)).1
    obtain ⟨e1, g1⟩ := visitIn_effect order hord map hwf radius level s x hx (hnm x hx) hg
    exact ih _ g1 (fun c hc => ⟨(hl c (List.mem_cons_of_mem _ hc)).1,
      visitEffect_nonzero e1 c (hl c (List.mem_cons_of_mem _ hc)).2⟩)
  | swap x y l =>
    intro s hg hl
    simp only [List.foldl_cons]
    have hy := hl y (List.mem_cons_self _ _)
    have hx := hl x (List.mem_cons_of_mem _ (List.mem_cons_self _ _))
    have hrest : ∀ c ∈ l, map.inGrid c := fun c hc =>
      (hl c (List.mem_cons_of_mem _ (List.mem_cons_of_mem _ hc))).1
    by_cases hxy : y = x
    · subst hxy
      exact orderEquiv_same _
    · obtain ⟨e1, g1⟩ := visitIn_effect order hord map hwf radius level s y hy.1
        (hnm y hy.1) hg
      obtain ⟨e2, g2⟩ := visitIn_effect order hord map hwf radius level _ x hx.1
        (hnm x hx.1) g1
      obtain ⟨e3, g3⟩ := visitIn_effect order hord map hwf radius level s x hx.1
        (hnm x hx.1) hg
      obtain ⟨e4, g4⟩ := visitIn_effect order hord map hwf radius level _ y hy.1
        (hnm y hy.1) g3
      exact foldl_visitIn_congr order order hord hord map hwf hnm radius level l _ _ hrest
        g2 g4 (visitEffect_swap map radius level y x hxy s _ _ _ _ hy.2 hx.2 e1 e2 e3 e4)
  | trans p1 _ ih1 ih2 =>
    intro s hg hl
    exact orderEquiv_chain (ih1 s hg hl) (ih2 s hg (fun c hc => hl c (p1.mem_iff.2 hc)))

theorem perm_of_length_le_one {l1 l2 : List PixelRef} (hp : l1.Perm l2)
    (h : l2.length ≤ 1) : l1 = l2 := by
  match l2, h, hp with
  | [], _, hp => exact List.Perm.eq_nil hp
  | [a], _, hp => exact List.perm_singleton.1 hp
  | _ :: _ :: _, h, _ => simp at h

/-- The state at the end of a level does not depend on the processing orders. -/
theorem levelStepIn_equiv (o1 o2 : List Nat) (r1 r2 : Nat → List PixelRef → List PixelRef)
    (h1 : ValidOrders o1 r1) (h2 : ValidOrders o2 r2) (map : PointMap) (hwf : WellFormed map)
    (hnm : ∀ c, map.inGrid c → (map.getPoint c).getMergePixel = none)
    (radius : Int) (level : Nat) (s t : SearchState) (hs : GoodState map s)
    (ht : GoodState map t) (hmark : (∀ c ∈ s.tail, s.ws.miscs c ≠ 0) ∨ s.tail.length ≤ 1)
    (h : OrderEquiv s t) :
    OrderEquiv (levelStepIn o1 r1 map radius level s) (levelStepIn o2 r2 map radius level t) ∧
      GoodState map (levelStepIn o1 r1 map radius level s) ∧
      GoodState map (levelStepIn o2 r2 map radius level t) ∧
      (∀ c ∈ (levelStepIn o1 r1 map radius level s).tail,
        (levelStepIn o1 r1 map radius level s).ws.miscs c ≠ 0) := by
  obtain ⟨a1, a2, a3, a4, a5, a6, a7⟩ := h
  have hp1 : (r1 level s.tail).Perm s.tail := h1.2 level s.tail
  have hp2 : (r2 level t.tail).Perm t.tail := h2.2 level t.tail
  have hp : (r1 level s.tail).Perm (r2 level t.tail) := hp1.trans (a3.trans hp2.symm)
  have hl1 : ∀ c ∈ r1 level s.tail, map.inGrid c := fun c hc => hs.2 c (hp1.mem_iff.1 hc)
  have hl2 : ∀ c ∈ r2 level t.tail, map.inGrid c := fun c hc => ht.2 c (hp2.mem_iff.1 hc)
  have hs0 : GoodState map { s with tail := [], distribution := 0 :: s.distribution } :=
    ⟨hs.1, fun c hc => absurd hc (List.not_mem_nil c)⟩
  have ht0 : GoodState map { t with tail := [], distribution := 0 :: t.distribution } :=
    ⟨ht.1, fun c hc => absurd hc (List.not_mem_nil c)⟩
  have h0 : OrderEquiv { s with tail := [], distribution := 0 :: s.distribution }
      { t with tail := [], distribution := 0 :: t.distribution } :=
    ⟨a1, a2, List.Perm.refl _, a4, a5, by simp [a6], a7⟩
  have g1 := foldl_visitIn_good o1 h1.1 map hwf hnm radius level (r1 level s.tail) _ hl1 hs0
  have g2 := foldl_visitIn_good o2 h2.1 map hwf hnm radius level (r2 level t.tail) _ hl2 ht0
  refine ⟨?_, g1.1, g2.1, g1.2.2 (fun c hc => absurd hc (List.not_mem_nil c))⟩
  unfold levelStepIn
  rcases hmark with hm | hlen
  · have e1 := foldl_visitIn_perm o1 h1.1 map hwf hnm radius level hp _ hs0
      (fun c hc => ⟨hl1 c hc, hm c (hp1.mem_iff.1 hc)⟩)
    exact orderEquiv_chain e1 (foldl_visitIn_congr o1 o2 h1.1 h2.1 map hwf hnm radius level
      _ _ _ hl2 hs0 ht0 h0)
  · have hlen2 : (r2 level t.tail).length ≤ 1 := by
      rw [hp2.length_eq, ← a3.length_eq]; exact hlen
    rw [perm_of_length_le_one hp hlen2]
    exact foldl_visitIn_congr o1 o2 h1.1 h2.1 map hwf hnm radius level _ _ _ hl2 hs0 ht0 h0

theorem searchIn_equiv (o1 o2 : List Nat) (r1 r2 : Nat → List PixelRef → List PixelRef)
    (h1 : ValidOrders o1 r1) (h2 : ValidOrders o2 r2) (map : PointMap) (hwf : WellFormed map)
    (hnm : ∀ c, map.inGrid c → (map.getPoint c).getMergePixel = none) (radius : Int) :
    ∀ (fuel level : Nat) (s t : SearchState), GoodState map s → GoodState map t →
      ((∀ c ∈ s.tail, s.ws.miscs c ≠ 0) ∨ s.tail.length ≤ 1) → OrderEquiv s t →
      ∀ r, searchIn o1 r1 map radius fuel level s = some r →
        ∃ r', searchIn o2 r2 map radius fuel level t = some r' ∧ OrderEquiv r r' := by
  intro fuel
  induction fuel with
  | zero => intro level s t _ _ _ _ r h; simp [searchIn] at h
  | succ fuel ih =>
    intro level s t hs ht hm h r hr
    have hlen : s.tail.length = t.tail.length := h.2.2.1.length_eq
    unfold searchIn at hr ⊢
    rw [← hlen]
    by_cases he : s.tail.length = 0
    · rw [if_pos he] at hr ⊢
      cases hr
      exact ⟨t, rfl, h⟩
    · rw [if_neg he] at hr ⊢
      obtain ⟨e, g1, g2, m⟩ := levelStepIn_equiv o1 o2 r1 r2 h1 h2 map hwf hnm radius level
        s t hs ht hm h
      exact ih (level + 1) _ _ g1 g2 (Or.inl m) e r hr

theorem visit_eq_visitIn (map : PointMap) (radius : Int) (level : Nat) :
    visit map radius level = visitIn (List.range 32) map radius level := rfl

theorem search_eq_searchIn (map : PointMap) (radius : Int) :
    ∀ (fuel level : Nat) (s : SearchState),
      search map radius fuel level s
        = searchIn (List.range 32) (fun _ l => l) map radius fuel level s := by
  intro fuel
  induction fuel with
  | zero => intro level s; rfl
  | succ fuel ih =>
    intro level s
    unfold search searchIn
    by_cases he : s.tail.length = 0
    · rw [if_pos he, if_pos he]
    · rw [if_neg he, if_neg he, ih]
      rfl

theorem episode_eq_episodeIn (map : PointMap) (radius : Int) (curs : PixelRef)
    (ws : Workspace) (fuel : Nat) :
    episode map radius curs ws fuel
      = episodeIn (List.range 32) (fun _ l => l) map radius curs ws fuel :=
  search_eq_searchIn map radius fuel 0 _

theorem validOrders_source : ValidOrders (List.range 32) (fun _ l => l) :=
  ⟨List.Perm.refl _, fun _ l => List.Perm.refl l⟩

/-- Without merge links the episode under any processing orders ends in a
state that differs from the source's in order only. -/
theorem episodeIn_equiv (o2 : List Nat) (r2 : Nat → List PixelRef → List PixelRef)
    (h2 : ValidOrders o2 r2) (map : PointMap) (hwf : WellFormed map)
    (hnm : ∀ c, map.inGrid c → (map.getPoint c).getMergePixel = none) (radius : Int)
    (curs : PixelRef) (hgrid : map.inGrid curs) (ws : Workspace) (fuel : Nat)
    (s : SearchState) (hs : episode map radius curs ws fuel = some s) :
    ∃ s', episodeIn o2 r2 map radius curs ws fuel = some s' ∧ OrderEquiv s s' := by
  rw [episode_eq_episodeIn] at hs
  unfold episodeIn at hs ⊢
  have hg : GoodState map (initialState map curs ws) := by
    refine ⟨extentInv_reset map ws, ?_⟩
    intro c hc
    simp only [initialState, List.mem_singleton] at hc
    rw [hc]; exact hgrid
  exact searchIn_equiv (List.range 32) o2 (fun _ l => l) r2 validOrders_source h2 map hwf hnm
    radius fuel 0 _ _ hg hg (Or.inr (by simp [initialState])) (orderEquiv_same _) s hs

/-! ### The steps of a walk -/

theorem episode_nonroot_depth (map : PointMap) (radius : Int) (curs : PixelRef)
    (ws : Workspace) (fuel : Nat) (hgrid : map.inGrid curs)
    (hfilled : (map.getPoint curs).filled = true) (s : SearchState)
    (hs : episode map radius curs ws fuel = some s) :
    (∀ p ∈ s.counted, p ≠ (curs, 0) → 1 ≤ p.2) ∧
    (s.total_depth = s.total_nodes - 1 ↔ ∀ p ∈ s.counted, p ≠ (curs, 0) → p.2 = 1) := by
  obtain ⟨_, hroot, huniq⟩ := episode_root_depth_zero map radius curs ws fuel hgrid hfilled s hs
  obtain ⟨_, _, hiff⟩ := episode_depth_ge map radius curs ws fuel hgrid hfilled s hs
  have h1 : ∀ p ∈ s.counted, p ≠ (curs, 0) → 1 ≤ p.2 := by
    intro p hp hne
    by_contra hlt
    exact hne (huniq p hp (by omega))
  refine ⟨h1, ?_⟩
  rw [hiff]
  constructor
  · intro h p hp hne
    have := h p hp
    have := h1 p hp hne
    omega
  · intro h p hp
    by_cases hne : p = (curs, 0)
    · rw [hne]; exact Nat.zero_le _
    · rw [h p hp hne]

theorem episode_depth_weighted (map : PointMap) (radius : Int) (curs : PixelRef)
    (ws : Workspace) (fuel : Nat) (s : SearchState)
    (hs : episode map radius curs ws fuel = some s) :
    s.total_depth
      = ∑ k ∈ Finset.range s.depthDistribution.length, k * s.depthDistribution.getD k 0 := by
  obtain ⟨_, c2, c3, c4⟩ := episode_counters map radius curs ws fuel s hs
  rw [c2, sum_snd_eq_weighted s.counted s.depthDistribution.length c3]
  apply Finset.sum_congr rfl
  intro k _
  rw [c4 k]

theorem mean_depth_ge_one (N D : Nat) (hN : 1 < N) (hD : N - 1 ≤ D) :
    (1 : Rat) ≤ (D : Rat) / ((N : Rat) - 1) := by
  have hpos : (0 : Rat) < (N : Rat) - 1 := by
    have : (1 : Rat) < (N : Rat) := by exact_mod_cast hN
    linarith
  rw [le_div_iff₀ hpos, one_mul]
  have : ((N - 1 : Nat) : Rat) ≤ (D : Rat) := by exact_mod_cast hD
  rw [Nat.cast_sub (le_of_lt hN)] at this
  simpa using this

/-! ### The probabilities of the entropy loop -/

theorem probabilities_unit (N : Nat) (hN : 1 < N) (rest : List Nat)
    (hsum : rest.sum = N - 1) :
    (∀ d ∈ rest, 0 < d →
      0 < (d : Rat) / ((N : Rat) - 1) ∧ (d : Rat) / ((N : Rat) - 1) ≤ 1) ∧
    (rest.map (fun (d : Nat) => (d : Rat) / ((N : Rat) - 1))).sum = 1 := by
  have hpos : (0 : Rat) < (N : Rat) - 1 := by
    have : (1 : Rat) < (N : Rat) := by exact_mod_cast hN
    linarith
  have hcast : ((N - 1 : Nat) : Rat) = (N : Rat) - 1 := by
    rw [Nat.cast_sub (le_of_lt hN)]; simp
  refine ⟨?_, ?_⟩
  · intro d hd hd0
    have hle : d ≤ N - 1 := by
      rw [← hsum]; exact List.single_le_sum (fun _ _ => Nat.zero_le _) d hd
    refine ⟨div_pos (by exact_mod_cast hd0) hpos, ?_⟩
    rw [div_le_one hpos, ← hcast]
    exact_mod_cast hle
  · rw [sum_map_div, hsum, hcast]
    exact div_self (ne_of_gt hpos)

/-! ### The factorial variable at bucket `k` -/

theorem factorial_at_bucket (fns : MathFns) (mean_depth : Rat) (total_nodes : Nat)
    (dd : List Nat) (hgap : ∀ j, j + 1 < dd.length → 0 < dd.getD j 0)
    (k : Nat) (hk1 : 1 ≤ k) (hk : k < dd.length) (hpos : 0 < dd.getD k 0) :
    (entropyLoop fns mean_depth total_nodes 1 ((dd.take (k + 1)).drop 1)
        ⟨0, 0, 1⟩).factorial = ((k + 1).factorial : Rat) ∧
    entropyLoop fns mean_depth total_nodes 1 (dd.drop 1) ⟨0, 0, 1⟩
      = entropyLoop fns mean_depth total_nodes (k + 1) (dd.drop (k + 1))
          (entropyLoop fns mean_depth total_nodes 1 ((dd.take (k + 1)).drop 1) ⟨0, 0, 1⟩) := by
  have hlen : ((dd.take (k + 1)).drop 1).length = k := by
    rw [List.length_drop, List.length_take]
    omega
  refine ⟨?_, ?_⟩
  · have := entropyLoop_factorial fns mean_depth total_nodes ((dd.take (k + 1)).drop 1) 1
      ⟨0, 0, 1⟩
      (fun d hd => take_positive_of_noGap dd k hk hgap hpos d (List.mem_of_mem_drop hd))
      (by simp)
    rw [this, hlen, Nat.add_comm]
  · have hsplit : dd.drop 1 = (dd.take (k + 1)).drop 1 ++ dd.drop (k + 1) := by
      conv_lhs => rw [← List.take_append_drop (k + 1) dd]
      rw [List.drop_append_of_le_length]
      rw [List.length_take]
      omega
    conv_lhs => rw [hsplit]
    rw [entropyLoop_append, hlen, Nat.add_comm]

theorem noGap_last_bucket (dd : List Nat)
    (hgap : ∀ j, j + 1 < dd.length → 0 < dd.getD j 0) (k : Nat) (hk : k < dd.length)
    (h0 : dd.getD k 0 = 0) : k + 1 = dd.length := by
  by_contra hne
  have := hgap k (by omega)
  omega

/-! ### The grid of the merge-order example -/

theorem wellFormed_mergeOrderGrid : WellFormed mergeOrderGrid := by
  intro c hc
  have hmem : c ∈ gridCells mergeOrderGrid := (mem_gridCells mergeOrderGrid c).2 hc
  have hall : ∀ d ∈ gridCells mergeOrderGrid,
      (∀ x ∈ (mergeOrderGrid.getPoint d).getNode.cells, mergeOrderGrid.inGrid x) ∧
      (∀ m ∈ (mergeOrderGrid.getPoint d).getMergePixel, mergeOrderGrid.inGrid m) := by
    decide
  exact ⟨(hall c hmem).1, fun m hm => (hall c hmem).2 m hm⟩

/-! ### The `short` cursor -/

theorem search_first_empty (map : PointMap) (radius : Int) (curs : PixelRef)
    (ws : Workspace) :
    ∀ (fuel level : Nat) (r : SearchState),
      search map radius fuel level (levelState map radius curs ws level) = some r →
      ∃ K, level ≤ K ∧ r = levelState map radius curs ws K ∧
        (levelState map radius curs ws K).tail = [] ∧
        ∀ j, level ≤ j → j < K → (levelState map radius curs ws j).tail ≠ [] := by
  intro fuel
  induction fuel with
  | zero => intro level r h; simp [search] at h
  | succ fuel ih =>
    intro level r h
    rw [search] at h
    split_ifs at h with h0
    · cases h
      exact ⟨level, le_refl _, rfl, List.length_eq_zero.1 h0, fun j h1 h2 => by omega⟩
    · obtain ⟨K, k1, k3, k4, k5⟩ := ih (level + 1) r h
      refine ⟨K, by omega, k3, k4, ?_⟩
      intro j h1 h2
      by_cases hj : j = level
      · subst hj
        intro he
        exact h0 (by rw [he]; rfl)
      · exact k5 j (by omega) h2

theorem episode_first_empty (map : PointMap) (radius : Int) (curs : PixelRef)
    (ws : Workspace) (fuel : Nat) (r : SearchState)
    (h : episode map radius curs ws fuel = some r) :
    ∃ K, r = levelState map radius curs ws K ∧ r.depthDistribution.length = K ∧
      (levelState map radius curs ws K).tail = [] ∧
      ∀ j, j < K → (levelState map radius curs ws j).tail ≠ [] := by
  obtain ⟨K, _, k2, k3, k4⟩ := search_first_empty map radius curs ws fuel 0 r h
  refine ⟨K, k2, ?_, k3, fun j hj => k4 j (Nat.zero_le _) hj⟩
  unfold SearchState.depthDistribution
  rw [List.length_reverse, k2, levelState_distribution_length]

/-! ### The cells of a level, without merge links -/

theorem visit_effect_nomerge (map : PointMap) (hwf : WellFormed map) (radius : Int)
    (level : Nat) (s : SearchState) (ref : PixelRef) (href : map.inGrid ref)
    (hnm : (map.getPoint ref).getMergePixel = none) (hgood : GoodState map s) :
    VisitEffect map radius level ref s (visit map radius level s ref) ∧
      GoodState map (visit map radius level s ref) :=
  visitIn_effect (List.range 32) (List.Perm.refl _) map hwf radius level s ref href hnm hgood

theorem fold_prop (Z H E T Z1 U inNew T1 : Prop) (hnew : inNew ↔ (H ∧ Z))
    (hz1 : Z1 ↔ (Z ∧ ¬ inNew ∧ ¬ U)) (hU : Z → ¬ U) (ht1 : T1 ↔ (inNew ∨ T)) :
    ((Z1 ∧ ¬ E) ↔ (Z ∧ ¬ (H ∨ E))) ∧ ((T1 ∨ (Z1 ∧ E)) ↔ (T ∨ (Z ∧ (H ∨ E)))) := by
  rw [ht1, hz1, hnew]
  by_cases hZ : Z
  · have := hU hZ
    by_cases hH : H <;> by_cases hE : E <;> by_cases hT : T <;> simp [hZ, this, hH, hE, hT]
  · simp [hZ]

/-- The markers that are still 0 and the cells pushed after a list of
distinct discovered cells has been visited. -/
theorem foldl_visit_level (map : PointMap) (hwf : WellFormed map)
    (hnm : ∀ c, map.inGrid c → (map.getPoint c).getMergePixel = none)
    (radius : Int) (level : Nat) :
    ∀ (l : List PixelRef) (t : SearchState), l.Nodup → GoodState map t →
      (∀ u ∈ l, map.inGrid u ∧ t.ws.miscs u ≠ 0) →
      (∀ c, (l.foldl (visit map radius level) t).ws.miscs c = 0 ↔
        (t.ws.miscs c = 0 ∧ ¬ ∃ u, u ∈ l ∧ Counts map t u ∧ Expands map radius level u ∧
          c ∈ (map.getPoint u).getNode.cells)) ∧
      (∀ c, c ∈ (l.foldl (visit map radius level) t).tail ↔
        (c ∈ t.tail ∨ (t.ws.miscs c = 0 ∧ ∃ u, u ∈ l ∧ Counts map t u ∧
          Expands map radius level u ∧ c ∈ (map.getPoint u).getNode.cells))) := by
  intro l
  induction l with
  | nil =>
    intro t _ _ _
    simp
  | cons x rest ih =>
    intro t hnd hg hl
    have hnd' := List.nodup_cons.1 hnd
    have hx := hl x (List.mem_cons_self _ _)
    obtain ⟨he, hg1⟩ := visit_effect_nomerge map hwf radius level t x hx.1 (hnm x hx.1) hg
    have hmono := visitEffect_nonzero he
    obtain ⟨new, p1, p2, p3, p4, p5, _, _⟩ := he
    have hl1 : ∀ u ∈ rest, map.inGrid u ∧ (visit map radius level t x).ws.miscs u ≠ 0 :=
      fun u hu => ⟨(hl u (List.mem_cons_of_mem _ hu)).1,
        hmono u (hl u (List.mem_cons_of_mem _ hu)).2⟩
    obtain ⟨ia, ic⟩ := ih (visit map radius level t x) hnd'.2 hg1 hl1
    have hcnt : ∀ u, u ∈ rest → (Counts map (visit map radius level t x) u ↔ Counts map t u) := by
      intro u hu
      have hux : u ≠ x := fun h => hnd'.1 (h ▸ hu)
      have h5 := p5 u
      unfold Counts
      constructor
      · rintro ⟨a, b⟩; exact ⟨a, fun h => b (h5.2 (Or.inl h))⟩
      · rintro ⟨a, b⟩; exact ⟨a, fun h => (h5.1 h).elim b (fun h2 => hux h2.2)⟩
    have hE : ∀ c, (∃ u, u ∈ rest ∧ Counts map (visit map radius level t x) u ∧
          Expands map radius level u ∧ c ∈ (map.getPoint u).getNode.cells) ↔
        (∃ u, u ∈ rest ∧ Counts map t u ∧ Expands map radius level u ∧
          c ∈ (map.getPoint u).getNode.cells) := by
      intro c
      constructor
      · rintro ⟨u, hu, h1, h2⟩; exact ⟨u, hu, (hcnt u hu).1 h1, h2⟩
      · rintro ⟨u, hu, h1, h2⟩; exact ⟨u, hu, (hcnt u hu).2 h1, h2⟩
    have hsplit : ∀ c, (∃ u, u ∈ x :: rest ∧ Counts map t u ∧ Expands map radius level u ∧
          c ∈ (map.getPoint u).getNode.cells) ↔
        ((Counts map t x ∧ Expands map radius level x ∧ c ∈ (map.getPoint x).getNode.cells) ∨
          ∃ u, u ∈ rest ∧ Counts map t u ∧ Expands map radius level u ∧
            c ∈ (map.getPoint u).getNode.cells) := by
      intro c
      constructor
      · rintro ⟨u, hu, h⟩
        rcases List.mem_cons.1 hu with rfl | hu
        · exact Or.inl h
        · exact Or.inr ⟨u, hu, h⟩
      · rintro (h | ⟨u, hu, h⟩)
        · exact ⟨x, List.mem_cons_self _ _, h⟩
        · exact ⟨u, List.mem_cons_of_mem _ hu, h⟩
    have key : ∀ c, _ := fun c =>
      fold_prop (t.ws.miscs c = 0)
        (Counts map t x ∧ Expands map radius level x ∧ c ∈ (map.getPoint x).getNode.cells)
        (∃ u, u ∈ rest ∧ Counts map t u ∧ Expands map radius level u ∧
          c ∈ (map.getPoint u).getNode.cells)
        (c ∈ t.tail) ((visit map radius level t x).ws.miscs c = 0)
        (Counts map t x ∧ c = x) (c ∈ new) (c ∈ (visit map radius level t x).tail)
        (by rw [p3 c]; simp only [and_assoc])
        (p4 c)
        (fun h0 h => hx.2 (by rw [← h.2]; exact h0))
        (by rw [p1, List.mem_append])
    simp only [List.foldl_cons]
    refine ⟨?_, ?_⟩
    · intro c
      rw [ia c, hE c, hsplit c]
      exact (key c).1
    · intro c
      rw [ic c, hE c, hsplit c]
      exact (key c).2

/-- Level 1 of an episode without merge link at the root: the cells on the
runs of the root. -/
theorem level_one_nomerge (map : PointMap) (hwf : WellFormed map) (radius : Int)
    (root : PixelRef) (hroot : map.inGrid root)
    (hfilled : (map.getPoint root).filled = true)
    (hnm : (map.getPoint root).getMergePixel = none)
    (hexp : Expands map radius 0 root) (ws : Workspace) :
    GoodState map (levelState map radius root ws 1) ∧
    (levelState map radius root ws 1).tail.Nodup ∧
    (∀ c, c ∈ (levelState map radius root ws 1).tail ↔
      c ∈ (map.getPoint root).getNode.cells) ∧
    (∀ c, map.inGrid c → ((levelState map radius root ws 1).ws.miscs c = 0 ↔
      (c ∉ (map.getPoint root).getNode.cells ∧ c ≠ root))) ∧
    (∀ c, map.inGrid c → ((levelState map radius root ws 1).ws.miscs c = allOnes ↔
      c = root)) := by
  have hz : ∀ c, map.inGrid c → (resetWorkspace map ws).miscs c = 0 := by
    intro c hc; simp [resetWorkspace, hc]
  have hg0 : GoodState map
      { initialState map root ws with tail := [], distribution := [0] } :=
    ⟨extentInv_reset map ws, fun c hc => absurd hc (List.not_mem_nil c)⟩
  have hcnt : Counts map { initialState map root ws with tail := [], distribution := [0] }
      root := ⟨hfilled, by
        show (resetWorkspace map ws).miscs root ≠ allOnes
        rw [hz root hroot]; exact allOnes_ne_zero.symm⟩
  obtain ⟨he, hg1⟩ := visit_effect_nomerge map hwf radius 0 _ root hroot hnm hg0
  have hs1 : levelState map radius root ws 1
      = visit map radius 0 { initialState map root ws with tail := [], distribution := [0] }
          root := by
    rw [levelState, levelState, levelStep_initial]
  rw [hs1]
  obtain ⟨new, p1, p2, p3, p4, p5, _, _⟩ := he
  have hnew : ∀ c, c ∈ new ↔ c ∈ (map.getPoint root).getNode.cells := by
    intro c
    rw [p3 c]
    constructor
    · intro h; exact h.2.2.1
    · intro h; exact ⟨hcnt, hexp, h, hz c ((hwf root hroot).1 c h)⟩
  refine ⟨hg1, ?_, ?_, ?_, ?_⟩
  · rw [p1]; simpa using p2
  · intro c
    rw [p1]
    simp only [List.append_nil]
    exact hnew c
  · intro c hc
    rw [p4 c, hnew c]
    constructor
    · rintro ⟨_, h2, h3⟩; exact ⟨h2, fun h => h3 ⟨hcnt, h⟩⟩
    · rintro ⟨h2, h3⟩; exact ⟨hz c hc, h2, fun h => h3 h.2⟩
  · intro c hc
    rw [p5 c]
    constructor
    · rintro (h | h)
      · have : (resetWorkspace map ws).miscs c = allOnes := h
        rw [hz c hc] at this
        exact absurd this.symm allOnes_ne_zero
      · exact h.2
    · intro h; exact Or.inr ⟨hcnt, h⟩

/-- Level 2 of an episode with unlimited radius on a grid without merge
links is not empty exactly when a filled cell of level 1 sees a cell that is
new. -/
theorem level_two_nomerge (map : PointMap) (hwf : WellFormed map) (root : PixelRef)
    (hroot : map.inGrid root) (hfilled : (map.getPoint root).filled = true)
    (hnomerge : ∀ c, map.inGrid c → (map.getPoint c).getMergePixel = none)
    (ws : Workspace) :
    (levelState map (-1) root ws 2).tail ≠ [] ↔ SeesBeyond map root := by
  obtain ⟨hg1, hnd1, ht1, hz1, ha1⟩ := level_one_nomerge map hwf (-1) root hroot hfilled
    (hnomerge root hroot) (Or.inl rfl) ws
  have hgt : GoodState map
      { levelState map (-1) root ws 1 with
        tail := [], distribution := 0 :: (levelState map (-1) root ws 1).distribution } :=
    ⟨hg1.1, fun c hc => absurd hc (List.not_mem_nil c)⟩
  have hl : ∀ u ∈ (levelState map (-1) root ws 1).tail,
      map.inGrid u ∧ (levelState map (-1) root ws 1).ws.miscs u ≠ 0 := by
    intro u hu
    have hug := hg1.2 u hu
    refine ⟨hug, ?_⟩
    intro h0
    exact ((hz1 u hug).1 h0).1 ((ht1 u).1 hu)
  obtain ⟨_, hc⟩ := foldl_visit_level map hwf hnomerge (-1) 1
    (levelState map (-1) root ws 1).tail _ hnd1 hgt hl
  have hs2 : levelState map (-1) root ws 2
      = (levelState map (-1) root ws 1).tail.foldl (visit map (-1) 1)
          { levelState map (-1) root ws 1 with
            tail := [], distribution := 0 :: (levelState map (-1) root ws 1).distribution } := by
    rw [levelState, levelStep]
  rw [hs2]
  constructor
  · intro hne
    obtain ⟨c, hcm⟩ := List.exists_mem_of_ne_nil _ hne
    rcases (hc c).1 hcm with h | ⟨h0, u, hu, hcu, _, hcc⟩
    · exact absurd h (List.not_mem_nil c)
    · have hug := hg1.2 u hu
      have hcg := (hwf u hug).1 c hcc
      have h0' : (levelState map (-1) root ws 1).ws.miscs c = 0 := h0
      obtain ⟨hn1, hn2⟩ := (hz1 c hcg).1 h0'
      have hur : u ≠ root := by
        intro h
        have h1 : (levelState map (-1) root ws 1).ws.miscs u ≠ allOnes := hcu.2
        exact h1 ((ha1 u hug).2 h)
      exact ⟨u, c, (ht1 u).1 hu, hur, hcu.1, hcc, hn1, hn2⟩
  · rintro ⟨u, c, hu, hur, hf, hcc, hn1, hn2⟩
    have hug := (hwf root hroot).1 u hu
    have hcg := (hwf u hug).1 c hcc
    have hmem : c ∈ ((levelState map (-1) root ws 1).tail.foldl (visit map (-1) 1)
        { levelState map (-1) root ws 1 with
          tail := [], distribution := 0 :: (levelState map (-1) root ws 1).distribution }).tail :=
      (hc c).2 (Or.inr ⟨(hz1 c hcg).2 ⟨hn1, hn2⟩, u, (ht1 u).2 hu,
        ⟨hf, fun h => hur ((ha1 u hug).1 h)⟩, Or.inl rfl, hcc⟩)
    exact List.ne_nil_of_mem hmem

/-- The shape of the distribution when every other filled cell lies on a
run of the root. -/
theorem root_sees_all_shape (map : PointMap) (hwf : WellFormed map) (root : PixelRef)
    (hroot : map.inGrid root) (hfilled : (map.getPoint root).filled = true)
    (hnomerge : ∀ c, map.inGrid c → (map.getPoint c).getMergePixel = none)
    (hsees : ∀ c, map.inGrid c → (map.getPoint c).filled = true → c ≠ root →
      c ∈ (map.getPoint root).getNode.cells)
    (ws : Workspace) (fuel : Nat) (s : SearchState)
    (hs : episode map (-1) root ws fuel = some s) :
    ((map.getPoint root).getNode.cells = [] →
      s.depthDistribution = [1] ∧ s.total_nodes = 1) ∧
    ((map.getPoint root).getNode.cells ≠ [] → ¬ SeesBeyond map root →
      s.depthDistribution = [1, s.total_nodes - 1]) ∧
    (SeesBeyond map root → s.depthDistribution = [1, s.total_nodes - 1, 0]) := by
  obtain ⟨_, _, hshape⟩ :=
    root_sees_all_result map hwf root hroot hfilled hnomerge hsees ws fuel s hs
  obtain ⟨K, _, hlen, hK, hmin⟩ := episode_first_empty map (-1) root ws fuel s hs
  obtain ⟨_, _, ht1, _, _⟩ := level_one_nomerge map hwf (-1) root hroot hfilled
    (hnomerge root hroot) (Or.inl rfl) ws
  have h2 := level_two_nomerge map hwf root hroot hfilled hnomerge ws
  have hK0 : K ≠ 0 := by
    intro h
    rw [h] at hK
    simp [levelState, initialState] at hK
  have hcells : (levelState map (-1) root ws 1).tail = [] ↔
      (map.getPoint root).getNode.cells = [] := by
    rw [List.eq_nil_iff_forall_not_mem, List.eq_nil_iff_forall_not_mem]
    exact forall_congr' (fun c => not_congr (ht1 c))
  refine ⟨?_, ?_, ?_⟩
  · intro hc
    have hK1 : K = 1 := by
      by_contra hne
      exact hmin 1 (by omega) (hcells.2 hc)
    rcases hshape with h | h | h
    · exact h
    · rw [h] at hlen; simp at hlen; omega
    · rw [h] at hlen; simp at hlen; omega
  · intro hc hnb
    have hK1 : K ≠ 1 := by
      intro h
      rw [h] at hK
      exact hc (hcells.1 hK)
    have hK2 : K = 2 := by
      by_contra hne
      exact hmin 2 (by omega) (by
        by_contra hne2
        exact hnb (h2.1 hne2))
    rcases hshape with h | h | h
    · rw [h.1] at hlen; simp at hlen; omega
    · exact h
    · rw [h] at hlen; simp at hlen; omega
  · intro hb
    have hc : (map.getPoint root).getNode.cells ≠ [] := by
      obtain ⟨u, _, hu, _⟩ := hb
      exact List.ne_nil_of_mem hu
    have hK1 : K ≠ 1 := by
      intro h
      rw [h] at hK
      exact hc (hcells.1 hK)
    have hK2 : K ≠ 2 := by
      intro h
      rw [h] at hK
      exact h2.2 hb hK
    rcases hshape with h | h | h
    · rw [h.1] at hlen; simp at hlen; omega
    · rw [h] at hlen; simp at hlen; omega
    · exact h

/-! ### The visit of a root that has a merge partner -/

/-- The state after level 0 when the root `a` has the merge partner `b`:
both are consumed, and level 1 holds, once each, the cells on the runs of
`a` and the cells other than `a` on the runs of `b`. -/
theorem merge_root_level_one (map : PointMap) (hwf : WellFormed map) (a b : PixelRef)
    (ws : Workspace) (ha : map.inGrid a) (hfa : (map.getPoint a).filled = true)
    (hmerge : (map.getPoint a).getMergePixel = some b) (hne : b ≠ a) :
    (levelState map (-1) a ws 1).ws.miscs a = allOnes ∧
    (levelState map (-1) a ws 1).ws.miscs b = allOnes ∧
    (levelState map (-1) a ws 1).tail.Nodup ∧
    (∀ c, c ∈ (levelState map (-1) a ws 1).tail ↔
      (c ∈ (map.getPoint a).getNode.cells ∨
        (c ∈ (map.getPoint b).getNode.cells ∧ c ≠ a))) := by
  have hb : map.inGrid b := (hwf a ha).2 b hmerge
  have hz : ∀ c, map.inGrid c → (resetWorkspace map ws).miscs c = 0 := by
    intro c hc; simp [resetWorkspace, hc]
  obtain ⟨x1, new1, e1, e2, e3, e4, e5⟩ := extractUnseenIn_exact map (map.getPoint a).getNode
    [] (resetWorkspace map ws) (List.range 32) (List.Perm.refl _) (extentInv_reset map ws)
    (hwf a ha).1
  change ExtentInv map (extractUnseen (map.getPoint a).getNode [] (resetWorkspace map ws)).1
    at x1
  change (extractUnseen (map.getPoint a).getNode [] (resetWorkspace map ws)).2 = new1 ++ []
    at e1
  change ∀ c ∈ new1, ∃ i, i < 32 ∧
    (extractUnseen (map.getPoint a).getNode [] (resetWorkspace map ws)).1.miscs c = binBit i
    at e4
  change ∀ c, c ∉ new1 →
    (extractUnseen (map.getPoint a).getNode [] (resetWorkspace map ws)).1.miscs c
      = (resetWorkspace map ws).miscs c at e5
  have hnew1 : ∀ c, c ∈ new1 ↔ c ∈ (map.getPoint a).getNode.cells := by
    intro c
    rw [e3 c]
    exact ⟨fun h => h.1, fun h => ⟨h, hz c ((hwf a ha).1 c h)⟩⟩
  -- the workspace between the two expansions
  have hws2 : ∀ c, ((extractUnseen (map.getPoint a).getNode [] (resetWorkspace map ws)).1.setMisc
      a allOnes).miscs c = 0 ↔ (c ≠ a ∧ c ∉ new1 ∧ (resetWorkspace map ws).miscs c = 0) := by
    intro c
    rw [miscs_setMisc]
    by_cases hca : c = a
    · rw [if_pos hca]
      exact ⟨fun h => absurd h allOnes_ne_zero, fun h => absurd hca h.1⟩
    · rw [if_neg hca]
      by_cases hn : c ∈ new1
      · obtain ⟨i, hi, hbit⟩ := e4 c hn
        rw [hbit]
        exact ⟨fun h => absurd h (binBit_ne_zero hi), fun h => absurd hn h.2.1⟩
      · rw [e5 c hn]
        exact ⟨fun h => ⟨hca, hn, h⟩, fun h => h.2.2⟩
  have hb2 : ((extractUnseen (map.getPoint a).getNode [] (resetWorkspace map ws)).1.setMisc
      a allOnes).miscs b ≠ allOnes := by
    rw [miscs_setMisc, if_neg hne]
    by_cases hn : b ∈ new1
    · obtain ⟨i, hi, hbit⟩ := e4 b hn
      rw [hbit]; exact binBit_ne_allOnes hi
    · rw [e5 b hn, hz b hb]; exact allOnes_ne_zero.symm
  obtain ⟨_, new3, f1, f2, f3, f4, f5⟩ := extractUnseenIn_exact map (map.getPoint b).getNode
    (extractUnseen (map.getPoint a).getNode [] (resetWorkspace map ws)).2
    ((extractUnseen (map.getPoint a).getNode [] (resetWorkspace map ws)).1.setMisc a allOnes)
    (List.range 32) (List.Perm.refl _)
    (extentInv_setMisc map _ a allOnes allOnes_ne_zero x1) (hwf b hb).1
  -- the state after the visit of the root
  have hc : (map.getPoint a).filled = true ∧
      ({ initialState map a ws with tail := [], distribution := [0] } : SearchState).ws.miscs
        a ≠ allOnes :=
    ⟨hfa, by
      show (resetWorkspace map ws).miscs a ≠ allOnes
      rw [hz a ha]; exact allOnes_ne_zero.symm⟩
  have hs1 : levelState map (-1) a ws 1
      = { ({ initialState map a ws with tail := [], distribution := [0] } : SearchState) with
          total_depth := 0 + 0
          total_nodes := 0 + 1
          distribution := incrTail [0]
          counted := [(a, 0)]
          ws := (extractUnseenIn (List.range 32) (map.getPoint b).getNode
            (extractUnseen (map.getPoint a).getNode [] (resetWorkspace map ws)).2
            ((extractUnseen (map.getPoint a).getNode [] (resetWorkspace map ws)).1.setMisc a
              allOnes)).1.setMisc b allOnes
          tail := (extractUnseenIn (List.range 32) (map.getPoint b).getNode
            (extractUnseen (map.getPoint a).getNode [] (resetWorkspace map ws)).2
            ((extractUnseen (map.getPoint a).getNode [] (resetWorkspace map ws)).1.setMisc a
              allOnes)).2 } := by
    rw [levelState, levelState, levelStep_initial]
    unfold visit
    simp only []
    rw [if_pos hc]
    simp only [true_or, if_true, hmerge]
    split_ifs with h3
    · rfl
    · exact absurd hb2 h3
  rw [hs1]
  have hnew3 : ∀ c, c ∈ new3 ↔ (c ∈ (map.getPoint b).getNode.cells ∧ c ≠ a ∧ c ∉ new1) := by
    intro c
    rw [f3 c, hws2 c]
    constructor
    · rintro ⟨h1, h2, h3, _⟩; exact ⟨h1, h2, h3⟩
    · rintro ⟨h1, h2, h3⟩; exact ⟨h1, h2, h3, hz c ((hwf b hb).1 c h1)⟩
  refine ⟨?_, ?_, ?_, ?_⟩
  · show ((extractUnseenIn (List.range 32) (map.getPoint b).getNode _ _).1.setMisc b
      allOnes).miscs a = allOnes
    rw [miscs_setMisc, if_neg (fun h => hne h.symm)]
    have hna : a ∉ new3 := fun h => ((hnew3 a).1 h).2.1 rfl
    rw [f5 a hna, miscs_setMisc, if_pos rfl]
  · show ((extractUnseenIn (List.range 32) (map.getPoint b).getNode _ _).1.setMisc b
      allOnes).miscs b = allOnes
    rw [miscs_setMisc, if_pos rfl]
  · show (extractUnseenIn (List.range 32) (map.getPoint b).getNode _ _).2.Nodup
    rw [f1, e1, List.append_nil, List.nodup_append]
    exact ⟨f2, e2, fun c h3 h1 => ((hnew3 c).1 h3).2.2 h1⟩
  · intro c
    show c ∈ (extractUnseenIn (List.range 32) (map.getPoint b).getNode _ _).2 ↔ _
    rw [f1, e1, List.append_nil, List.mem_append, hnew3 c, hnew1 c]
    constructor
    · rintro (⟨h1, h2, _⟩ | h)
      · exact Or.inr ⟨h1, h2⟩
      · exact Or.inl h
    · rintro (h | ⟨h1, h2⟩)
      · exact Or.inr h
      · by_cases hca : c ∈ (map.getPoint a).getNode.cells
        · exact Or.inr hca
        · exact Or.inl ⟨h1, h2, hca⟩

theorem wellFormed_mergePairGrid : WellFormed mergePairGrid := by
  intro c hc
  have hmem : c ∈ gridCells mergePairGrid := (mem_gridCells mergePairGrid c).2 hc
  have hall : ∀ d ∈ gridCells mergePairGrid,
      (∀ x ∈ (mergePairGrid.getPoint d).getNode.cells, mergePairGrid.inGrid x) ∧
      (∀ m ∈ (mergePairGrid.getPoint d).getMergePixel, mergePairGrid.inGrid m) := by
    decide
  exact ⟨(hall c hmem).1, fun m hm => (hall c hmem).2 m hm⟩

theorem wellFormed_mergeSeesGrid : WellFormed mergeSeesGrid := by
  intro c hc
  have hmem : c ∈ gridCells mergeSeesGrid := (mem_gridCells mergeSeesGrid c).2 hc
  have hall : ∀ d ∈ gridCells mergeSeesGrid,
      (∀ x ∈ (mergeSeesGrid.getPoint d).getNode.cells, mergeSeesGrid.inGrid x) ∧
      (∀ m ∈ (mergeSeesGrid.getPoint d).getMergePixel, mergeSeesGrid.inGrid m) := by
    decide
  exact ⟨(hall c hmem).1, fun m hm => (hall c hmem).2 m hm⟩

/-! ## The claims -/

/-- C1. For every grid and every filled root of the grid, an episode that
completes (for any radius, merge links and context-fill flags) has counted at
least the root, and its depth distribution sums to the total node count;
on a grid whose runs and merge partners lie inside the grid the episode does
complete within `getCols * getRows + 2` iterations of the level loop. -/
theorem episode_counts_root_and_distribution_sums (map : PointMap) (radius : Int)
    (curs : PixelRef) (ws : Workspace) (fuel : Nat) (hgrid : map.inGrid curs)
    (hfilled : (map.getPoint curs).filled = true) :
    (∀ s, episode map radius curs ws fuel = some s →
      1 ≤ s.total_nodes ∧ s.depthDistribution.sum = s.total_nodes) ∧
    (WellFormed map → map.getCols * map.getRows + 2 ≤ fuel →
      ∃ s, episode map radius curs ws fuel = some s) :=
  ⟨fun s hs => episode_root_counted map radius curs ws fuel hgrid hfilled s hs,
    fun hwf hfuel => episode_completes map hwf radius curs ws fuel hgrid hfuel⟩

/-- Witness for C1: the centre of the full 3 x 3 grid. -/
theorem episode_counts_root_and_distribution_sums_witness :
    ∃ s, episode fullGrid3 (-1) ⟨1, 1⟩ zeroWorkspace 11 = some s ∧
      1 ≤ s.total_nodes ∧ s.depthDistribution.sum = s.total_nodes := by
  obtain ⟨h1, h2⟩ := episode_counts_root_and_distribution_sums fullGrid3 (-1) ⟨1, 1⟩
    zeroWorkspace 11 (by decide) rfl
  obtain ⟨s, hs⟩ := h2 wellFormed_fullGrid3 (by decide)
  exact ⟨s, hs, h1 s hs⟩

/-- C2. With unlimited radius (-1), no merge partners and runs inside the
grid, one episode from a filled root completes and computes breadth-first
depths: there is a duplicate-free enumeration `cells` of exactly the pairs
(filled cell, its shortest-path distance from the root in the graph with an
edge `u -> v` whenever `u` is filled and `v` lies on a run of one of the 32
bins of `u`) such that the total node count is the number of entries, the
total depth is the sum of the distances, and bucket `k` of the depth
distribution is the number of entries at distance `k`. -/
theorem episode_computes_breadth_first_depths (map : PointMap) (root : PixelRef)
    (ws : Workspace) (fuel : Nat) (hwf : WellFormed map) (hroot : map.inGrid root)
    (hfilled : (map.getPoint root).filled = true)
    (hnomerge : ∀ c, map.inGrid c → (map.getPoint c).getMergePixel = none)
    (hfuel : map.getCols * map.getRows + 2 ≤ fuel) :
    ∃ s, episode map (-1) root ws fuel = some s ∧
      ∃ cells : List (PixelRef × Nat), cells.Nodup ∧
        (∀ v k, (v, k) ∈ cells ↔ ((map.getPoint v).filled = true ∧ IsDist map root k v)) ∧
        s.total_nodes = cells.length ∧
        s.total_depth = (cells.map Prod.snd).sum ∧
        ∀ k, s.depthDistribution.getD k 0 = cells.countP (fun p => p.2 = k) := by
  obtain ⟨s, hs⟩ := episode_completes map hwf (-1) root ws fuel hroot hfuel
  obtain ⟨h1, h2⟩ := bfs_counted map hwf root hroot hfilled hnomerge ws fuel s hs
  obtain ⟨c1, c2, _, c4⟩ := episode_counters map (-1) root ws fuel s hs
  exact ⟨s, hs, s.counted, h1, h2, c1, c2, c4⟩

/-- Witness for C2: the centre of the full 3 x 3 grid. -/
theorem episode_computes_breadth_first_depths_witness :
    ∃ s, episode fullGrid3 (-1) ⟨1, 1⟩ zeroWorkspace 11 = some s ∧
      ∃ cells : List (PixelRef × Nat), cells.Nodup ∧
        (∀ v k, (v, k) ∈ cells ↔
          ((fullGrid3.getPoint v).filled = true ∧ IsDist fullGrid3 ⟨1, 1⟩ k v)) ∧
        s.total_nodes = cells.length ∧
        s.total_depth = (cells.map Prod.snd).sum ∧
        ∀ k, s.depthDistribution.getD k 0 = cells.countP (fun p => p.2 = k) :=
  episode_computes_breadth_first_depths fullGrid3 ⟨1, 1⟩ zeroWorkspace 11
    wellFormed_fullGrid3 (by decide) rfl noMerge_fullGrid3 (by decide)

/-- C3. The extent early exit never loses a cell: in every workspace state
reachable inside one episode, for a node whose runs lie inside the grid,
after `extractUnseen` every cell lying on a run of one of the 32 bins is
visited, and the cells pushed onto the next level are exactly the cells on
those runs whose marker was 0 before the call, each pushed once. -/
theorem extractUnseen_never_loses_a_cell (map : PointMap) (ws : Workspace) (node : Node)
    (next : List PixelRef) (hreach : Reachable map ws)
    (hgrid : ∀ c ∈ node.cells, map.inGrid c) :
    (∀ c ∈ node.cells, (extractUnseen node next ws).1.miscs c ≠ 0) ∧
    ∃ new : List PixelRef, (extractUnseen node next ws).2 = new ++ next ∧ new.Nodup ∧
      ∀ c, c ∈ new ↔ (c ∈ node.cells ∧ ws.miscs c = 0) := by
  obtain ⟨h1, new, h2, h3, h4, _⟩ :=
    extractUnseen_exact map node next ws (extentInv_of_reachable map ws hreach) hgrid
  exact ⟨h1, new, h2, h3, h4⟩

/-- Witness for C3: a second expansion of the rows of the 3 x 3 grid, after a
first expansion and a consumed marking. -/
theorem extractUnseen_never_loses_a_cell_witness :
    (∀ c ∈ rowsNode.cells,
      (extractUnseen rowsNode []
        (((extractUnseen (seesNode ⟨1, 1⟩) [] (resetWorkspace fullGrid3 zeroWorkspace)).1).setMisc
          ⟨1, 1⟩ allOnes)).1.miscs c ≠ 0) ∧
    ∃ new : List PixelRef,
      (extractUnseen rowsNode []
        (((extractUnseen (seesNode ⟨1, 1⟩) [] (resetWorkspace fullGrid3 zeroWorkspace)).1).setMisc
          ⟨1, 1⟩ allOnes)).2 = new ++ [] ∧ new.Nodup ∧
      ∀ c, c ∈ new ↔ (c ∈ rowsNode.cells ∧
        (((extractUnseen (seesNode ⟨1, 1⟩) [] (resetWorkspace fullGrid3 zeroWorkspace)).1).setMisc
          ⟨1, 1⟩ allOnes).miscs c = 0) :=
  extractUnseen_never_loses_a_cell fullGrid3 _ rowsNode []
    (Reachable.consume _ _
      (Reachable.extract _ (seesNode ⟨1, 1⟩) [] (Reachable.reset zeroWorkspace) (by decide)))
    (by decide)

/-- C4. For every finite radius `R ≥ 0` the episode completes within `R + 2`
iterations, its depth distribution has at most `R + 1` buckets, no cell is
counted at a depth above `R`, frontier level `R + 1` is empty, and at a depth
not below `R` visiting a cell pushes nothing onto the next level (neither
from its own adjacency nor from that of its merge partner).  With radius 0 a
filled root of the grid gives a node count of 1. -/
theorem finite_radius_bounds_depth (map : PointMap) (radius : Int) (curs : PixelRef)
    (ws : Workspace) (fuel : Nat) (hR : 0 ≤ radius) (hfuel : radius.toNat + 2 ≤ fuel) :
    (∃ s, episode map radius curs ws fuel = some s ∧
      s.depthDistribution.length ≤ radius.toNat + 1 ∧
      (∀ p ∈ s.counted, p.2 ≤ radius.toNat) ∧
      (radius = 0 → map.inGrid curs → (map.getPoint curs).filled = true →
        s.total_nodes = 1)) ∧
    (levelState map radius curs ws (radius.toNat + 1)).tail = [] ∧
    (∀ (level : Nat) (t : SearchState) (ref : PixelRef), radius ≤ (level : Int) →
      (visit map radius level t ref).tail = t.tail) := by
  have hlast : (levelState map radius curs ws (radius.toNat + 1)).tail = [] := by
    rw [levelState]
    exact levelStep_no_expand map radius radius.toNat _ hR (by omega)
  refine ⟨?_, hlast, fun level t ref hl => visit_no_expand map radius level t ref hR hl⟩
  obtain ⟨j, _, j2, j3, j4⟩ := search_levelState map radius curs ws fuel 0 (radius.toNat + 1)
    (by omega) (by rw [Nat.zero_add]; exact hlast)
  have hs : episode map radius curs ws fuel = some (levelState map radius curs ws j) := j3
  have hlen : (levelState map radius curs ws j).depthDistribution.length = j := by
    unfold SearchState.depthDistribution
    rw [List.length_reverse, levelState_distribution_length]
  obtain ⟨_, _, c3, _⟩ := episode_counters map radius curs ws fuel _ hs
  refine ⟨_, hs, by rw [hlen]; omega, ?_, ?_⟩
  · intro p hp
    have := c3 p hp
    rw [hlen] at this
    omega
  · intro h0 hg hf
    have hj : j = 1 := by
      have hj0 : j ≠ 0 := by
        intro h
        rw [h] at j4
        simp [levelState, initialState] at j4
      have : radius.toNat = 0 := by rw [h0]; rfl
      omega
    rw [hj, levelState, levelState]
    exact (initial_root_counted map radius curs ws hg hf).1

/-- Witness for C4: radius 1 on the full 3 x 3 grid. -/
theorem finite_radius_bounds_depth_witness :
    (∃ s, episode fullGrid3 1 ⟨1, 1⟩ zeroWorkspace 3 = some s ∧
      s.depthDistribution.length ≤ (1 : Int).toNat + 1 ∧
      (∀ p ∈ s.counted, p.2 ≤ (1 : Int).toNat) ∧
      ((1 : Int) = 0 → fullGrid3.inGrid ⟨1, 1⟩ → (fullGrid3.getPoint ⟨1, 1⟩).filled = true →
        s.total_nodes = 1)) ∧
    (levelState fullGrid3 1 ⟨1, 1⟩ zeroWorkspace ((1 : Int).toNat + 1)).tail = [] ∧
    (∀ (level : Nat) (t : SearchState) (ref : PixelRef), (1 : Int) ≤ (level : Int) →
      (visit fullGrid3 1 level t ref).tail = t.tail) :=
  finite_radius_bounds_depth fullGrid3 1 ⟨1, 1⟩ zeroWorkspace 3 (by decide) (by decide)

/-- C5, counterexample. On the grid of two filled cells that see nothing and
are each other's merge partner, the episode rooted at `(0,0)` with unlimited
radius reports a node count of 1 and the distribution `[1]`, not 2 and
`[1, 1]`; the same holds for the root `(1,0)`. -/
theorem merge_pair_counts_one :
    (mergePairGrid.getPoint ⟨0, 0⟩).filled = true ∧
    (mergePairGrid.getPoint ⟨1, 0⟩).filled = true ∧
    (mergePairGrid.getPoint ⟨0, 0⟩).getMergePixel = some ⟨1, 0⟩ ∧
    (mergePairGrid.getPoint ⟨1, 0⟩).getMergePixel = some ⟨0, 0⟩ ∧
    (mergePairGrid.getPoint ⟨0, 0⟩).getNode.cells = [] ∧
    (mergePairGrid.getPoint ⟨1, 0⟩).getNode.cells = [] ∧
    (episode mergePairGrid (-1) ⟨0, 0⟩ zeroWorkspace 4).map
        (fun s => (s.total_nodes, s.depthDistribution)) = some (1, [1]) ∧
    (episode mergePairGrid (-1) ⟨1, 0⟩ zeroWorkspace 4).map
        (fun s => (s.total_nodes, s.depthDistribution)) = some (1, [1]) ∧
    (episode mergePairGrid (-1) ⟨0, 0⟩ zeroWorkspace 4).map
        (fun s => (s.total_nodes, s.depthDistribution)) ≠ some (2, [1, 1]) := by
  decide

/-- C5, amended. When a filled root `a` of the grid has a merge partner
`b ≠ a` that lies on no run of the adjacency node of `a` or of `b`, an
episode rooted at `a` with unlimited radius counts `a` at depth 0 and
consumes `b` in the same step: `b` is not counted at any depth.  When
moreover neither node has a run cell, the episode completes with node count
1, total depth 0 and distribution `[1]`.  On a grid whose runs and merge
partners lie inside the grid, the step that counts `a` leaves both `a` and
`b` consumed, has counted `a` alone, and has expanded both adjacency nodes
into level 1: level 1 holds, once each, exactly the cells on the runs of `a`
and the cells other than `a` on the runs of `b`; and the episode completes
within `getCols * getRows + 2` levels, with `a` counted at depth 0 and `b`
not counted. -/
theorem merge_partner_consumed_not_counted (map : PointMap) (a b : PixelRef) (ws : Workspace)
    (fuel : Nat) (ha : map.inGrid a) (hfa : (map.getPoint a).filled = true)
    (hmerge : (map.getPoint a).getMergePixel = some b) (hne : b ≠ a)
    (hba : b ∉ (map.getPoint a).getNode.cells) (hbb : b ∉ (map.getPoint b).getNode.cells) :
    (∀ s, episode map (-1) a ws fuel = some s →
      (a, 0) ∈ s.counted ∧ ∀ m, (b, m) ∉ s.counted) ∧
    ((map.getPoint a).getNode.cells = [] → (map.getPoint b).getNode.cells = [] → 2 ≤ fuel →
      ∃ s, episode map (-1) a ws fuel = some s ∧
        s.total_nodes = 1 ∧ s.total_depth = 0 ∧ s.depthDistribution = [1]) ∧
    (WellFormed map →
      (levelState map (-1) a ws 1).ws.miscs a = allOnes ∧
      (levelState map (-1) a ws 1).ws.miscs b = allOnes ∧
      (levelState map (-1) a ws 1).counted = [(a, 0)] ∧
      (levelState map (-1) a ws 1).tail.Nodup ∧
      (∀ c, c ∈ (levelState map (-1) a ws 1).tail ↔
        (c ∈ (map.getPoint a).getNode.cells ∨
          (c ∈ (map.getPoint b).getNode.cells ∧ c ≠ a))) ∧
      (map.getCols * map.getRows + 2 ≤ fuel →
        ∃ s, episode map (-1) a ws fuel = some s ∧
          (a, 0) ∈ s.counted ∧ ∀ m, (b, m) ∉ s.counted)) := by
  obtain ⟨i1, i2, i3, i4⟩ := initial_root_counted map (-1) a ws ha hfa
  have hc : (map.getPoint a).filled = true ∧
      ({ initialState map a ws with tail := [], distribution := [0] } : SearchState).ws.miscs
        a ≠ allOnes :=
    ⟨hfa, by simp [initialState, resetWorkspace, ha, allOnes]⟩
  have hmisc : (levelStep map (-1) 0 (initialState map a ws)).ws.miscs b = allOnes := by
    rw [levelStep_initial]
    exact visit_merge_consumed map 0 _ a b hmerge hc
  obtain ⟨new, e1, _, e3, _⟩ := visit_effect map (-1) 0
    { initialState map a ws with tail := [], distribution := [0] } a
  rw [← levelStep_initial] at e1 e3
  have hnew : ∀ c ∈ new, c ∈ (map.getPoint a).getNode.cells ∨
      c ∈ (map.getPoint b).getNode.cells := by
    intro c hc'
    rcases (e3 c hc').2.2 with h | ⟨m, hm, h⟩
    · exact Or.inl h
    · rw [hmerge] at hm
      cases hm
      exact Or.inr h
  have htail : b ∉ (levelStep map (-1) 0 (initialState map a ws)).tail := by
    rw [e1]
    simp only [List.append_nil]
    intro hb
    rcases hnew b hb with h | h
    · exact hba h
    · exact hbb h
  have hpart : ∀ s, episode map (-1) a ws fuel = some s →
      (a, 0) ∈ s.counted ∧ ∀ m, (b, m) ∉ s.counted := by
    intro s hs
    cases fuel with
    | zero => simp [episode, search] at hs
    | succ fuel =>
      rw [episode_unfold] at hs
      refine ⟨search_counted_mono map (-1) (a, 0) fuel 1 _ s (by rw [i4]; simp) hs, ?_⟩
      apply search_consumed map (-1) b fuel 1 _ s hmisc htail _ hs
      intro m hm
      rw [i4] at hm
      simp only [List.mem_singleton, Prod.mk.injEq] at hm
      exact hne hm.1
  refine ⟨hpart, ?_, ?_⟩
  · intro hca hcb hfuel
    have hempty : (levelStep map (-1) 0 (initialState map a ws)).tail = [] := by
      rw [e1]
      simp only [List.append_nil]
      apply List.eq_nil_iff_forall_not_mem.2
      intro c hc'
      rcases hnew c hc' with h | h
      · rw [hca] at h; cases h
      · rw [hcb] at h; cases h
    obtain ⟨f, rfl⟩ : ∃ f, fuel = f + 1 + 1 := ⟨fuel - 2, by omega⟩
    refine ⟨_, by rw [episode_unfold, search_of_empty _ _ _ _ _ hempty], i1, i2, ?_⟩
    unfold SearchState.depthDistribution
    rw [i3]
    rfl
  · intro hwf
    obtain ⟨m1, m2, m3, m4⟩ := merge_root_level_one map hwf a b ws ha hfa hmerge hne
    refine ⟨m1, m2, i4, m3, m4, fun hfuel => ?_⟩
    obtain ⟨s, hs⟩ := episode_completes map hwf (-1) a ws fuel ha hfuel
    exact ⟨s, hs, hpart s hs⟩

/-- Witness for C5 (amended): the grid of the two merged cells, and the grid
in which the partner `(1,0)` of the root `(0,0)` sees `(2,0)`: there level 1
is `(2,0)`, the root is counted and the partner is not. -/
theorem merge_partner_consumed_not_counted_witness :
    (∃ s, episode mergePairGrid (-1) ⟨0, 0⟩ zeroWorkspace 4 = some s ∧
      ((⟨0, 0⟩ : PixelRef), 0) ∈ s.counted ∧
      (∀ m, ((⟨1, 0⟩ : PixelRef), m) ∉ s.counted) ∧
      s.total_nodes = 1 ∧ s.total_depth = 0 ∧ s.depthDistribution = [1]) ∧
    (∃ s, episode mergeSeesGrid (-1) ⟨0, 0⟩ zeroWorkspace 5 = some s ∧
      ((⟨0, 0⟩ : PixelRef), 0) ∈ s.counted ∧
      (∀ m, ((⟨1, 0⟩ : PixelRef), m) ∉ s.counted) ∧
      (levelState mergeSeesGrid (-1) ⟨0, 0⟩ zeroWorkspace 1).ws.miscs ⟨1, 0⟩ = allOnes ∧
      ∀ c, c ∈ (levelState mergeSeesGrid (-1) ⟨0, 0⟩ zeroWorkspace 1).tail ↔
        (c ∈ (mergeSeesGrid.getPoint ⟨0, 0⟩).getNode.cells ∨
          (c ∈ (mergeSeesGrid.getPoint ⟨1, 0⟩).getNode.cells ∧ c ≠ ⟨0, 0⟩))) := by
  constructor
  · obtain ⟨h1, h2, _⟩ := merge_partner_consumed_not_counted mergePairGrid ⟨0, 0⟩ ⟨1, 0⟩
      zeroWorkspace 4 (by decide) rfl rfl (by decide) (by decide) (by decide)
    obtain ⟨s, hs, a1, a2, a3⟩ := h2 (by decide) (by decide) (by decide)
    exact ⟨s, hs, (h1 s hs).1, (h1 s hs).2, a1, a2, a3⟩
  · obtain ⟨_, _, h3⟩ := merge_partner_consumed_not_counted mergeSeesGrid ⟨0, 0⟩ ⟨1, 0⟩
      zeroWorkspace 5 (by decide) rfl rfl (by decide) (by decide) (by decide)
    obtain ⟨_, m2, _, _, m5, m6⟩ := h3 wellFormed_mergeSeesGrid
    obtain ⟨s, hs, c1, c2⟩ := m6 (by decide)
    exact ⟨s, hs, c1, c2, m2, m5⟩

/-- The loops alone, for the isolated filled cell in full mode and a sink
that holds 7 everywhere when the loops start: node count 1 and the sentinel
-1 are written to the mean depth, entropy and relativised entropy columns,
and the three integration columns keep 7, the loops write nothing to them. -/
theorem isolated_cell_integration_columns_not_written :
    (run unitFns singleCellGrid ⟨-1, false⟩ false 3 zeroWorkspace (fun _ _ => 7)).map
      (fun r => (r.count,
        [Col.count_col, Col.depth_col, Col.entropy_col, Col.rel_entropy_col,
          Col.integ_dv_col, Col.integ_pv_col, Col.integ_tk_col].map (r.attributes ⟨0, 0⟩)))
      = some (1, [1, -1, -1, -1, 7, 7, 7]) := by
  decide

/-- C7, counterexample. On the chain grid (no merge link, the only other
filled cell `(1,0)` lies on a run of the root `(0,0)`) the episode yields 2
nodes and total depth 1 with the distribution `[1, 1, 0]`, not `[1, 1]`:
the unfilled cell seen from `(1,0)` opens a third, empty bucket. -/
theorem chain_distribution_has_empty_last_bucket :
    (∀ c ∈ gridCells chainGrid, (chainGrid.getPoint c).getMergePixel = none) ∧
    (chainGrid.getPoint ⟨0, 0⟩).filled = true ∧
    (∀ c ∈ gridCells chainGrid, (chainGrid.getPoint c).filled = true → c ≠ ⟨0, 0⟩ →
      c ∈ (chainGrid.getPoint ⟨0, 0⟩).getNode.cells) ∧
    (episode chainGrid (-1) ⟨0, 0⟩ zeroWorkspace 5).map
        (fun s => (s.total_nodes, s.total_depth, s.depthDistribution)) = some (2, 1, [1, 1, 0]) ∧
    (episode chainGrid (-1) ⟨0, 0⟩ zeroWorkspace 5).map
        (fun s => (s.total_nodes, s.total_depth, s.depthDistribution)) ≠ some (2, 1, [1, 1]) := by
  decide

/-- C7, amended. On a grid with runs inside the grid and without merge links,
when every other filled cell of the grid lies on a run of the filled root,
the episode with unlimited radius completes with `N` = the number of filled
cells of the grid and `D = N - 1`.  The distribution is `[1]` (and `N = 1`)
when the root sees no cell; it is `[1, N - 1]` when the root sees a cell
and no filled cell on its runs sees a cell not seen by the root; it is
`[1, N - 1, 0]`, with one empty bucket more, when a filled cell on a run of
the root sees a cell that is neither the root nor on a run of the root; such
a cell is not filled.  In full mode, when `N > 1`, the mean depth written is
exactly 1 and the three integration columns receive -1. -/
theorem root_seeing_all_filled_cells (map : PointMap) (root : PixelRef) (ws : Workspace)
    (fuel : Nat) (fns : MathFns) (attributes : AttributeTable)
    (hwf : WellFormed map) (hroot : map.inGrid root)
    (hfilled : (map.getPoint root).filled = true)
    (hnomerge : ∀ c, map.inGrid c → (map.getPoint c).getMergePixel = none)
    (hsees : ∀ c, map.inGrid c → (map.getPoint c).filled = true → c ≠ root →
      c ∈ (map.getPoint root).getNode.cells)
    (hfuel : map.getCols * map.getRows + 2 ≤ fuel) :
    ∃ s, episode map (-1) root ws fuel = some s ∧
      s.total_nodes = ((gridCells map).filter (fun c => (map.getPoint c).filled)).length ∧
      s.total_depth = s.total_nodes - 1 ∧
      ((s.depthDistribution = [1] ∧ s.total_nodes = 1) ∨
        s.depthDistribution = [1, s.total_nodes - 1] ∨
        s.depthDistribution = [1, s.total_nodes - 1, 0]) ∧
      ((map.getPoint root).getNode.cells = [] →
        s.depthDistribution = [1] ∧ s.total_nodes = 1) ∧
      ((map.getPoint root).getNode.cells ≠ [] → ¬ SeesBeyond map root →
        s.depthDistribution = [1, s.total_nodes - 1]) ∧
      (SeesBeyond map root → s.depthDistribution = [1, s.total_nodes - 1, 0]) ∧
      (∀ c, map.inGrid c → c ∉ (map.getPoint root).getNode.cells → c ≠ root →
        (map.getPoint c).filled = false) ∧
      (1 < s.total_nodes →
        writeMetrics fns false root s.total_nodes s.total_depth s.depthDistribution attributes
            root Col.depth_col = 1 ∧
        writeMetrics fns false root s.total_nodes s.total_depth s.depthDistribution attributes
            root Col.integ_dv_col = -1 ∧
        writeMetrics fns false root s.total_nodes s.total_depth s.depthDistribution attributes
            root Col.integ_pv_col = -1 ∧
        writeMetrics fns false root s.total_nodes s.total_depth s.depthDistribution attributes
            root Col.integ_tk_col = -1) := by
  obtain ⟨s, hs⟩ := episode_completes map hwf (-1) root ws fuel hroot hfuel
  obtain ⟨hN, hD, hshape⟩ :=
    root_sees_all_result map hwf root hroot hfilled hnomerge hsees ws fuel s hs
  obtain ⟨g1, g2, g3⟩ :=
    root_sees_all_shape map hwf root hroot hfilled hnomerge hsees ws fuel s hs
  refine ⟨s, hs, hN, hD, hshape, g1, g2, g3, ?_, ?_⟩
  · intro c hc hnc hcr
    cases hf : (map.getPoint c).filled with
    | false => rfl
    | true => exact absurd (hsees c hc hf hcr) hnc
  intro h1
  have hmd : (s.total_depth : Rat) / ((s.total_nodes : Rat) - 1) = 1 := by
    have hcast : (s.total_depth : Rat) = (s.total_nodes : Rat) - 1 := by
      rw [hD, Nat.cast_sub (by omega)]
      simp
    have hne : (s.total_nodes : Rat) - 1 ≠ 0 := by
      have : (1 : Rat) < (s.total_nodes : Rat) := by exact_mod_cast h1
      linarith
    rw [hcast, div_self hne]
  have hbranch : ¬ (2 < s.total_nodes ∧
      1 < (s.total_depth : Rat) / ((s.total_nodes : Rat) - 1)) := by
    rw [hmd]
    rintro ⟨_, h⟩
    exact lt_irrefl _ h
  refine ⟨?_, writeMetrics_integ_sentinel fns root _ _ _ attributes h1 hbranch⟩
  rw [writeMetrics_depth fns root _ _ _ attributes h1, hmd]

/-- Witness for C7 (amended): the centre of the full 3 x 3 grid, where no
cell sees beyond the root: 9 nodes, total depth 8, distribution `[1, 8]`. -/
theorem root_seeing_all_filled_cells_witness :
    ∃ s, episode fullGrid3 (-1) ⟨1, 1⟩ zeroWorkspace 11 = some s ∧
      s.total_nodes = 9 ∧ s.total_depth = 8 ∧ s.depthDistribution = [1, 8] ∧
      writeMetrics unitFns false ⟨1, 1⟩ s.total_nodes s.total_depth s.depthDistribution
          (fun _ _ => 0) ⟨1, 1⟩ Col.depth_col = 1 ∧
      writeMetrics unitFns false ⟨1, 1⟩ s.total_nodes s.total_depth s.depthDistribution
          (fun _ _ => 0) ⟨1, 1⟩ Col.integ_dv_col = -1 ∧
      writeMetrics unitFns false ⟨1, 1⟩ s.total_nodes s.total_depth s.depthDistribution
          (fun _ _ => 0) ⟨1, 1⟩ Col.integ_pv_col = -1 ∧
      writeMetrics unitFns false ⟨1, 1⟩ s.total_nodes s.total_depth s.depthDistribution
          (fun _ _ => 0) ⟨1, 1⟩ Col.integ_tk_col = -1 := by
  obtain ⟨s, hs, hN, hD, _, _, h2, _, _, hw⟩ :=
    root_seeing_all_filled_cells fullGrid3 ⟨1, 1⟩ zeroWorkspace 11 unitFns (fun _ _ => 0)
      wellFormed_fullGrid3 (by decide) rfl noMerge_fullGrid3 fullGrid3_centre_sees_all
      (by decide)
  have hcount : ((gridCells fullGrid3).filter
      (fun c => (fullGrid3.getPoint c).filled)).length = 9 := by decide
  have hN9 : s.total_nodes = 9 := by rw [hN, hcount]
  have hbeyond : ¬ SeesBeyond fullGrid3 ⟨1, 1⟩ := by
    rintro ⟨u, c, _, _, _, hc, hnc, _⟩
    exact hnc hc
  have hdd := h2 (by decide) hbeyond
  rw [hN9] at hdd
  exact ⟨s, hs, hN9, by rw [hD, hN9], hdd, hw (by rw [hN9]; decide)⟩

/-- C8. In full mode, with `N > 2` and mean depth `D / (N - 1) > 1`, the HH and
P-value columns receive `1 / (ra / dvalue N)` and `1 / (ra / pvalue N)` with
`ra = 2 (mean depth - 1) / (N - 2)`, and the Tekl column receives -1 when
`D - N + 1 ≤ 1` (which in this branch means `D = N`) and `teklinteg N D`
otherwise; with `N = 2`, or `N > 2` and mean depth `≤ 1`, the three
integration columns receive -1. -/
theorem integration_columns_by_branch (fns : MathFns) (row : PixelRef)
    (total_nodes total_depth : Nat) (distribution : List Nat) (attributes : AttributeTable) :
    (2 < total_nodes → 1 < (total_depth : Rat) / ((total_nodes : Rat) - 1) →
      writeMetrics fns false row total_nodes total_depth distribution attributes row
          Col.integ_dv_col
        = 1 / (2 * ((total_depth : Rat) / ((total_nodes : Rat) - 1) - 1)
                / ((total_nodes : Rat) - 2) / fns.dvalue total_nodes) ∧
      writeMetrics fns false row total_nodes total_depth distribution attributes row
          Col.integ_pv_col
        = 1 / (2 * ((total_depth : Rat) / ((total_nodes : Rat) - 1) - 1)
                / ((total_nodes : Rat) - 2) / fns.pvalue total_nodes) ∧
      writeMetrics fns false row total_nodes total_depth distribution attributes row
          Col.integ_tk_col
        = (if (total_depth : Int) - (total_nodes : Int) + 1 ≤ 1 then -1
            else fns.teklinteg total_nodes total_depth) ∧
      ((total_depth : Int) - (total_nodes : Int) + 1 ≤ 1 ↔ total_depth = total_nodes)) ∧
    ((total_nodes = 2 ∨
        (2 < total_nodes ∧ (total_depth : Rat) / ((total_nodes : Rat) - 1) ≤ 1)) →
      writeMetrics fns false row total_nodes total_depth distribution attributes row
          Col.integ_dv_col = -1 ∧
      writeMetrics fns false row total_nodes total_depth distribution attributes row
          Col.integ_pv_col = -1 ∧
      writeMetrics fns false row total_nodes total_depth distribution attributes row
          Col.integ_tk_col = -1) := by
  constructor
  · intro hN hmd
    obtain ⟨a1, a2, a3⟩ :=
      writeMetrics_integ_values fns row total_nodes total_depth distribution attributes hN hmd
    refine ⟨a1, a2, a3, ?_⟩
    have := (mean_depth_gt_one_iff total_nodes total_depth (by omega)).1 hmd
    omega
  · intro h
    apply writeMetrics_integ_sentinel fns row total_nodes total_depth distribution attributes
    · rcases h with h | ⟨h, _⟩ <;> omega
    · rintro ⟨h2, hmd⟩
      rcases h with h | ⟨_, h⟩
      · omega
      · exact absurd hmd (not_lt.2 h)

/-- Witness for C8: three nodes at total depth 3 take the Tekl sentinel. -/
theorem integration_columns_by_branch_witness :
    writeMetrics unitFns false ⟨0, 0⟩ 3 3 [1, 1, 1] (fun _ _ => 0) ⟨0, 0⟩ Col.integ_tk_col
        = (if ((3 : Nat) : Int) - ((3 : Nat) : Int) + 1 ≤ 1 then -1
            else unitFns.teklinteg (3 : Nat) (3 : Nat)) ∧
    writeMetrics unitFns false ⟨0, 0⟩ 2 1 [1, 1] (fun _ _ => 0) ⟨0, 0⟩ Col.integ_dv_col = -1 :=
  ⟨((integration_columns_by_branch unitFns ⟨0, 0⟩ 3 3 [1, 1, 1] (fun _ _ => 0)).1
      (by decide) (by norm_num)).2.2.1,
    ((integration_columns_by_branch unitFns ⟨0, 0⟩ 2 1 [1, 1] (fun _ _ => 0)).2
      (Or.inl rfl)).1⟩

/-- C9, the code at the failing input. For the distribution `[1, 1]` (two
nodes, mean depth 1) the only contributing bucket is `k = 1`, and the
factorial variable that divides `mean_depth ^ 1` there is 2, not `1! = 1`:
the loop multiplies by `k + 1`. -/
theorem relativised_entropy_divisor_is_shifted :
    (entropyLoop unitFns 1 2 1 (([1, 1] : List Nat).drop 1) ⟨0, 0, 1⟩).factorial = 2 ∧
    (2 : Rat) ≠ (Nat.factorial 1 : Rat) := by
  constructor
  · have := entropyLoop_factorial unitFns 1 2 [1] 1 ⟨0, 0, 1⟩ (by simp) (by simp)
    simp only [List.drop_succ_cons, List.drop_zero]
    rw [this]
    norm_num [Nat.factorial]
  · norm_num [Nat.factorial]

/-- C10. With `gates_only` the run (not cancelled) completes for any fuel,
even 0, at which no episode could run: the workspace and the attribute sink
come back unchanged and the counter ends at `getCols * getRows`.  For every
option setting a completed run has advanced the counter once per cell of the
grid, ending at `getCols * getRows`, and on a grid with runs and merge
partners inside the grid the run completes once the fuel reaches
`getCols * getRows + 2`. -/
theorem gates_only_skips_and_progress_counts_cells (fns : MathFns) (map : PointMap)
    (options : Options) (simple_version : Bool) (fuel : Nat) (ws : Workspace)
    (attributes : AttributeTable) :
    (options.gates_only = true →
      run fns map options simple_version fuel ws attributes
        = some { count := map.getCols * map.getRows, ws := ws, attributes := attributes }) ∧
    (∀ r, run fns map options simple_version fuel ws attributes = some r →
      r.count = map.getCols * map.getRows) ∧
    (WellFormed map → map.getCols * map.getRows + 2 ≤ fuel →
      ∃ r, run fns map options simple_version fuel ws attributes = some r) := by
  refine ⟨?_, ?_, ?_⟩
  · intro hg
    unfold run
    rw [runLoop_gates fns map options simple_version fuel hg, length_gridCells]
    simp
  · intro r hr
    unfold run at hr
    rw [runLoop_count fns map options simple_version fuel _ _ r hr, length_gridCells]
    simp
  · intro hwf hfuel
    exact runLoop_completes fns map hwf options simple_version fuel hfuel (gridCells map) _
      (fun c hc => (mem_gridCells map c).1 hc)

/-- Witness for C10: the full 3 x 3 grid, with and without `gates_only`. -/
theorem gates_only_skips_and_progress_counts_cells_witness :
    run unitFns fullGrid3 ⟨-1, true⟩ false 0 zeroWorkspace (fun _ _ => 0)
      = some { count := 3 * 3, ws := zeroWorkspace, attributes := fun _ _ => 0 } ∧
    ∃ r, run unitFns fullGrid3 ⟨-1, false⟩ false 11 zeroWorkspace (fun _ _ => 0) = some r ∧
      r.count = 3 * 3 := by
  refine ⟨(gates_only_skips_and_progress_counts_cells unitFns fullGrid3 ⟨-1, true⟩ false 0
    zeroWorkspace (fun _ _ => 0)).1 rfl, ?_⟩
  obtain ⟨_, h2, h3⟩ := gates_only_skips_and_progress_counts_cells unitFns fullGrid3
    ⟨-1, false⟩ false 11 zeroWorkspace (fun _ _ => 0)
  obtain ⟨r, hr⟩ := h3 wellFormed_fullGrid3 (by decide)
  exact ⟨r, hr, h2 r hr⟩

/-- C11 counterexample. On the three-cell grid `mergeOrderGrid` with radius 2
the source, which walks level 1 from its newest cell, counts 2 cells (total
depth 1, distribution [1, 1]): it visits `(2,0)` first, whose expansion
consumes its merge partner `(1,0)`.  Processing the same level in the
opposite order counts 3 cells (total depth 2, distribution [1, 2]): the
context-filled odd cell `(1,0)` is counted without being expanded before
`(2,0)` is reached.  The grid keeps its runs and merge partners inside. -/
theorem level_order_changes_totals_with_merge :
    WellFormed mergeOrderGrid ∧
    ValidOrders (List.range 32) (fun _ l => l.reverse) ∧
    (episode mergeOrderGrid 2 ⟨0, 0⟩ zeroWorkspace 5).map
        (fun s => (s.total_nodes, s.total_depth, s.depthDistribution))
      = some (2, 1, [1, 1]) ∧
    (episodeIn (List.range 32) (fun _ l => l.reverse) mergeOrderGrid 2 ⟨0, 0⟩
        zeroWorkspace 5).map
        (fun s => (s.total_nodes, s.total_depth, s.depthDistribution))
      = some (3, 2, [1, 2]) :=
  ⟨wellFormed_mergeOrderGrid, ⟨List.Perm.refl _, fun _ l => List.reverse_perm l⟩,
    by decide, by decide⟩

/-- C11 (amended). On a grid without merge links whose runs lie inside the
grid, for every radius and context-fill configuration, every root of the
grid, every order `order` of the 32 bins and every rearrangement `reorder k`
of each frontier level: whenever the source's episode completes, the episode
under the other orders completes with the same N, the same D, the same depth
distribution and the same counted cells with the same depths; and the
source's episode does complete within `getCols * getRows + 2` levels. -/
theorem totals_independent_of_order_without_merge (map : PointMap) (hwf : WellFormed map)
    (hnomerge : ∀ c, map.inGrid c → (map.getPoint c).getMergePixel = none)
    (radius : Int) (curs : PixelRef) (hgrid : map.inGrid curs) (ws : Workspace) (fuel : Nat)
    (order : List Nat) (reorder : Nat → List PixelRef → List PixelRef)
    (hvalid : ValidOrders order reorder) :
    (∀ s, episode map radius curs ws fuel = some s →
      ∃ s', episodeIn order reorder map radius curs ws fuel = some s' ∧
        s'.total_nodes = s.total_nodes ∧ s'.total_depth = s.total_depth ∧
        s'.depthDistribution = s.depthDistribution ∧
        ∀ p, p ∈ s'.counted ↔ p ∈ s.counted) ∧
    (map.getCols * map.getRows + 2 ≤ fuel → ∃ s, episode map radius curs ws fuel = some s) := by
  refine ⟨?_, fun hfuel => episode_completes map hwf radius curs ws fuel hgrid hfuel⟩
  intro s hs
  obtain ⟨s', hs', _, _, _, e4, e5, e6, e7⟩ :=
    episodeIn_equiv order reorder hvalid map hwf hnomerge radius curs hgrid ws fuel s hs
  refine ⟨s', hs', e5.symm, e4.symm, ?_, fun p => e7.symm.mem_iff⟩
  unfold SearchState.depthDistribution
  rw [e6]

/-- Witness for C11 (amended): the centre of the full 3 x 3 grid, with the
bins and every level taken in reverse. -/
theorem totals_independent_of_order_without_merge_witness :
    ∃ s, episode fullGrid3 (-1) ⟨1, 1⟩ zeroWorkspace 11 = some s ∧
      ∃ s', episodeIn (List.range 32).reverse (fun _ l => l.reverse) fullGrid3 (-1) ⟨1, 1⟩
          zeroWorkspace 11 = some s' ∧
        s'.total_nodes = s.total_nodes ∧ s'.total_depth = s.total_depth ∧
        s'.depthDistribution = s.depthDistribution ∧
        ∀ p, p ∈ s'.counted ↔ p ∈ s.counted := by
  obtain ⟨h1, h2⟩ := totals_independent_of_order_without_merge fullGrid3 wellFormed_fullGrid3
    noMerge_fullGrid3 (-1) ⟨1, 1⟩ (by decide) zeroWorkspace 11 (List.range 32).reverse
    (fun _ l => l.reverse) ⟨List.reverse_perm _, fun _ l => List.reverse_perm l⟩
  obtain ⟨s, hs⟩ := h2 (by decide)
  exact ⟨s, hs, h1 s hs⟩

/-- C12. For every radius the column names are registered in strictly
increasing lexicographic order (every earlier name is smaller than every
later one), in full and in simple mode; in full mode the names are exactly
Visual Entropy, Visual Integration [HH], Visual Integration [P-value],
Visual Integration [Tekl], Visual Mean Depth, Visual Node Count and Visual
Relativised Entropy, each followed by the radius text; in simple mode the
only name is Visual Integration [HH] followed by the radius text; the radius
text is empty for radius -1 and otherwise " R" followed by the formatted
radius. -/
theorem registered_columns_strictly_increasing (radius : Int) :
    (∀ simple_version : Bool,
      (registeredColumns radius simple_version).Pairwise (fun a b => a < b)) ∧
    registeredColumns radius false =
      ["Visual Entropy" ++ radius_text radius,
        "Visual Integration [HH]" ++ radius_text radius,
        "Visual Integration [P-value]" ++ radius_text radius,
        "Visual Integration [Tekl]" ++ radius_text radius,
        "Visual Mean Depth" ++ radius_text radius,
        "Visual Node Count" ++ radius_text radius,
        "Visual Relativised Entropy" ++ radius_text radius] ∧
    registeredColumns radius true = ["Visual Integration [HH]" ++ radius_text radius] ∧
    radius_text radius = (if radius = -1 then "" else " R" ++ formatString radius) :=
  ⟨fun simple_version => registeredColumns_pairwise radius simple_version, rfl, rfl, by
    unfold radius_text
    by_cases h : radius = -1
    · simp [h]
    · simp [h]⟩

/-- C13. The result of an episode does not depend on what the scratch
workspace held before it.  The episode begins by setting the visited marker
of every cell of the grid to 0 and its extent to the cell itself; hence (for
every grid) two workspaces that differ only at positions of the grid give
the same episode, and on a grid whose runs and merge partners lie inside the
grid any two workspaces whatsoever give the same N, D, depth distribution
and counted cells, for every radius and every root of the grid; such an
episode completes within `getCols * getRows + 2` levels. -/
theorem episode_result_independent_of_prior_workspace (map : PointMap) (radius : Int)
    (curs : PixelRef) (hgrid : map.inGrid curs) (ws1 ws2 : Workspace) (fuel : Nat) :
    (∀ c, map.inGrid c →
      (initialState map curs ws1).ws.miscs c = 0 ∧
        (initialState map curs ws1).ws.extents c = c) ∧
    ((∀ c, ¬ map.inGrid c → ws1.miscs c = ws2.miscs c ∧ ws1.extents c = ws2.extents c) →
      episode map radius curs ws1 fuel = episode map radius curs ws2 fuel) ∧
    (WellFormed map →
      (∀ s1, episode map radius curs ws1 fuel = some s1 →
        ∃ s2, episode map radius curs ws2 fuel = some s2 ∧
          s2.total_nodes = s1.total_nodes ∧ s2.total_depth = s1.total_depth ∧
          s2.depthDistribution = s1.depthDistribution ∧ s2.counted = s1.counted) ∧
      (map.getCols * map.getRows + 2 ≤ fuel →
        ∃ s1, episode map radius curs ws1 fuel = some s1)) := by
  refine ⟨?_, ?_, ?_⟩
  · intro c hc
    simp [initialState, resetWorkspace, hc]
  · intro h
    have : resetWorkspace map ws1 = resetWorkspace map ws2 := by
      unfold resetWorkspace
      congr 1
      · funext p
        by_cases hp : map.inGrid p
        · simp [hp]
        · simp [hp, (h p hp).1]
      · funext p
        by_cases hp : map.inGrid p
        · simp [hp]
        · simp [hp, (h p hp).2]
    unfold episode initialState
    rw [this]
  · intro hwf
    refine ⟨?_, fun hfuel => episode_completes map hwf radius curs ws1 fuel hgrid hfuel⟩
    intro s1 hs1
    obtain ⟨s2, hs2, _, _, e3, e4, e5, e6⟩ :=
      episode_agree map hwf radius curs hgrid ws1 ws2 fuel s1 hs1
    refine ⟨s2, hs2, e4.symm, e3.symm, ?_, e6.symm⟩
    unfold SearchState.depthDistribution
    rw [e5]

/-- Witness for C13: the centre of the full 3 x 3 grid, from the clean
workspace and from one holding 7 in every marker and `(0,0)` in every
extent. -/
theorem episode_result_independent_of_prior_workspace_witness :
    ∃ s1, episode fullGrid3 (-1) ⟨1, 1⟩ zeroWorkspace 11 = some s1 ∧
      ∃ s2, episode fullGrid3 (-1) ⟨1, 1⟩ ⟨fun _ => 7, fun _ => ⟨0, 0⟩⟩ 11 = some s2 ∧
        s2.total_nodes = s1.total_nodes ∧ s2.total_depth = s1.total_depth ∧
        s2.depthDistribution = s1.depthDistribution ∧ s2.counted = s1.counted := by
  obtain ⟨_, _, h⟩ := episode_result_independent_of_prior_workspace fullGrid3 (-1) ⟨1, 1⟩
    (by decide) zeroWorkspace ⟨fun _ => 7, fun _ => ⟨0, 0⟩⟩ 11
  obtain ⟨h1, h2⟩ := h wellFormed_fullGrid3
  obtain ⟨s1, hs1⟩ := h2 (by decide)
  exact ⟨s1, hs1, h1 s1 hs1⟩

/-- C15. For every completed episode from a filled root of the grid: D is
the sum over `k` of `k * distribution[k]`; every counted cell other than the
root has depth at least 1, so `D ≥ N - 1`, with equality exactly when every
counted cell other than the root is at depth 1; and when `N > 1` the mean
depth written in full mode is the exact quotient `D / (N - 1)`, which is at
least 1.  On a grid whose runs and merge partners lie inside the grid the
episode completes within `getCols * getRows + 2` levels. -/
theorem mean_depth_is_quotient_and_at_least_one (fns : MathFns) (map : PointMap)
    (radius : Int) (curs : PixelRef) (ws : Workspace) (fuel : Nat) (hgrid : map.inGrid curs)
    (hfilled : (map.getPoint curs).filled = true) (attributes : AttributeTable) :
    (∀ s, episode map radius curs ws fuel = some s →
      s.total_depth
        = ∑ k ∈ Finset.range s.depthDistribution.length, k * s.depthDistribution.getD k 0 ∧
      (∀ p ∈ s.counted, p ≠ (curs, 0) → 1 ≤ p.2) ∧
      s.total_nodes - 1 ≤ s.total_depth ∧
      (s.total_depth = s.total_nodes - 1 ↔ ∀ p ∈ s.counted, p ≠ (curs, 0) → p.2 = 1) ∧
      (1 < s.total_nodes →
        writeMetrics fns false curs s.total_nodes s.total_depth s.depthDistribution
            attributes curs Col.depth_col
          = (s.total_depth : Rat) / ((s.total_nodes : Rat) - 1) ∧
        (1 : Rat) ≤ (s.total_depth : Rat) / ((s.total_nodes : Rat) - 1))) ∧
    (WellFormed map → map.getCols * map.getRows + 2 ≤ fuel →
      ∃ s, episode map radius curs ws fuel = some s) := by
  refine ⟨?_, fun hwf hfuel => episode_completes map hwf radius curs ws fuel hgrid hfuel⟩
  intro s hs
  obtain ⟨h1, h2⟩ := episode_nonroot_depth map radius curs ws fuel hgrid hfilled s hs
  obtain ⟨h3, _, _⟩ := episode_depth_ge map radius curs ws fuel hgrid hfilled s hs
  exact ⟨episode_depth_weighted map radius curs ws fuel s hs, h1, h3, h2, fun hN =>
    ⟨writeMetrics_depth fns curs s.total_nodes s.total_depth s.depthDistribution attributes hN,
      mean_depth_ge_one s.total_nodes s.total_depth hN h3⟩⟩

/-- Witness for C15: the centre of the full 3 x 3 grid. -/
theorem mean_depth_is_quotient_and_at_least_one_witness :
    ∃ s, episode fullGrid3 (-1) ⟨1, 1⟩ zeroWorkspace 11 = some s ∧
      s.total_nodes - 1 ≤ s.total_depth ∧
      (1 < s.total_nodes →
        writeMetrics unitFns false ⟨1, 1⟩ s.total_nodes s.total_depth s.depthDistribution
            (fun _ _ => 0) ⟨1, 1⟩ Col.depth_col
          = (s.total_depth : Rat) / ((s.total_nodes : Rat) - 1) ∧
        (1 : Rat) ≤ (s.total_depth : Rat) / ((s.total_nodes : Rat) - 1)) := by
  obtain ⟨h1, h2⟩ := mean_depth_is_quotient_and_at_least_one unitFns fullGrid3 (-1) ⟨1, 1⟩
    zeroWorkspace 11 (by decide) rfl (fun _ _ => 0)
  obtain ⟨s, hs⟩ := h2 wellFormed_fullGrid3 (by decide)
  exact ⟨s, hs, (h1 s hs).2.2.1, (h1 s hs).2.2.2.2⟩

/-- C16. Within one episode (any grid, radius, merge links and context
fill): a marker equal to `~0` is still `~0` after any further visit, and the
cell gains no entry in the log of counted cells; the same holds from the end
of level `j` to the end of any later level; when a counted cell is expanded
its merge partner is `~0` afterwards, hence never counted afterwards; in a
completed episode no cell is counted twice and N is the number of counted
cells; and on a grid whose runs and merge partners lie inside the grid, N of
a completed episode from a cell of the grid is at most the number of filled
cells of the grid, and the episode completes within
`getCols * getRows + 2` levels. -/
theorem consumed_stays_consumed_and_counted_once (map : PointMap) (radius : Int)
    (curs : PixelRef) (ws : Workspace) (fuel : Nat) :
    (∀ (level : Nat) (t : SearchState) (ref b : PixelRef), t.ws.miscs b = allOnes →
      (visit map radius level t ref).ws.miscs b = allOnes ∧
        ∀ m, (b, m) ∈ (visit map radius level t ref).counted → (b, m) ∈ t.counted) ∧
    (∀ (b : PixelRef) (j k : Nat), j ≤ k →
      (levelState map radius curs ws j).ws.miscs b = allOnes →
      (levelState map radius curs ws k).ws.miscs b = allOnes ∧
        ∀ m, (b, m) ∈ (levelState map radius curs ws k).counted →
          (b, m) ∈ (levelState map radius curs ws j).counted) ∧
    (∀ (level : Nat) (t : SearchState) (ref b : PixelRef),
      (map.getPoint ref).getMergePixel = some b → Counts map t ref →
      Expands map radius level ref →
      (visit map radius level t ref).ws.miscs b = allOnes) ∧
    (∀ s, episode map radius curs ws fuel = some s →
      (s.counted.map Prod.fst).Nodup ∧ s.total_nodes = s.counted.length ∧
      (∀ p ∈ s.counted, s.ws.miscs p.1 = allOnes) ∧
      (WellFormed map → map.inGrid curs →
        s.total_nodes ≤ ((gridCells map).filter (fun c => (map.getPoint c).filled)).length)) ∧
    (WellFormed map → map.inGrid curs → map.getCols * map.getRows + 2 ≤ fuel →
      ∃ s, episode map radius curs ws fuel = some s) := by
  refine ⟨?_, ?_, ?_, ?_, ?_⟩
  · intro level t ref b hb
    have := foldl_visit_no_recount map radius level b [ref] t hb
    simpa using this
  · intro b j k hjk hb
    exact levelState_no_recount map radius curs ws b j hb k hjk
  · intro level t ref b hm hc he
    exact visit_merge_consumed_of_expands map radius level t ref b hm hc he
  · intro s hs
    obtain ⟨h1, h2⟩ := episode_counted_distinct map radius curs ws fuel s hs
    exact ⟨h1, (episode_counters map radius curs ws fuel s hs).1, h2, fun hwf hgrid =>
      episode_nodes_le_filled map hwf radius curs ws fuel hgrid s hs⟩
  · intro hwf hgrid hfuel
    exact episode_completes map hwf radius curs ws fuel hgrid hfuel

/-- Witness for C16: on the merge pair grid the root `(0,0)` is counted and
expanded, so its partner `(1,0)` is consumed by the first visit. -/
theorem consumed_stays_consumed_and_counted_once_witness :
    (visit mergePairGrid (-1) 0 (initialState mergePairGrid ⟨0, 0⟩ zeroWorkspace)
      ⟨0, 0⟩).ws.miscs ⟨1, 0⟩ = allOnes :=
  (consumed_stays_consumed_and_counted_once mergePairGrid (-1) ⟨0, 0⟩ zeroWorkspace 5).2.2.1
    0 (initialState mergePairGrid ⟨0, 0⟩ zeroWorkspace) ⟨0, 0⟩ ⟨1, 0⟩ rfl
    (And.intro rfl (by decide)) (Or.inl rfl)

/-- C17. For every completed episode from a filled root of the grid (any
radius, merge links and context fill): bucket 0 of the depth distribution is
1 and the root is the only cell counted at depth 0; the buckets at depth 1
and more sum to `N - 1`; and when `N > 1` every probability
`distribution[k] / (N - 1)` of a non-empty bucket `k ≥ 1` (the ones the
entropy loop uses) lies in (0, 1], and the probabilities of all buckets
`k ≥ 1` sum to exactly 1.  On a grid whose runs and merge partners lie
inside the grid the episode completes within `getCols * getRows + 2`
levels. -/
theorem root_bucket_is_one_and_probabilities_sum_to_one (map : PointMap) (radius : Int)
    (curs : PixelRef) (ws : Workspace) (fuel : Nat) (hgrid : map.inGrid curs)
    (hfilled : (map.getPoint curs).filled = true) :
    (∀ s, episode map radius curs ws fuel = some s →
      s.depthDistribution.getD 0 0 = 1 ∧
      (∀ p ∈ s.counted, p.2 = 0 → p = (curs, 0)) ∧
      (s.depthDistribution.drop 1).sum = s.total_nodes - 1 ∧
      (1 < s.total_nodes →
        (∀ d ∈ s.depthDistribution.drop 1, 0 < d →
          0 < (d : Rat) / ((s.total_nodes : Rat) - 1) ∧
            (d : Rat) / ((s.total_nodes : Rat) - 1) ≤ 1) ∧
        ((s.depthDistribution.drop 1).map
          (fun (d : Nat) => (d : Rat) / ((s.total_nodes : Rat) - 1))).sum = 1)) ∧
    (WellFormed map → map.getCols * map.getRows + 2 ≤ fuel →
      ∃ s, episode map radius curs ws fuel = some s) := by
  refine ⟨?_, fun hwf hfuel => episode_completes map hwf radius curs ws fuel hgrid hfuel⟩
  intro s hs
  obtain ⟨rest, h1, h2, _⟩ :=
    episode_distribution_head map radius curs ws fuel hgrid hfilled s hs
  obtain ⟨_, _, h3⟩ := episode_root_depth_zero map radius curs ws fuel hgrid hfilled s hs
  rw [h1]
  refine ⟨rfl, h3, h2, fun hN => ?_⟩
  exact probabilities_unit s.total_nodes hN rest h2

/-- Witness for C17: the centre of the full 3 x 3 grid. -/
theorem root_bucket_is_one_and_probabilities_sum_to_one_witness :
    ∃ s, episode fullGrid3 (-1) ⟨1, 1⟩ zeroWorkspace 11 = some s ∧
      s.depthDistribution.getD 0 0 = 1 ∧
      (s.depthDistribution.drop 1).sum = s.total_nodes - 1 := by
  obtain ⟨h1, h2⟩ := root_bucket_is_one_and_probabilities_sum_to_one fullGrid3 (-1) ⟨1, 1⟩
    zeroWorkspace 11 (by decide) rfl
  obtain ⟨s, hs⟩ := h2 wellFormed_fullGrid3 (by decide)
  exact ⟨s, hs, (h1 s hs).1, (h1 s hs).2.2.1⟩

/-- C18. The depth distribution of a completed episode (any grid, root,
radius, merge links and context fill) has no interior gap: a bucket holding
0 is the last one.  Consequently, at every bucket `k ≥ 1` that the guard of
the entropy loop lets through, the factorial variable holds `(k + 1)!` once
the bucket is processed, whatever the episode, and the loop goes on from
there over the later buckets.  On a grid whose runs and merge partners lie
inside the grid the episode from a cell of the grid completes within
`getCols * getRows + 2` levels. -/
theorem distribution_has_no_interior_gap (fns : MathFns) (map : PointMap) (radius : Int)
    (curs : PixelRef) (ws : Workspace) (fuel : Nat) (mean_depth : Rat) :
    (∀ s, episode map radius curs ws fuel = some s →
      (∀ k, k < s.depthDistribution.length → s.depthDistribution.getD k 0 = 0 →
        k + 1 = s.depthDistribution.length) ∧
      (∀ k, 1 ≤ k → k < s.depthDistribution.length → 0 < s.depthDistribution.getD k 0 →
        (entropyLoop fns mean_depth s.total_nodes 1
            ((s.depthDistribution.take (k + 1)).drop 1) ⟨0, 0, 1⟩).factorial
          = ((k + 1).factorial : Rat) ∧
        entropyLoop fns mean_depth s.total_nodes 1 (s.depthDistribution.drop 1) ⟨0, 0, 1⟩
          = entropyLoop fns mean_depth s.total_nodes (k + 1)
              (s.depthDistribution.drop (k + 1))
              (entropyLoop fns mean_depth s.total_nodes 1
                ((s.depthDistribution.take (k + 1)).drop 1) ⟨0, 0, 1⟩))) ∧
    (WellFormed map → map.inGrid curs → map.getCols * map.getRows + 2 ≤ fuel →
      ∃ s, episode map radius curs ws fuel = some s) := by
  refine ⟨?_, fun hwf hgrid hfuel => episode_completes map hwf radius curs ws fuel hgrid hfuel⟩
  intro s hs
  have hgap := episode_noGap map radius curs ws fuel s hs
  exact ⟨fun k hk h0 => noGap_last_bucket s.depthDistribution hgap k hk h0,
    fun k hk1 hk hpos =>
      factorial_at_bucket fns mean_depth s.total_nodes s.depthDistribution hgap k hk1 hk hpos⟩

/-- Witness for C18: the chain grid, whose distribution is [1, 1, 0]; bucket
2 is empty and is the last one, and after bucket 1 the factorial variable
holds 2. -/
theorem distribution_has_no_interior_gap_witness :
    ∃ s, episode chainGrid (-1) ⟨0, 0⟩ zeroWorkspace 5 = some s ∧
      s.depthDistribution = [1, 1, 0] ∧
      (∀ k, k < s.depthDistribution.length → s.depthDistribution.getD k 0 = 0 →
        k + 1 = s.depthDistribution.length) ∧
      (entropyLoop unitFns 1 s.total_nodes 1 ((s.depthDistribution.take 2).drop 1)
        ⟨0, 0, 1⟩).factorial = ((1 + 1).factorial : Rat) := by
  have h : ∃ s, episode chainGrid (-1) ⟨0, 0⟩ zeroWorkspace 5 = some s ∧
      s.depthDistribution = [1, 1, 0] := by decide
  obtain ⟨s, hs, hd⟩ := h
  have hthm :=
    (distribution_has_no_interior_gap unitFns chainGrid (-1) ⟨0, 0⟩ zeroWorkspace 5 1).1 s hs
  refine ⟨s, hs, hd, hthm.1, (hthm.2 1 (le_refl 1) ?_ ?_).1⟩
  · rw [hd]; decide
  · rw [hd]; decide

/-- C19. At every point of an episode the visited marker of each cell of
the grid is 0, the bit `1 << i` of one bin `i < 32`, or `~0`: this holds at
the end of every level, in every workspace state between the calls of an
episode, and it is kept by every step of a walk over a run of a bin
`i < 32` and by every visit.  A bin bit is the power `2 ^ i`, differs from 0
and never equals `~0`.  The first discovery wins: `extractUnseen` leaves a
marker that is not 0 as it is. -/
theorem markers_are_zero_bin_bit_or_consumed (map : PointMap) (radius : Int)
    (curs : PixelRef) (ws : Workspace) :
    (∀ k, MarkersOk map (levelState map radius curs ws k).ws) ∧
    (∀ w, Reachable map w → MarkersOk map w) ∧
    (∀ (i : Nat) (dir : Dir) (e : Int) (n : Nat) (pix : PixelRef)
      (st : Workspace × List PixelRef) (c : PixelRef), i < 32 →
      MarkerShape (st.1.miscs c) → MarkerShape ((scanRun i dir e n pix st).1.miscs c)) ∧
    (∀ (level : Nat) (t : SearchState) (ref c : PixelRef),
      MarkerShape (t.ws.miscs c) → MarkerShape ((visit map radius level t ref).ws.miscs c)) ∧
    (∀ i, i < 32 → binBit i = 2 ^ i ∧ binBit i ≠ 0 ∧ binBit i ≠ allOnes) ∧
    (∀ (node : Node) (pixels : List PixelRef) (w : Workspace) (c : PixelRef),
      w.miscs c ≠ 0 → (extractUnseen node pixels w).1.miscs c = w.miscs c) :=
  ⟨markersOk_levelState map radius curs ws,
    fun w hw => markersOk_of_reachable map w hw,
    fun i dir e n pix st c hi h => markerShape_scanRun i hi dir e c n pix st h,
    fun level t ref c h => markerShape_visit map radius level t ref c h,
    fun _ hi => ⟨binBit_eq_pow hi, binBit_ne_zero hi, binBit_ne_allOnes hi⟩,
    fun node pixels w _ hc => (extractUnseen_marked node pixels w).misc_eq hc⟩

end VGAVisualGlobal
